import Mathlib

/-!
Verification of the EmbraceDB storage-engine core: a shallow embedding of the
B+Tree index (`src/indexing/btree.cpp`), the write-ahead log writer and reader
(`src/storage/wal.cpp`), the snapshotter (`storage/snapshot.cpp`) and the
engine facade, together with proofs about recovery, error handling and the
tree invariants.

Keys and values are byte strings, modelled as `List Nat` (each byte `< 256` in
the C++ source; byte values are carried verbatim by every operation modelled
here).  File contents are `List Nat` byte sequences.  I/O that can fail
(the WAL buffer flush triggered by an append) is modelled by passing the
outcome of that flush as an explicit `Status` argument; all other file
operations in the engine model are taken to succeed.
-/

namespace EmbraceDB

/-- Byte strings (`core::Key`, `core::Value` are `std::string`). -/
abbrev Key := List Nat

abbrev Val := List Nat

/-! ### `core/status.hpp` -/

/-- `core::StatusCode`. -/
inductive StatusCode where
  | ok
  | notFound
  | corruption
  | notSupported
  | invalidArgument
  | ioError
deriving DecidableEq, Repr

/-- `core::Status`: a code plus a message. -/
structure Status where
  code : StatusCode
  msg : String
deriving DecidableEq, Repr

namespace Status

def Ok : Status := ⟨.ok, ""⟩

def NotFound (m : String) : Status := ⟨.notFound, m⟩

def Corruption (m : String) : Status := ⟨.corruption, m⟩

def InvalidArgument (m : String) : Status := ⟨.invalidArgument, m⟩

def IOError (m : String) : Status := ⟨.ioError, m⟩

/-- `Status::ok()`. -/
def isOk (s : Status) : Bool := s.code = StatusCode.ok

/-- `Status::is_not_found()`. -/
def isNotFound (s : Status) : Bool := s.code = StatusCode.notFound

end Status

/-! ### `core/common.hpp` constants -/

def MAX_KEY_SIZE : Nat := 128

def MAX_VALUE_SIZE : Nat := 1024

/-! ### `storage/checksum.cpp`

CRC32, reflected polynomial `0xEDB88320`, initial and final XOR `0xFFFFFFFF`.
The C++ builds a 256-entry table at compile time; `crcTableEntry i` is exactly
the value `CRC32_TABLE[i]` (the 8-round inner loop of
`generate_crc32_table`). -/

/-- One round of the table-generation loop:
`crc = (crc >> 1) ^ ((crc & 1) ? polynomial : 0)`. -/
def crcRound (crc : Nat) : Nat :=
  (crc >>> 1) ^^^ (if crc &&& 1 = 1 then 0xEDB88320 else 0)

/-- `CRC32_TABLE[i]`: eight rounds starting from `i`. -/
def crcTableEntry (i : Nat) : Nat :=
  crcRound (crcRound (crcRound (crcRound (crcRound (crcRound (crcRound (crcRound i)))))))

/-- The byte-step of `compute_crc32`:
`crc = CRC32_TABLE[(crc ^ byte) & 0xFF] ^ (crc >> 8)`. -/
def crcStep (crc b : Nat) : Nat :=
  crcTableEntry ((crc ^^^ b) &&& 0xFF) ^^^ (crc >>> 8)

/-- `compute_crc32(data, len)` over a byte list. -/
def compute_crc32 (data : List Nat) : Nat :=
  (data.foldl crcStep 0xFFFFFFFF) ^^^ 0xFFFFFFFF

/-! ### Little-endian 32-bit framing helpers -/

/-- `write_le32`: the four little-endian bytes of a 32-bit value. -/
def le32 (v : Nat) : List Nat :=
  [v &&& 0xFF, (v >>> 8) &&& 0xFF, (v >>> 16) &&& 0xFF, (v >>> 24) &&& 0xFF]

/-- `read_le32`: recompose four bytes, little-endian. -/
def readLe32 (b : List Nat) : Nat :=
  match b with
  | [b0, b1, b2, b3] => b0 ||| (b1 <<< 8) ||| (b2 <<< 16) ||| (b3 <<< 24)
  | _ => 0

/-! ### `storage/wal.hpp` / `storage/wal.cpp`: records and the writer -/

/-- The numeric values of `enum class WalRecordType : uint8_t`.  As written in
`wal.hpp`, `Checkpoint = 3`, which collides with `Update = 3` (the repository's
`ARCHITECTURE.md` documents Checkpoint as 4). -/
def WalType.Put : Nat := 1

def WalType.Delete : Nat := 2

def WalType.Update : Nat := 3

def WalType.Checkpoint : Nat := 3

/-- `storage::WalRecord`. -/
structure WalRecord where
  type : Nat
  key : Key
  value : Val
deriving DecidableEq, Repr

/-- The CRC-covered part of a record's on-disk image:
`type | key_len | key | value_len | value` (`write_record`'s `temp_record`). -/
def recordBody (r : WalRecord) : List Nat :=
  r.type :: (le32 r.key.length ++ r.key ++ le32 r.value.length ++ r.value)

/-- The full on-disk image of one WAL record: body followed by its CRC32. -/
def encodeRecord (r : WalRecord) : List Nat :=
  recordBody r ++ le32 (compute_crc32 (recordBody r))

/-- The status `WalWriter::write_record` returns, given the outcome `io` of the
buffer flush that an append may trigger (`flush_buffer`).  The size checks
precede the flush; the record is enqueued only if everything succeeded. -/
def writeRecordStatus (io : Status) (r : WalRecord) : Status :=
  if r.key.length > MAX_KEY_SIZE then .InvalidArgument "Key too large for WAL"
  else if r.value.length > MAX_VALUE_SIZE then .InvalidArgument "Value too large for WAL"
  else io

/-- `WalWriter::write_record` acting on the writer's accumulated bytes
(buffer plus file, as delivered by a later successful flush). -/
def writeRecord (io : Status) (r : WalRecord) (wal : List Nat) : Status × List Nat :=
  let st := writeRecordStatus io r
  if st.isOk then (st, wal ++ encodeRecord r) else (st, wal)

/-- `write_put(key, value)`: a record of type `Put = 1`. -/
def putRecord (k : Key) (v : Val) : WalRecord := ⟨WalType.Put, k, v⟩

/-- `write_delete(key)`: a record of type `Delete = 2` with empty value. -/
def deleteRecord (k : Key) : WalRecord := ⟨WalType.Delete, k, []⟩

/-- `write_update(key, value)`: a record of type `Update = 3`. -/
def updateRecord (k : Key) (v : Val) : WalRecord := ⟨WalType.Update, k, v⟩

/-- `write_checkpoint()`: a record of type `Checkpoint` (numerically 3) with
empty key and value. -/
def checkpointRecord : WalRecord := ⟨WalType.Checkpoint, [], []⟩

/-! ### `WalReader` -/

/-- Result of a reader step: cleanly at end of file, corrupt, or a value. -/
inductive ReadErr where
  | eofClean
  | corrupt (m : String)
deriving DecidableEq, Repr

/-- `WalReader::read_bytes(dest, n)` over the remaining stream.  A refill that
hits end-of-file with partial progress yields the partial-record corruption;
with zero progress it yields the clean `NotFound` end-of-file. -/
def readBytes (n : Nat) (s : List Nat) : Except ReadErr (List Nat × List Nat) :=
  if n ≤ s.length then .ok (s.take n, s.drop n)
  else if s.length = 0 then .error .eofClean
  else .error (.corrupt "Partial record at end of WAL")

/-- `WalReader::read_next`.  Only an end-of-file on the very first byte is a
clean EOF; every later failure is squashed to `Corruption`. -/
def readNext (s : List Nat) : Except ReadErr (WalRecord × List Nat) :=
  match readBytes 1 s with
  | .error e => .error e
  | .ok (tb, s1) =>
    let t := tb.headD 0
    if t < 1 ∨ t > 4 then .error (.corrupt "Invalid WAL record type")
    else
      match readBytes 4 s1 with
      | .error _ => .error (.corrupt "Failed to read key length")
      | .ok (klb, s2) =>
        let keyLen := readLe32 klb
        if keyLen > MAX_KEY_SIZE then .error (.corrupt "Key length exceeds maximum")
        else
          match readBytes keyLen s2 with
          | .error _ => .error (.corrupt "Failed to read key data")
          | .ok (key, s3) =>
            match readBytes 4 s3 with
            | .error _ => .error (.corrupt "Failed to read value length")
            | .ok (vlb, s4) =>
              let valLen := readLe32 vlb
              if valLen > MAX_VALUE_SIZE then .error (.corrupt "Value length exceeds maximum")
              else
                match readBytes valLen s4 with
                | .error _ => .error (.corrupt "Failed to read value data")
                | .ok (value, s5) =>
                  match readBytes 4 s5 with
                  | .error _ => .error (.corrupt "Failed to read CRC32")
                  | .ok (crcb, s6) =>
                    let stored := readLe32 crcb
                    let computed := compute_crc32 (t :: (klb ++ key ++ vlb ++ value))
                    if stored ≠ computed then .error (.corrupt "CRC mismatch in WAL record")
                    else .ok (⟨t, key, value⟩, s6)

/-! ### `indexing/node.hpp` and `indexing/btree.cpp`: the B+Tree

A node is a leaf (sorted `(key, value)` entries) or an internal node.  An
internal node with keys `k₁ < … < kₙ` and children `c₀ … cₙ` is represented by
the non-empty alternating frame `c₀ k₁ c₁ … kₙ cₙ`, which makes the
`children = keys + 1` arity structural.  Parent and sibling pointers of the
C++ are ownership bookkeeping with no functional content here; the leaf chain
is recovered by in-order traversal. -/

mutual

inductive BNode where
  | leaf (es : List (Key × Val))
  | node (f : Frame)

inductive Frame where
  | last (c : BNode)
  | cons (c : BNode) (s : Key) (rest : Frame)

end

/-- `max_degree_` (fixed at 4). -/
def maxDegree : Nat := 4

/-- `Btree::get_min_keys()`: `(max_degree_ + 1) / 2`, i.e. 2 (C++ integer
division truncates). -/
def getMinKeys : Nat := (maxDegree + 1) / 2

/-- Number of separator keys in a frame. -/
def frameKeys : Frame → Nat
  | .last _ => 0
  | .cons _ _ rest => frameKeys rest + 1

/-- A node's key count (`keys.size()`). -/
def nodeSize : BNode → Nat
  | .leaf es => es.length
  | .node f => frameKeys f

/-- `LeafNode::get_index` followed by the value read: `std::lower_bound` for
the first entry with key `≥ k`, then an equality check. -/
def leafLookup (es : List (Key × Val)) (k : Key) : Option Val :=
  match es.dropWhile (fun p => p.1 < k) with
  | p :: _ => if p.1 = k then some p.2 else none
  | [] => none

/-- `LeafNode::insert`: insert at the `lower_bound` position. -/
def leafInsert (k : Key) (v : Val) : List (Key × Val) → List (Key × Val)
  | [] => [(k, v)]
  | p :: rest => if p.1 < k then p :: leafInsert k v rest else (k, v) :: p :: rest

/-- Overwrite the value stored at `k` (`leaf->values[idx] = value`). -/
def leafSet (k : Key) (v : Val) : List (Key × Val) → List (Key × Val)
  | [] => []
  | p :: rest => if p.1 = k then (k, v) :: rest else p :: leafSet k v rest

/-- Erase the entry at `k` (`keys.erase(begin + idx)` after `get_index`). -/
def leafErase (k : Key) : List (Key × Val) → List (Key × Val)
  | [] => []
  | p :: rest => if p.1 = k then rest else p :: leafErase k rest

/-- Does the leaf contain `k` (`get_index(key) != -1`)? -/
def leafContains (es : List (Key × Val)) (k : Key) : Bool :=
  (leafLookup es k).isSome

/-! `Btree::get` via `find_leaf` (descend by `upper_bound`: enter the child
before the first separator `> k`). -/

mutual

def treeGet (t : BNode) (k : Key) : Option Val :=
  match t with
  | .leaf es => leafLookup es k
  | .node f => frameGet f k
termination_by structural t

def frameGet (f : Frame) (k : Key) : Option Val :=
  match f with
  | .last c => treeGet c k
  | .cons c s rest => if k < s then treeGet c k else frameGet rest k
termination_by structural f

end

/-! `Btree::put`: descend to the target leaf; overwrite on duplicate,
otherwise insert and split on overflow (`split_leaf` / `split_internal`,
split index `(max_degree_ + 1) / 2 = 2`, cascading through
`insert_into_parent`). -/

/-- Result of inserting into a subtree: the node, or a split
`(left, promoted separator, right)`. -/
inductive InsRes where
  | one (t : BNode)
  | split (l : BNode) (s : Key) (r : BNode)

/-- `split_leaf`: left keeps the first `split_idx = 2` entries, the right
sibling takes the rest, and the right sibling's first key is promoted
(copied). -/
def splitLeafEntries (es : List (Key × Val)) : InsRes :=
  match es.drop 2 with
  | p :: tail => .split (.leaf (es.take 2)) p.1 (.leaf (p :: tail))
  | [] => .one (.leaf es)

/-- `split_internal`: the key at `split_idx = 2` is moved up; the right
sibling receives keys `[3..]` and children `[3..]`. -/
def splitFrame (f : Frame) : InsRes :=
  match f with
  | .cons a sa (.cons b sb (.cons c sc rest)) =>
    .split (.node (.cons a sa (.cons b sb (.last c)))) sc (.node rest)
  | _ => .one (.node f)

mutual

def putRec (k : Key) (v : Val) (t : BNode) : InsRes :=
  match t with
  | .leaf es =>
    if leafContains es k then .one (.leaf (leafSet k v es))
    else
      let es1 := leafInsert k v es
      if es1.length ≥ maxDegree then splitLeafEntries es1 else .one (.leaf es1)
  | .node f =>
    let (fn, grew) := putFrame k v f
    if grew ∧ frameKeys fn ≥ maxDegree then splitFrame fn else .one (.node fn)
termination_by structural t

/-- Insert below the child chosen by `upper_bound`; splice a child split into
this node's frame at that position (`insert_into_parent`).  The flag reports
whether a key was spliced in: `split_internal` runs only when
`insert_into_parent` actually inserted here and the key count then reached
`max_degree`. -/
def putFrame (k : Key) (v : Val) (f : Frame) : Frame × Bool :=
  match f with
  | .last c =>
    match putRec k v c with
    | .one cn => (.last cn, false)
    | .split l s r => (.cons l s (.last r), true)
  | .cons c s1 rest =>
    if k < s1 then
      match putRec k v c with
      | .one cn => (.cons cn s1 rest, false)
      | .split l s r => (.cons l s (.cons r s1 rest), true)
    else
      let (restn, g) := putFrame k v rest
      (.cons c s1 restn, g)
termination_by structural f

end

/-- `Btree::put`'s tree mutation: on a root split, a new internal root holds
the promoted key and the two halves (`insert_into_parent`, root case). -/
def treePut (t : BNode) (k : Key) (v : Val) : BNode :=
  match putRec k v t with
  | .one t1 => t1
  | .split l s r => .node (.cons l s (.last r))

/-! `Btree::update`'s tree mutation: locate the leaf; `none` when the key is
absent, otherwise overwrite the value in place. -/

mutual

def updRec (k : Key) (v : Val) (t : BNode) : Option BNode :=
  match t with
  | .leaf es =>
    if leafContains es k then some (.leaf (leafSet k v es)) else none
  | .node f => (updFrame k v f).map .node
termination_by structural t

def updFrame (k : Key) (v : Val) (f : Frame) : Option Frame :=
  match f with
  | .last c => (updRec k v c).map .last
  | .cons c s rest =>
    if k < s then (updRec k v c).map fun cn => .cons cn s rest
    else (updFrame k v rest).map fun rn => .cons c s rn
termination_by structural f

end

/-! `Btree::remove` and `rebalance_after_delete` / `handle_underflow_internal`.

A node whose key count just dropped below `get_min_keys() = 2` and is not the
root is rebalanced by its parent: borrow from the right sibling if it has
`> 2` keys, else borrow from the left sibling if it has `> 2` keys, else merge
into the left sibling when one exists, else merge the right sibling in.  After
a merge the parent may underflow in turn, which its own parent handles on the
way back up. -/

/-- The first key of a leaf's entry list (used for the refreshed separator
after a leaf borrow); defensively `[]` on an empty list. -/
def firstKeyD : List (Key × Val) → Key
  | p :: _ => p.1
  | [] => []

/-- The first child of a frame. -/
def frameHead : Frame → BNode
  | .last c => c
  | .cons c _ _ => c

/-- Replace the first child of a frame. -/
def frameSetHead (c : BNode) : Frame → Frame
  | .last _ => .last c
  | .cons _ s rest => .cons c s rest

/-- Append a separator and child at the end of a frame
(`keys.push_back` / `children.push_back`). -/
def frameSnoc (f : Frame) (s : Key) (c : BNode) : Frame :=
  match f with
  | .last c0 => .cons c0 s (.last c)
  | .cons c0 s0 rest => .cons c0 s0 (frameSnoc rest s c)

/-- Detach the last separator and child of a frame
(`keys.pop_back` / `children.pop_back`); `none` if there is no separator. -/
def frameUnsnoc : Frame → Option (Frame × Key × BNode)
  | .last _ => none
  | .cons c0 s0 (.last c1) => some (.last c0, s0, c1)
  | .cons c0 s0 (.cons c1 s1 rest) =>
    (frameUnsnoc (.cons c1 s1 rest)).map fun (f, s, c) => (.cons c0 s0 f, s, c)

/-- Join two frames across a separator (internal merge: left keys, the pulled
down separator, right keys; children concatenated). -/
def frameAppend (f : Frame) (s : Key) (g : Frame) : Frame :=
  match f with
  | .last c0 => .cons c0 s g
  | .cons c0 s0 rest => .cons c0 s0 (frameAppend rest s g)

/-- Borrow from the right sibling.  `s2` is the parent separator between
`cur` and `right`; the result is `(cur', new separator, right')`.
Leaves move the sibling's first entry and promote the sibling's new first key;
internal nodes rotate through `s2` (`handle_underflow_internal`, first case).
Mismatched shapes (unreachable on well-formed trees) are left unchanged. -/
def borrowFromRightPair (cur right : BNode) (s2 : Key) : BNode × Key × BNode :=
  match cur, right with
  | .leaf es, .leaf (p :: fs) => (.leaf (es ++ [p]), firstKeyD fs, .leaf fs)
  | .node df, .node (.cons e0 ek erest) => (.node (frameSnoc df s2 e0), ek, .node erest)
  | _, _ => (cur, s2, right)

/-- Borrow from the left sibling.  `s` is the parent separator between `left`
and `cur`; the result is `(left', new separator, cur')`. -/
def borrowFromLeftPair (left cur : BNode) (s : Key) : BNode × Key × BNode :=
  match left, cur with
  | .leaf es, .leaf fs =>
    (.leaf es.dropLast, firstKeyD (es.getLastD ([], []) :: fs),
      .leaf (es.getLastD ([], []) :: fs))
  | .node df, .node ef =>
    match frameUnsnoc df with
    | some (dfn, dk, dc) => (.node dfn, dk, .node (.cons dc s ef))
    | none => (left, s, cur)
  | _, _ => (left, s, cur)

/-- Merge `cur` into `left` across the separator `s` (`merge_with_left`, or
`merge_with_right` read from the surviving node's side): leaves concatenate
their entries, internal nodes pull `s` down as the join key. -/
def mergePair (left cur : BNode) (s : Key) : BNode :=
  match left, cur with
  | .leaf es, .leaf fs => .leaf (es ++ fs)
  | .node df, .node ef => .node (frameAppend df s ef)
  | _, _ => left

/-- Rebalance a deficient first child `c0` (no left sibling): borrow from the
right sibling — the first child of `rest` — if it is rich enough, else merge
with it.  The flag reports whether a merge removed a key from this node. -/
def fixFirst (c0 : BNode) (s1 : Key) (rest : Frame) : Frame × Bool :=
  let c1 := frameHead rest
  if nodeSize c1 > getMinKeys then
    let (n, s, r) := borrowFromRightPair c0 c1 s1
    (.cons n s (frameSetHead r rest), false)
  else
    match rest with
    | .last _ => (.last (mergePair c0 c1 s1), true)
    | .cons _ s2 rest2 => (.cons (mergePair c0 c1 s1) s2 rest2, true)

/-- Rebalance a deficient child — the first child of `g` — whose left sibling
is `left` (separator `sep` between them): try borrow-right, then borrow-left,
then merge with the left sibling.  The flag reports a merge. -/
def fixWithLeft (left : BNode) (sep : Key) (g : Frame) : Frame × Bool :=
  match g with
  | .cons cur s2 rest2 =>
    let right := frameHead rest2
    if nodeSize right > getMinKeys then
      let (n, s2n, r) := borrowFromRightPair cur right s2
      (.cons left sep (.cons n s2n (frameSetHead r rest2)), false)
    else if nodeSize left > getMinKeys then
      let (l, sepn, n) := borrowFromLeftPair left cur sep
      (.cons l sepn (.cons n s2 rest2), false)
    else (.cons (mergePair left cur sep) s2 rest2, true)
  | .last cur =>
    if nodeSize left > getMinKeys then
      let (l, sepn, n) := borrowFromLeftPair left cur sep
      (.cons l sepn (.last n), false)
    else (.last (mergePair left cur sep), true)

mutual

/-- Delete `k` from the subtree.  The flag reports that this node's key count
just decreased: a leaf erases its entry; an internal node shrinks exactly when
rebalancing merged two of its children.  A child is rebalanced when its key
count just decreased below `get_min_keys()` — `rebalance_after_delete` runs
right after the leaf erase and then recurses upward only out of merges. -/
def delRec (k : Key) (t : BNode) : BNode × Bool :=
  match t with
  | .leaf es => (.leaf (leafErase k es), true)
  | .node f =>
    let (fn, merged) := delFrame k f
    (.node fn, merged)
termination_by structural t

def delFrame (k : Key) (f : Frame) : Frame × Bool :=
  match f with
  | .last c => (.last (delRec k c).1, false)
  | .cons c0 s1 rest =>
    if k < s1 then
      let (c0n, shrank) := delRec k c0
      if shrank ∧ nodeSize c0n < getMinKeys then fixFirst c0n s1 rest
      else (.cons c0n s1 rest, false)
    else delGo c0 s1 rest k
termination_by structural f

/-- Walk to the child holding `k` (the first child of `g`, or further right);
on return, a child whose key count just dropped below the minimum is
rebalanced with its neighbours (its left sibling is in scope here). -/
def delGo (left : BNode) (sep : Key) (g : Frame) (k : Key) : Frame × Bool :=
  match g with
  | .last cur =>
    let (curn, shrank) := delRec k cur
    if shrank ∧ nodeSize curn < getMinKeys then fixWithLeft left sep (.last curn)
    else (.cons left sep (.last curn), false)
  | .cons cur s2 rest2 =>
    if k < s2 then
      let (curn, shrank) := delRec k cur
      if shrank ∧ nodeSize curn < getMinKeys then fixWithLeft left sep (.cons curn s2 rest2)
      else (.cons left sep (.cons curn s2 rest2), false)
    else
      let (gn, merged) := delGo cur s2 rest2 k
      (.cons left sep gn, merged)
termination_by structural g

end

/-- Root collapse (`Btree::remove`): an internal root left with zero keys and
a single child is replaced by that child. -/
def collapseRoot : BNode → BNode
  | .node (.last c) => c
  | t => t

/-- Is the root an empty leaf?  (`remove` returns before the collapse check
and before the operation counter in that case.) -/
def isEmptyLeafRoot : BNode → Bool
  | .leaf [] => true
  | _ => false

/-- `Btree::remove`'s tree mutation: `none` when the key is absent
(`find_leaf` + `get_index`), otherwise erase, rebalance, and collapse the
root unless the root is now an empty leaf (in which case `remove` returned
early, skipping the collapse check — a no-op there anyway). -/
def treeRemove (t : BNode) (k : Key) : Option BNode :=
  match treeGet t k with
  | none => none
  | some _ =>
    let t1 := (delRec k t).1
    if isEmptyLeafRoot t1 then some t1 else some (collapseRoot t1)

/-! `Btree::iterate_all`: every `(key, value)` pair in leaf-chain order,
i.e. in-order. -/

mutual

def entries : BNode → List (Key × Val)
  | .leaf es => es
  | .node f => frameEntries f
termination_by structural t => t

def frameEntries : Frame → List (Key × Val)
  | .last c => entries c
  | .cons c _ rest => entries c ++ frameEntries rest
termination_by structural f => f

end

/-! ### `storage/snapshot.cpp`: the snapshotter -/

def SNAPSHOT_MAGIC : Nat := 0x454D4252

def SNAPSHOT_VERSION : Nat := 1

/-- The 12 header bytes: magic, version, entry count, little-endian
(`header_data` in `create_snapshot` / `load_snapshot`; the C++ takes the low
four bytes of each, exactly as `le32` does). -/
def headerBytes (count : Nat) : List Nat :=
  le32 SNAPSHOT_MAGIC ++ le32 SNAPSHOT_VERSION ++ le32 count

/-- The CRC-covered image of one snapshot entry:
`key_len | key | value_len | value` (`entry_data`). -/
def entryImage (k : Key) (v : Val) : List Nat :=
  le32 k.length ++ k ++ le32 v.length ++ v

/-- One snapshot entry as written: image then its CRC32. -/
def entryBytes (k : Key) (v : Val) : List Nat :=
  entryImage k v ++ le32 (compute_crc32 (entryImage k v))

/-- `Snapshotter::create_snapshot`, as the bytes of the published file:
header, header CRC, then one entry per `(key, value)` in tree order. -/
def serializeSnapshot (es : List (Key × Val)) : List Nat :=
  headerBytes es.length ++ le32 (compute_crc32 (headerBytes es.length)) ++
    es.flatMap fun p => entryBytes p.1 p.2

/-- `read_le32_from_fd`: exactly four bytes or an `IOError`. -/
def readLe32Fd (s : List Nat) : Except Status (Nat × List Nat) :=
  if 4 ≤ s.length then .ok (readLe32 (s.take 4), s.drop 4)
  else .error (.IOError "Failed to read uint32")

/-- `read_string_from_fd`: a length prefix, sanity-checked only against
`MAX_KEY_SIZE * 10`, then that many bytes. -/
def readStringFd (s : List Nat) : Except Status (List Nat × List Nat) :=
  match readLe32Fd s with
  | .error st => .error st
  | .ok (len, s1) =>
    if len > MAX_KEY_SIZE * 10 then .error (.Corruption "String length too large")
    else if len ≤ s1.length then .ok (s1.take len, s1.drop len)
    else .error (.IOError "Failed to read string data")

/-- The entry loop of `Snapshotter::load_snapshot`: read key, value and entry
CRC, validate, and insert through the engine's `put` (replaying with the
recovery flag set, so `put` is the bare tree insertion). -/
def loadEntries : Nat → BNode → List Nat → Status × BNode
  | 0, t, _ => (.Ok, t)
  | i + 1, t, s =>
    match readStringFd s with
    | .error _ => (.Corruption "Failed to read key at entry", t)
    | .ok (key, s1) =>
      match readStringFd s1 with
      | .error _ => (.Corruption "Failed to read value at entry", t)
      | .ok (value, s2) =>
        match readLe32Fd s2 with
        | .error _ => (.Corruption "Failed to read entry CRC at entry", t)
        | .ok (storedCrc, s3) =>
          if storedCrc ≠ compute_crc32 (entryImage key value) then
            (.Corruption "Entry CRC mismatch at entry", t)
          else loadEntries i (treePut t key value) s3

/-- `Snapshotter::load_snapshot` on the file's bytes (the absent-file case is
the `snap = none` branch of recovery).  Entries already inserted stay in the
tree when a later entry is corrupt. -/
def loadSnapshot (t : BNode) (s : List Nat) : Status × BNode :=
  match readLe32Fd s with
  | .error st => (st, t)
  | .ok (magic, s1) =>
    if magic ≠ SNAPSHOT_MAGIC then (.Corruption "Invalid snapshot magic", t)
    else
      match readLe32Fd s1 with
      | .error st => (st, t)
      | .ok (version, s2) =>
        if version ≠ SNAPSHOT_VERSION then (.Corruption "Unsupported snapshot version", t)
        else
          match readLe32Fd s2 with
          | .error st => (st, t)
          | .ok (count, s3) =>
            match readLe32Fd s3 with
            | .error st => (st, t)
            | .ok (storedCrc, s4) =>
              if storedCrc ≠ compute_crc32 (headerBytes count) then
                (.Corruption "Snapshot header CRC mismatch", t)
              else loadEntries count t s4

/-! ### WAL replay (`Btree::recover_from_wal`) -/

/-- How one decoded record mutates the tree during replay (the engine's own
`put` / `remove` / `update` run with `recovering_` set, so only the tree
changes).  A `NotFound` from `remove` is ignored; an `UPDATE` on a missing key
is upgraded to a `PUT`.  Because `Checkpoint = 3` equals `Update = 3`, the
dedicated checkpoint branch is dead code, and a record of type 4 — which the
reader accepts — matches no branch at all. -/
def applyRecord (t : BNode) (r : WalRecord) : BNode :=
  if r.type = WalType.Put then treePut t r.key r.value
  else if r.type = WalType.Delete then
    match treeRemove t r.key with
    | some t1 => t1
    | none => t
  else if r.type = WalType.Update then
    match updRec r.key r.value t with
    | some t1 => t1
    | none => treePut t r.key r.value
  else t

theorem readBytes_ok_iff {n : Nat} {s a b : List Nat} :
    readBytes n s = .ok (a, b) ↔ n ≤ s.length ∧ a = s.take n ∧ b = s.drop n := by
  unfold readBytes
  split
  · simp_all [eq_comm, and_comm]
  · split <;> simp_all <;> omega

theorem readBytes_ok_len {n : Nat} {s a b : List Nat} (h : readBytes n s = .ok (a, b)) :
    n ≤ s.length ∧ b.length + n = s.length := by
  rw [readBytes_ok_iff] at h
  obtain ⟨h1, -, h3⟩ := h
  subst h3
  simp
  omega

theorem readNext_ok_length {s : List Nat} {r : WalRecord} {rest : List Nat}
    (h : readNext s = .ok (r, rest)) : rest.length < s.length := by
  unfold readNext at h
  cases hb1 : readBytes 1 s with
  | error e => rw [hb1] at h; simp at h
  | ok p1 =>
    obtain ⟨tb, s1⟩ := p1
    rw [hb1] at h
    have l1 := readBytes_ok_len hb1
    dsimp only at h
    split at h
    · simp at h
    · cases hb2 : readBytes 4 s1 with
      | error e => rw [hb2] at h; simp at h
      | ok p2 =>
        obtain ⟨klb, s2⟩ := p2
        rw [hb2] at h
        have l2 := readBytes_ok_len hb2
        dsimp only at h
        split at h
        · simp at h
        · cases hb3 : readBytes (readLe32 klb) s2 with
          | error e => rw [hb3] at h; simp at h
          | ok p3 =>
            obtain ⟨key, s3⟩ := p3
            rw [hb3] at h
            have l3 := readBytes_ok_len hb3
            dsimp only at h
            cases hb4 : readBytes 4 s3 with
            | error e => rw [hb4] at h; simp at h
            | ok p4 =>
              obtain ⟨vlb, s4⟩ := p4
              rw [hb4] at h
              have l4 := readBytes_ok_len hb4
              dsimp only at h
              split at h
              · simp at h
              · cases hb5 : readBytes (readLe32 vlb) s4 with
                | error e => rw [hb5] at h; simp at h
                | ok p5 =>
                  obtain ⟨value, s5⟩ := p5
                  rw [hb5] at h
                  have l5 := readBytes_ok_len hb5
                  dsimp only at h
                  cases hb6 : readBytes 4 s5 with
                  | error e => rw [hb6] at h; simp at h
                  | ok p6 =>
                    obtain ⟨crcb, s6⟩ := p6
                    rw [hb6] at h
                    have l6 := readBytes_ok_len hb6
                    dsimp only at h
                    split at h
                    · simp at h
                    · simp only [Except.ok.injEq, Prod.mk.injEq] at h
                      obtain ⟨-, h2⟩ := h
                      subst h2
                      omega

/-- The record-replay loop of `recover_from_wal`: read until clean EOF,
surface any corruption, apply each record. -/
def replayWal (t : BNode) (s : List Nat) : Status × BNode :=
  match h : readNext s with
  | .error .eofClean => (.Ok, t)
  | .error (.corrupt m) => (.Corruption m, t)
  | .ok (r, rest) => replayWal (applyRecord t r) rest
termination_by s.length
decreasing_by exact readNext_ok_length h

/-! ### The engine facade (`Btree` with its WAL writer and snapshotter)

`Engine` carries the tree, whether a WAL writer is attached (path configured
and open succeeded; the snapshotter exists under the same condition), the WAL
bytes appended since the last truncation, the snapshot file if one exists, the
operation counter and the checkpoint interval.  I/O outcomes of the buffer
flush an append may trigger are an explicit `Status` argument; the snapshot
write, sync and WAL truncation of a checkpoint are modelled as succeeding. -/

structure Engine where
  tree : BNode
  hasWal : Bool
  wal : List Nat
  snap : Option (List Nat)
  opCount : Nat
  ckptInterval : Nat

/-- `Btree::Btree(wal_path)`: an empty leaf root, counter 0, checkpoint
interval 10000; WAL writer and snapshotter exist when a path was given. -/
def freshEngine (withWal : Bool) : Engine :=
  { tree := .leaf [], hasWal := withWal, wal := [], snap := none,
    opCount := 0, ckptInterval := 10000 }

/-- `Btree::create_checkpoint`: without a snapshotter, `InvalidArgument`;
otherwise publish a snapshot of the current tree and truncate the WAL. -/
def createCheckpoint (e : Engine) : Status × Engine :=
  if !e.hasWal then (.InvalidArgument "Snapshotter not initialized", e)
  else (.Ok, { e with snap := some (serializeSnapshot (entries e.tree)), wal := [] })

/-- The post-mutation bookkeeping shared by `put`, `update` and `remove`
outside recovery: bump the counter and auto-checkpoint on multiples of the
interval (a checkpoint failure would not fail the operation). -/
def bumpCounter (e : Engine) : Engine :=
  let e1 := { e with opCount := e.opCount + 1 }
  if e1.ckptInterval > 0 ∧ e1.opCount % e1.ckptInterval = 0 then (createCheckpoint e1).2
  else e1

/-- `Btree::put` outside recovery.  `io` is the outcome of the buffer flush
the append may trigger.  On a duplicate key the value is overwritten and `put`
returns before the counter logic. -/
def enginePut (io : Status) (e : Engine) (k : Key) (v : Val) : Status × Engine :=
  let walStep := if e.hasWal then writeRecord io (putRecord k v) e.wal else (.Ok, e.wal)
  if !walStep.1.isOk then (walStep.1, e)
  else
    let e1 := { e with wal := walStep.2 }
    if (treeGet e1.tree k).isSome then (.Ok, { e1 with tree := treePut e1.tree k v })
    else (.Ok, bumpCounter { e1 with tree := treePut e1.tree k v })

/-- `Btree::update` outside recovery: absent key fails with `NotFound` before
any WAL append; otherwise append the UPDATE record, then overwrite. -/
def engineUpdate (io : Status) (e : Engine) (k : Key) (v : Val) : Status × Engine :=
  match treeGet e.tree k with
  | none => (.NotFound "Key not found for update", e)
  | some _ =>
    let walStep := if e.hasWal then writeRecord io (updateRecord k v) e.wal else (.Ok, e.wal)
    if !walStep.1.isOk then (walStep.1, e)
    else (.Ok, bumpCounter { e with wal := walStep.2, tree := (updRec k v e.tree).getD e.tree })

/-- `Btree::remove` outside recovery: absent key fails with `NotFound` before
any WAL append; otherwise append the DELETE record, erase and rebalance.  When
the root is left an empty leaf, `remove` returns before the root-collapse
check and before the counter logic. -/
def engineRemove (io : Status) (e : Engine) (k : Key) : Status × Engine :=
  match treeGet e.tree k with
  | none => (.NotFound "Key not found for deletion", e)
  | some _ =>
    let walStep := if e.hasWal then writeRecord io (deleteRecord k) e.wal else (.Ok, e.wal)
    if !walStep.1.isOk then (walStep.1, e)
    else
      let t1 := (delRec k e.tree).1
      if isEmptyLeafRoot t1 then (.Ok, { e with wal := walStep.2, tree := t1 })
      else (.Ok, bumpCounter { e with wal := walStep.2, tree := collapseRoot t1 })

/-- `Btree::flush_wal`: `sync()` on the writer; in the no-failure file model
the accumulated bytes are the file's bytes, so this is the identity. -/
def flushWal (e : Engine) : Status × Engine := (.Ok, e)

/-- `Btree::recover_from_wal`: nothing to do without a WAL path; otherwise
load the snapshot if one exists (surfacing its errors) and replay the WAL into
the current tree.  The `recovering_` flag suppresses WAL writes and counter
updates throughout, which the replay functions reflect by acting on the tree
alone. -/
def recoverFromWal (e : Engine) : Status × Engine :=
  if !e.hasWal then (.Ok, e)
  else
    match e.snap with
    | some bytes =>
      let (st, t1) := loadSnapshot e.tree bytes
      if !st.isOk then (st, { e with tree := t1 })
      else
        let (st2, t2) := replayWal t1 e.wal
        (st2, { e with tree := t2 })
    | none =>
      let (st2, t2) := replayWal e.tree e.wal
      (st2, { e with tree := t2 })

/-- Reopening a fresh engine on the same paths: the constructor state, with
the WAL file and snapshot file as left on disk. -/
def reopenEngine (snap : Option (List Nat)) (wal : List Nat) : Engine :=
  { freshEngine true with snap := snap, wal := wal }

/-- A record the WAL writer could have produced. -/
abbrev WellFormedRecord (r : WalRecord) : Prop :=
  1 ≤ r.type ∧ r.type ≤ 4 ∧ r.key.length ≤ MAX_KEY_SIZE ∧ r.value.length ≤ MAX_VALUE_SIZE

/-- A key longer than `MAX_KEY_SIZE` but within the snapshot reader's
`MAX_KEY_SIZE * 10` sanity bound. -/
def c9key : Key := List.replicate 129 7

/-- A key beyond the snapshot reader's sanity bound. -/
def c9hugeKey : Key := List.replicate 1281 7

/-- A concrete one-key engine with a WAL attached, used as a witness input. -/
def c5e : Engine := { freshEngine true with tree := .leaf [([1], [2])] }

/-! ## Theorems -/

/-! ### C2: WAL record type bytes

`write_put`, `write_delete` and `write_update` emit type bytes 1, 2 and 3 as
specified, but `write_checkpoint()` emits type byte 3, not 4: `wal.hpp`
declares `Checkpoint = 3`, colliding with `Update = 3` (the repository's own
`ARCHITECTURE.md` documents `Checkpoint` as 4, and the reader accepts the
otherwise-unused type 4). -/

/-- C2: the type bytes actually emitted.  The checkpoint record's type byte is
3 — equal to `Update` — not the specified 4. -/
theorem c2_wal_type_bytes (k : Key) (v : Val) :
    (putRecord k v).type = 1 ∧ (deleteRecord k).type = 2 ∧
      (updateRecord k v).type = 3 ∧ checkpointRecord.type = 3 ∧
      WalType.Checkpoint = WalType.Update ∧ checkpointRecord.type ≠ 4 :=
  ⟨rfl, rfl, rfl, rfl, rfl, by decide⟩

/-! ### C3: replaying a checkpoint record

Because the record `write_checkpoint()` produces carries type byte 3, replay
dispatches it to the `Update` branch, never to the dead checkpoint branch: an
UPDATE of the empty key is attempted and, the key being absent, upgraded to a
PUT.  Replaying the checkpoint marker on an empty tree therefore inserts the
entry `("", "")` — a state change, contradicting the advisory-marker
specification. -/

/-- C3: replaying the record produced by `write_checkpoint()` on an empty
tree changes the mapping: the empty key appears with the empty value. -/
theorem c3_checkpoint_replay_mutates :
    entries (applyRecord (.leaf []) checkpointRecord) = [([], [])] ∧
      entries (BNode.leaf []) = [] ∧
      treeGet (applyRecord (.leaf []) checkpointRecord) [] = some [] := by
  refine ⟨by decide, rfl, by decide⟩

/-! ### C10: `create_checkpoint` without a snapshotter

The constructor creates the snapshotter only when a WAL path was configured;
`create_checkpoint` first checks for it and fails with `InvalidArgument`
without touching anything. -/

/-- C10: on an engine without a WAL path (hence no snapshotter),
`create_checkpoint` returns `InvalidArgument` and leaves the engine — tree,
files, counter — exactly as it was. -/
theorem c10_checkpoint_without_wal_path (e : Engine) (h : e.hasWal = false) :
    createCheckpoint e = (.InvalidArgument "Snapshotter not initialized", e) := by
  simp [createCheckpoint, h]

/-- C10 witness: the freshly constructed engine with an empty WAL path. -/
theorem c10_checkpoint_without_wal_path_witness :
    (freshEngine false).hasWal = false ∧
      createCheckpoint (freshEngine false) =
        (.InvalidArgument "Snapshotter not initialized", freshEngine false) :=
  ⟨rfl, c10_checkpoint_without_wal_path (freshEngine false) rfl⟩

/-! ### C5: a failed WAL append aborts the mutation

In `put`, `update` and `remove` the WAL append comes before any tree change
(for `update`/`remove`, after only the read-only existence check), and a
failing append status is returned as-is with the engine untouched. -/

/-- C5: with a WAL writer attached, whenever the append's status is not OK —
in particular an `IOError` from the triggered buffer flush — `put`, `update`
and `remove` return exactly that status and the engine (tree, WAL bytes,
counter, snapshot) is unchanged. -/
theorem c5_wal_failure_leaves_tree_unchanged (io : Status) (e : Engine)
    (k : Key) (v : Val) (hw : e.hasWal = true) :
    (¬(writeRecordStatus io (putRecord k v)).isOk →
        enginePut io e k v = (writeRecordStatus io (putRecord k v), e)) ∧
      ((treeGet e.tree k).isSome →
        ¬(writeRecordStatus io (updateRecord k v)).isOk →
          engineUpdate io e k v = (writeRecordStatus io (updateRecord k v), e)) ∧
      ((treeGet e.tree k).isSome →
        ¬(writeRecordStatus io (deleteRecord k)).isOk →
          engineRemove io e k = (writeRecordStatus io (deleteRecord k), e)) := by
  refine ⟨fun hno => ?_, fun hk hno => ?_, fun hk hno => ?_⟩
  · simp [enginePut, hw, writeRecord, hno]
  · rw [Option.isSome_iff_exists] at hk
    obtain ⟨w, hw2⟩ := hk
    simp [engineUpdate, hw2, hw, writeRecord, hno]
  · rw [Option.isSome_iff_exists] at hk
    obtain ⟨w, hw2⟩ := hk
    simp [engineRemove, hw2, hw, writeRecord, hno]

/-- C5 witness: an `IOError` flush outcome on a one-key engine. -/
theorem c5_wal_failure_leaves_tree_unchanged_witness :
    enginePut (.IOError "flush failed") c5e [1] [7] = (.IOError "flush failed", c5e) ∧
      engineUpdate (.IOError "flush failed") c5e [1] [7] = (.IOError "flush failed", c5e) ∧
      engineRemove (.IOError "flush failed") c5e [1] = (.IOError "flush failed", c5e) := by
  obtain ⟨h1, h2, h3⟩ :=
    c5_wal_failure_leaves_tree_unchanged (.IOError "flush failed") c5e [1] [7] rfl
  exact ⟨h1 (by decide), h2 (by decide) (by decide), h3 (by decide) (by decide)⟩

/-! ### C8: `put`'s failure modes

The size checks live in `WalWriter::write_record`, so they run only when a WAL
writer is attached (and outside recovery).  On an engine without a WAL path,
`put` validates nothing and accepts arbitrarily large keys and values; with a
WAL writer and a successful flush, `put` fails exactly on oversized input,
with `InvalidArgument`. -/

set_option maxRecDepth 4000 in
/-- C8 counterexample: on an engine with no WAL configured, `put` of a key
longer than `MAX_KEY_SIZE` succeeds — it does not fail with
`InvalidArgument`. -/
theorem c8_oversized_put_without_wal_succeeds :
    MAX_KEY_SIZE < (List.replicate 129 0).length ∧
      (enginePut .Ok (freshEngine false) (List.replicate 129 0) []).1 = .Ok := by
  exact ⟨by decide, by decide⟩

/-- C8 amended: when a WAL writer is attached and its buffer flush succeeds,
`put` fails exactly when the key or value is oversized, and then with
`InvalidArgument`; when no WAL writer is attached, `put` always returns OK. -/
theorem c8_put_failure_modes (e : Engine) (k : Key) (v : Val) :
    (enginePut .Ok e k v).1 =
      if e.hasWal ∧ k.length > MAX_KEY_SIZE then .InvalidArgument "Key too large for WAL"
      else if e.hasWal ∧ v.length > MAX_VALUE_SIZE then
        .InvalidArgument "Value too large for WAL"
      else .Ok := by
  cases hw : e.hasWal with
  | false =>
    simp only [enginePut, hw, Bool.false_eq_true, false_and, if_false]
    simp [Status.isOk, Status.Ok]
    split <;> simp
  | true =>
    by_cases hkey : k.length > MAX_KEY_SIZE
    · simp [enginePut, hw, writeRecord, writeRecordStatus, putRecord, hkey,
        Status.isOk, Status.InvalidArgument]
    · by_cases hval : v.length > MAX_VALUE_SIZE
      · simp [enginePut, hw, writeRecord, writeRecordStatus, putRecord, hkey, hval,
          Status.isOk, Status.InvalidArgument]
      · simp [enginePut, hw, writeRecord, writeRecordStatus, putRecord, hkey, hval,
          Status.isOk, Status.Ok]
        split <;> simp

/-! ### C7: the operation counter and auto-checkpointing

Two mutating paths return OK without reaching the counter logic: a `put` that
overwrites an existing key returns immediately after the assignment, and a
`remove` that leaves the root an empty leaf returns from the early
empty-root check.  All other OK mutations increment the counter by one and
invoke `create_checkpoint` exactly when the interval is positive and divides
the new count. -/

/-- C7 counterexample: an overwriting `put` and a root-emptying `remove`
return OK yet leave the operation counter unchanged. -/
theorem c7_counter_skips :
    (enginePut .Ok c5e [1] [9]).1 = .Ok ∧
      (enginePut .Ok c5e [1] [9]).2.opCount = c5e.opCount ∧
      (engineRemove .Ok c5e [1]).1 = .Ok ∧
      (engineRemove .Ok c5e [1]).2.opCount = c5e.opCount := by
  refine ⟨by decide, by decide, by decide, by decide⟩

/-- A successful append: within-bounds record, flush OK. -/
theorem writeRecord_ok (r : WalRecord) (w : List Nat) (hk : r.key.length ≤ MAX_KEY_SIZE)
    (hv : r.value.length ≤ MAX_VALUE_SIZE) :
    writeRecord .Ok r w = (.Ok, w ++ encodeRecord r) := by
  have h1 : ¬r.key.length > MAX_KEY_SIZE := by omega
  have h2 : ¬r.value.length > MAX_VALUE_SIZE := by omega
  simp [writeRecord, writeRecordStatus, h1, h2, Status.isOk, Status.Ok]

/-- What the counter-and-auto-checkpoint step does, on an engine with a
snapshotter. -/
theorem bumpCounter_spec (e : Engine) (hw : e.hasWal = true) :
    (bumpCounter e).opCount = e.opCount + 1 ∧
      (bumpCounter e).tree = e.tree ∧
      (bumpCounter e).snap =
        (if e.ckptInterval > 0 ∧ (e.opCount + 1) % e.ckptInterval = 0 then
          some (serializeSnapshot (entries e.tree)) else e.snap) ∧
      (bumpCounter e).wal =
        (if e.ckptInterval > 0 ∧ (e.opCount + 1) % e.ckptInterval = 0 then [] else e.wal) := by
  simp only [bumpCounter, createCheckpoint, hw, Bool.not_true]
  split <;> simp

/-- C7 amended: on an engine with a WAL writer, with a within-bounds key and
value, (1) a `put` of a fresh key, (2) an `update` of a present key and (3) a
non-root-emptying `remove` of a present key return OK, increment the counter
by exactly one, and truncate the WAL and publish a snapshot exactly when
`checkpoint_interval > 0` divides the incremented counter; while (4) an
overwriting `put` and (5) a root-emptying `remove` return OK but leave the
counter and the checkpoint state untouched. -/
theorem c7_counter_and_checkpoint (e : Engine) (k : Key) (v : Val)
    (hw : e.hasWal = true)
    (hk : k.length ≤ MAX_KEY_SIZE) (hv : v.length ≤ MAX_VALUE_SIZE) :
    ((treeGet e.tree k).isNone →
        (enginePut .Ok e k v).1 = .Ok ∧
          (enginePut .Ok e k v).2.opCount = e.opCount + 1 ∧
          (enginePut .Ok e k v).2.snap =
            (if e.ckptInterval > 0 ∧ (e.opCount + 1) % e.ckptInterval = 0 then
              some (serializeSnapshot (entries (treePut e.tree k v))) else e.snap)) ∧
      ((treeGet e.tree k).isSome →
        (engineUpdate .Ok e k v).1 = .Ok ∧
          (engineUpdate .Ok e k v).2.opCount = e.opCount + 1 ∧
          (engineUpdate .Ok e k v).2.snap =
            (if e.ckptInterval > 0 ∧ (e.opCount + 1) % e.ckptInterval = 0 then
              some (serializeSnapshot (entries ((updRec k v e.tree).getD e.tree)))
            else e.snap)) ∧
      ((treeGet e.tree k).isSome → ¬isEmptyLeafRoot (delRec k e.tree).1 →
        (engineRemove .Ok e k).1 = .Ok ∧
          (engineRemove .Ok e k).2.opCount = e.opCount + 1 ∧
          (engineRemove .Ok e k).2.snap =
            (if e.ckptInterval > 0 ∧ (e.opCount + 1) % e.ckptInterval = 0 then
              some (serializeSnapshot (entries (collapseRoot (delRec k e.tree).1)))
            else e.snap)) ∧
      ((treeGet e.tree k).isSome →
        (enginePut .Ok e k v).1 = .Ok ∧
          (enginePut .Ok e k v).2.opCount = e.opCount ∧
          (enginePut .Ok e k v).2.snap = e.snap) ∧
      ((treeGet e.tree k).isSome → isEmptyLeafRoot (delRec k e.tree).1 →
        (engineRemove .Ok e k).1 = .Ok ∧
          (engineRemove .Ok e k).2.opCount = e.opCount ∧
          (engineRemove .Ok e k).2.snap = e.snap) := by
  have hput := writeRecord_ok (putRecord k v) e.wal hk hv
  have hupd := writeRecord_ok (updateRecord k v) e.wal hk hv
  have hdel := writeRecord_ok (deleteRecord k) e.wal hk (by simp [deleteRecord])
  refine ⟨fun hnone => ?_, fun hsome => ?_, fun hsome hne => ?_, fun hsome => ?_,
    fun hsome hemp => ?_⟩
  · rw [Option.isNone_iff_eq_none] at hnone
    obtain ⟨b1, b2, b3, -⟩ :=
      bumpCounter_spec
        { e with wal := e.wal ++ encodeRecord (putRecord k v), tree := treePut e.tree k v } hw
    simp_all [enginePut, hw, Status.isOk, Status.Ok]
  · rw [Option.isSome_iff_exists] at hsome
    obtain ⟨w, hsome⟩ := hsome
    obtain ⟨b1, b2, b3, -⟩ :=
      bumpCounter_spec
        { e with wal := e.wal ++ encodeRecord (updateRecord k v),
                 tree := (updRec k v e.tree).getD e.tree } hw
    simp_all [engineUpdate, hw, Status.isOk, Status.Ok]
  · rw [Option.isSome_iff_exists] at hsome
    obtain ⟨w, hsome⟩ := hsome
    obtain ⟨b1, b2, b3, -⟩ :=
      bumpCounter_spec
        { e with wal := e.wal ++ encodeRecord (deleteRecord k),
                 tree := collapseRoot (delRec k e.tree).1 } hw
    simp_all [engineRemove, hw, Status.isOk, Status.Ok]
  · rw [Option.isSome_iff_exists] at hsome
    obtain ⟨w, hsome⟩ := hsome
    simp_all [enginePut, hw, Status.isOk, Status.Ok]
  · rw [Option.isSome_iff_exists] at hsome
    obtain ⟨w, hsome⟩ := hsome
    simp_all [engineRemove, hw, Status.isOk, Status.Ok]

/-- C7 amended, witness: on a one-key engine (interval 10000), an `update`
advances the counter to 1 without checkpointing. -/
theorem c7_counter_and_checkpoint_witness :
    (engineUpdate .Ok c5e [1] [9]).1 = .Ok ∧
      (engineUpdate .Ok c5e [1] [9]).2.opCount = c5e.opCount + 1 ∧
      (engineUpdate .Ok c5e [1] [9]).2.snap = c5e.snap := by
  obtain ⟨-, h2, -, -, -⟩ :=
    c7_counter_and_checkpoint c5e [1] [9] rfl (by decide) (by decide)
  obtain ⟨g1, g2, g3⟩ := h2 (by decide)
  refine ⟨g1, g2, ?_⟩
  rw [g3]
  decide


/-! ### C4: torn-tail detection in the WAL reader

A proper non-empty prefix of a well-formed record never parses: the first
byte read succeeds (and the type byte is valid), and whichever later read
runs out of stream is converted to `Corruption` by `read_next` — `read_bytes`
itself reports mid-read end-of-file as a partial-record corruption.  The clean
end-of-file is produced only by the very first one-byte read on an empty
stream. -/

theorem readBytes_take_append {a b : List Nat} {n m : Nat} (hm : a.length = m) (hn : m ≤ n) :
    readBytes m ((a ++ b).take n) = .ok (a, b.take (n - m)) := by
  rw [readBytes_ok_iff]
  subst hm
  refine ⟨?_, ?_, ?_⟩
  · simp
    omega
  · rw [List.take_take]
    have hmin : min a.length n = a.length := by omega
    rw [hmin, List.take_left]
  · rw [List.drop_take, List.drop_left]

theorem readBytes_err {m : Nat} {s : List Nat} (h : s.length < m) :
    ∃ e, readBytes m s = .error e := by
  unfold readBytes
  rw [if_neg (by omega)]
  split <;> exact ⟨_, rfl⟩

theorem or_mul_pow_eq_add {a b k : Nat} (ha : a < 2 ^ k) :
    a ||| (b * 2 ^ k) = a + b * 2 ^ k := by
  apply Nat.eq_of_testBit_eq
  intro i
  have hcomm : a + b * 2 ^ k = 2 ^ k * b + a := by ring
  rw [hcomm, Nat.testBit_lor, Nat.testBit_mul_pow_two_add _ ha]
  have hsh : (b * 2 ^ k).testBit i = (decide (k ≤ i) && b.testBit (i - k)) := by
    rw [← Nat.shiftLeft_eq, Nat.testBit_shiftLeft]
  rw [hsh]
  rcases Nat.lt_or_ge i k with hi | hi
  · simp [hi, Nat.not_le.2 hi]
  · have hfa : a.testBit i = false :=
      Nat.testBit_eq_false_of_lt
        (lt_of_lt_of_le ha (Nat.pow_le_pow_right (by norm_num) hi))
    simp [hfa, hi, Nat.not_lt.2 hi]

theorem readLe32_le32 {v : Nat} (h : v < 2 ^ 32) : readLe32 (le32 v) = v := by
  have h255 : (0xFF : Nat) = 2 ^ 8 - 1 := by norm_num
  simp only [le32, readLe32, h255, Nat.and_pow_two_sub_one_eq_mod,
    Nat.shiftRight_eq_div_pow, Nat.shiftLeft_eq]
  have e1 : v % 2 ^ 8 ||| v / 2 ^ 8 % 2 ^ 8 * 2 ^ 8 =
      v % 2 ^ 8 + v / 2 ^ 8 % 2 ^ 8 * 2 ^ 8 :=
    or_mul_pow_eq_add (Nat.mod_lt _ (by norm_num))
  rw [e1]
  have e2 : v % 2 ^ 8 + v / 2 ^ 8 % 2 ^ 8 * 2 ^ 8 ||| v / 2 ^ 16 % 2 ^ 8 * 2 ^ 16 =
      v % 2 ^ 8 + v / 2 ^ 8 % 2 ^ 8 * 2 ^ 8 + v / 2 ^ 16 % 2 ^ 8 * 2 ^ 16 := by
    have h1 : v % 2 ^ 8 < 2 ^ 8 := Nat.mod_lt _ (by norm_num)
    have h2 : v / 2 ^ 8 % 2 ^ 8 < 2 ^ 8 := Nat.mod_lt _ (by norm_num)
    refine or_mul_pow_eq_add ?_
    norm_num at h1 h2 ⊢
    omega
  rw [e2]
  have e3 : v % 2 ^ 8 + v / 2 ^ 8 % 2 ^ 8 * 2 ^ 8 + v / 2 ^ 16 % 2 ^ 8 * 2 ^ 16 |||
        v / 2 ^ 24 % 2 ^ 8 * 2 ^ 24 =
      v % 2 ^ 8 + v / 2 ^ 8 % 2 ^ 8 * 2 ^ 8 + v / 2 ^ 16 % 2 ^ 8 * 2 ^ 16 +
        v / 2 ^ 24 % 2 ^ 8 * 2 ^ 24 := by
    have h1 : v % 2 ^ 8 < 2 ^ 8 := Nat.mod_lt _ (by norm_num)
    have h2 : v / 2 ^ 8 % 2 ^ 8 < 2 ^ 8 := Nat.mod_lt _ (by norm_num)
    have h3 : v / 2 ^ 16 % 2 ^ 8 < 2 ^ 8 := Nat.mod_lt _ (by norm_num)
    refine or_mul_pow_eq_add ?_
    norm_num at h1 h2 h3 ⊢
    omega
  rw [e3]
  norm_num at h ⊢
  omega


theorem encodeRecord_assoc (r : WalRecord) :
    encodeRecord r =
      [r.type] ++ (le32 r.key.length ++ (r.key ++ (le32 r.value.length ++
        (r.value ++ le32 (compute_crc32 (recordBody r)))))) := by
  simp [encodeRecord, recordBody]

theorem encodeRecord_length (r : WalRecord) :
    (encodeRecord r).length = 13 + r.key.length + r.value.length := by
  simp [encodeRecord, recordBody, le32]
  omega

theorem c4_torn_tail (r : WalRecord) (n : Nat) (hr : WellFormedRecord r)
    (h1 : 1 ≤ n) (h2 : n < (encodeRecord r).length) :
    (∃ m, readNext ((encodeRecord r).take n) = .error (.corrupt m)) ∧
      readNext ([] : List Nat) = .error .eofClean := by
  obtain ⟨ht1, ht4, hkl, hvl⟩ := hr
  have hkl' : r.key.length ≤ 128 := hkl
  have hvl' : r.value.length ≤ 1024 := hvl
  refine ⟨?_, rfl⟩
  rw [encodeRecord_length r] at h2
  rw [encodeRecord_assoc r]
  unfold readNext
  rw [readBytes_take_append (by simp) (by omega : 1 ≤ n)]
  simp only [List.headD_cons]
  rw [if_neg (by omega : ¬(r.type < 1 ∨ r.type > 4))]
  by_cases c1 : n - 1 < 4
  · have hlen : (((le32 r.key.length ++ (r.key ++ (le32 r.value.length ++
        (r.value ++ le32 (compute_crc32 (recordBody r))))))).take (n - 1)).length < 4 := by
      simp [le32]
      omega
    obtain ⟨e, he⟩ := readBytes_err hlen
    rw [he]
    exact ⟨_, rfl⟩
  · rw [readBytes_take_append (by simp [le32]) (by omega : 4 ≤ n - 1)]
    dsimp only
    rw [show readLe32 (le32 r.key.length) = r.key.length from readLe32_le32 (by omega)]
    rw [if_neg (by omega : ¬ r.key.length > MAX_KEY_SIZE)]
    by_cases c2 : n - 1 - 4 < r.key.length
    · have hlen : (((r.key ++ (le32 r.value.length ++
          (r.value ++ le32 (compute_crc32 (recordBody r)))))).take (n - 1 - 4)).length <
            r.key.length := by
        simp [le32]
        omega
      obtain ⟨e, he⟩ := readBytes_err hlen
      rw [he]
      exact ⟨_, rfl⟩
    · rw [readBytes_take_append (rfl : r.key.length = r.key.length)
        (by omega : r.key.length ≤ n - 1 - 4)]
      dsimp only
      by_cases c3 : n - 1 - 4 - r.key.length < 4
      · have hlen : (((le32 r.value.length ++
            (r.value ++ le32 (compute_crc32 (recordBody r))))).take
              (n - 1 - 4 - r.key.length)).length < 4 := by
          simp [le32]
          omega
        obtain ⟨e, he⟩ := readBytes_err hlen
        rw [he]
        exact ⟨_, rfl⟩
      · rw [readBytes_take_append (by simp [le32]) (by omega : 4 ≤ n - 1 - 4 - r.key.length)]
        dsimp only
        rw [show readLe32 (le32 r.value.length) = r.value.length from readLe32_le32 (by omega)]
        rw [if_neg (by omega : ¬ r.value.length > MAX_VALUE_SIZE)]
        by_cases c4 : n - 1 - 4 - r.key.length - 4 < r.value.length
        · have hlen : (((r.value ++ le32 (compute_crc32 (recordBody r)))).take
              (n - 1 - 4 - r.key.length - 4)).length < r.value.length := by
            simp [le32]
            omega
          obtain ⟨e, he⟩ := readBytes_err hlen
          rw [he]
          exact ⟨_, rfl⟩
        · rw [readBytes_take_append (rfl : r.value.length = r.value.length)
            (by omega : r.value.length ≤ n - 1 - 4 - r.key.length - 4)]
          dsimp only
          have hlen : ((le32 (compute_crc32 (recordBody r))).take
              (n - 1 - 4 - r.key.length - 4 - r.value.length)).length < 4 := by
            simp [le32]
            omega
          obtain ⟨e, he⟩ := readBytes_err hlen
          rw [he]
          exact ⟨_, rfl⟩

/-- C4 witness: a concrete PUT record truncated after 5 of its 15 bytes. -/
theorem c4_torn_tail_witness :
    (∃ m, readNext ((encodeRecord (putRecord [65] [66])).take 5) =
        .error (.corrupt m)) ∧
      readNext ([] : List Nat) = .error .eofClean :=
  c4_torn_tail (putRecord [65] [66]) 5 (by decide) (by decide) (by decide)



theorem crcRound_lt {x : Nat} (h : x < 2 ^ 32) : crcRound x < 2 ^ 32 := by
  unfold crcRound
  refine Nat.xor_lt_two_pow ?_ ?_
  · calc x >>> 1 ≤ x := by
          rw [Nat.shiftRight_eq_div_pow]
          exact Nat.div_le_self x 2
      _ < 2 ^ 32 := h
  · split <;> norm_num

theorem crcTableEntry_lt {i : Nat} (h : i < 2 ^ 32) : crcTableEntry i < 2 ^ 32 := by
  unfold crcTableEntry
  exact crcRound_lt (crcRound_lt (crcRound_lt (crcRound_lt (crcRound_lt (crcRound_lt
    (crcRound_lt (crcRound_lt h)))))))

theorem crcStep_lt (crc b : Nat) (h : crc < 2 ^ 32) : crcStep crc b < 2 ^ 32 := by
  unfold crcStep
  refine Nat.xor_lt_two_pow (crcTableEntry_lt ?_) ?_
  · have h255 : (0xFF : Nat) = 2 ^ 8 - 1 := by norm_num
    rw [h255, Nat.and_pow_two_sub_one_eq_mod]
    have := Nat.mod_lt (crc ^^^ b) (show 0 < 2 ^ 8 by norm_num)
    omega
  · calc crc >>> 8 ≤ crc := by
          rw [Nat.shiftRight_eq_div_pow]
          exact Nat.div_le_self _ _
      _ < 2 ^ 32 := h

theorem crc_foldl_lt (l : List Nat) : ∀ acc : Nat, acc < 2 ^ 32 →
    l.foldl crcStep acc < 2 ^ 32 := by
  induction l with
  | nil => exact fun acc h => h
  | cons b bs ih => exact fun acc h => ih (crcStep acc b) (crcStep_lt acc b h)

theorem crc_lt32 (l : List Nat) : compute_crc32 l < 2 ^ 32 := by
  unfold compute_crc32
  exact Nat.xor_lt_two_pow (crc_foldl_lt l 0xFFFFFFFF (by norm_num)) (by norm_num)

theorem readLe32Fd_append {v : Nat} (rest : List Nat) (hv : v < 2 ^ 32) :
    readLe32Fd (le32 v ++ rest) = .ok (v, rest) := by
  have hl : (le32 v).length = 4 := by simp [le32]
  unfold readLe32Fd
  rw [if_pos (by simp [hl])]
  rw [List.take_left' hl, List.drop_left' hl, readLe32_le32 hv]

theorem readStringFd_append (data rest : List Nat) (hd : data.length ≤ MAX_KEY_SIZE * 10) :
    readStringFd (le32 data.length ++ (data ++ rest)) = .ok (data, rest) := by
  unfold readStringFd
  rw [readLe32Fd_append (data ++ rest) (by have h9 : data.length ≤ 1280 := hd; omega)]
  dsimp only
  rw [if_neg (by omega)]
  rw [if_pos (by simp)]
  rw [List.take_left, List.drop_left]

theorem entryBytes_assoc (k : Key) (v : Val) (rest : List Nat) :
    entryBytes k v ++ rest =
      le32 k.length ++ (k ++ (le32 v.length ++ (v ++
        (le32 (compute_crc32 (entryImage k v)) ++ rest)))) := by
  simp [entryBytes, entryImage]

theorem loadEntries_serialized (es : List (Key × Val)) (t : BNode)
    (hb : ∀ p ∈ es, p.1.length ≤ MAX_KEY_SIZE * 10 ∧ p.2.length ≤ MAX_KEY_SIZE * 10) :
    loadEntries es.length t (es.flatMap fun p => entryBytes p.1 p.2) =
      (.Ok, es.foldl (fun a p => treePut a p.1 p.2) t) := by
  induction es generalizing t with
  | nil => rfl
  | cons p ps ih =>
    obtain ⟨k, v⟩ := p
    have hk := (hb (k, v) (by simp)).1
    have hv := (hb (k, v) (by simp)).2
    show loadEntries (ps.length + 1) t _ = _
    unfold loadEntries
    rw [List.flatMap_cons, entryBytes_assoc]
    rw [readStringFd_append k _ hk]
    dsimp only
    rw [readStringFd_append v _ hv]
    dsimp only
    rw [readLe32Fd_append _ (crc_lt32 (entryImage k v))]
    dsimp only
    rw [if_neg (by simp)]
    exact ih (treePut t k v) (fun q hq => hb q (by simp [hq]))

theorem serializeSnapshot_assoc (es : List (Key × Val)) :
    serializeSnapshot es =
      le32 SNAPSHOT_MAGIC ++ (le32 SNAPSHOT_VERSION ++ (le32 es.length ++
        (le32 (compute_crc32 (headerBytes es.length)) ++
          es.flatMap fun p => entryBytes p.1 p.2))) := by
  simp [serializeSnapshot, headerBytes]

theorem loadSnapshot_serialized (t : BNode) (es : List (Key × Val))
    (hb : ∀ p ∈ es, p.1.length ≤ MAX_KEY_SIZE * 10 ∧ p.2.length ≤ MAX_KEY_SIZE * 10)
    (hc : es.length < 2 ^ 32) :
    loadSnapshot t (serializeSnapshot es) =
      (.Ok, es.foldl (fun a p => treePut a p.1 p.2) t) := by
  unfold loadSnapshot
  rw [serializeSnapshot_assoc]
  rw [readLe32Fd_append _ (by norm_num [SNAPSHOT_MAGIC])]
  dsimp only
  rw [if_neg (by simp)]
  rw [readLe32Fd_append _ (by norm_num [SNAPSHOT_VERSION])]
  dsimp only
  rw [if_neg (by simp)]
  rw [readLe32Fd_append _ hc]
  dsimp only
  rw [readLe32Fd_append _ (crc_lt32 (headerBytes es.length))]
  dsimp only
  rw [if_neg (by simp)]
  exact loadEntries_serialized es t hb


/-! ### Well-formedness of the B+Tree

The invariant maintained by the operations: entries sorted with strictly
increasing keys, every key within the half-open bound interval inherited from
the parent separators, all leaves at the same depth, and the key counts the
rebalancing actually maintains — non-root leaves hold 2 to 3 entries,
non-root internal nodes 1 to 4 keys (splits create 1-key nodes, and a merge
into a 2-key sibling creates a 4-key node), the root leaf up to 3 entries and
the internal root 1 to 4 keys. -/

/-- The lower bound `lo` (if any) is at or below `k`. -/
def loLe : Option Key → Key → Prop
  | none, _ => True
  | some a, k => a ≤ k

/-- `k` is strictly below the upper bound `hi` (if any). -/
def ltHi : Option Key → Key → Prop
  | none, _ => True
  | some b, k => k < b

/-- `k` lies in the half-open interval `[lo, hi)`. -/
def keyInBounds (lo hi : Option Key) (k : Key) : Prop := loLe lo k ∧ ltHi hi k

/-- `lo` is a weaker (no larger) lower bound than `lo'`. -/
def weakerLo : Option Key → Option Key → Prop
  | none, _ => True
  | some _, none => False
  | some a, some a' => a ≤ a'

/-- `hi` is a weaker (no smaller) upper bound than `hi'`. -/
def weakerHi : Option Key → Option Key → Prop
  | none, _ => True
  | some _, none => False
  | some b, some b' => b' ≤ b

/-- Strictly increasing keys. -/
def entsSorted (es : List (Key × Val)) : Prop :=
  List.Chain' (fun p q : Key × Val => p.1 < q.1) es

/-- Every key within `[lo, hi)`. -/
def entsBounded (lo hi : Option Key) (es : List (Key × Val)) : Prop :=
  ∀ p ∈ es, keyInBounds lo hi p.1

mutual

/-- Well-formedness of a non-root subtree at depth `d` with key bounds
`[lo, hi)`, including the non-root key-count bounds. -/
def WFN : Option Key → Option Key → Nat → BNode → Prop
  | lo, hi, 0, .leaf es =>
    2 ≤ es.length ∧ es.length ≤ 3 ∧ entsSorted es ∧ entsBounded lo hi es
  | lo, hi, d + 1, .node f => 1 ≤ frameKeys f ∧ frameKeys f ≤ 4 ∧ WFF lo hi d f
  | _, _, _, _ => False
termination_by structural _ _ _ t => t

/-- Well-formedness of a frame: children chained through the separators. -/
def WFF : Option Key → Option Key → Nat → Frame → Prop
  | lo, hi, d, .last c => WFN lo hi d c
  | lo, hi, d, .cons c s rest => WFN lo (some s) d c ∧ WFF (some s) hi d rest
termination_by structural _ _ _ f => f

end

/-- Well-formedness of the whole tree (the root is exempt from the minimum
key counts; an internal root still has at least one key). -/
def WFRoot (t : BNode) : Prop :=
  match t with
  | .leaf es => es.length ≤ 3 ∧ entsSorted es ∧ entsBounded none none es
  | .node f => ∃ d, 1 ≤ frameKeys f ∧ frameKeys f ≤ 4 ∧ WFF none none d f

/-! ### The mapping view

Sorted-association-list operations describing what the tree operations do to
`entries`. -/

/-- Insert-or-replace in a sorted association list. -/
def refInsert (k : Key) (v : Val) : List (Key × Val) → List (Key × Val)
  | [] => [(k, v)]
  | p :: rest =>
    if p.1 < k then p :: refInsert k v rest
    else if p.1 = k then (k, v) :: rest
    else (k, v) :: p :: rest

/-- Erase a key from an association list (first occurrence). -/
def refErase (k : Key) : List (Key × Val) → List (Key × Val)
  | [] => []
  | p :: rest => if p.1 = k then rest else p :: refErase k rest

/-- Lookup in an association list (first occurrence). -/
def refLookup (k : Key) : List (Key × Val) → Option Val
  | [] => none
  | p :: rest => if p.1 = k then some p.2 else refLookup k rest

/-- All keys and values within the WAL writer's hard limits. -/
def entsSmall (es : List (Key × Val)) : Prop :=
  ∀ p ∈ es, (p.1 : Key).length ≤ MAX_KEY_SIZE ∧ (p.2 : Val).length ≤ MAX_VALUE_SIZE

/-- Replay a list of decoded records (the in-order effect of `replayWal`). -/
def replayRecords (t : BNode) (rs : List WalRecord) : BNode :=
  rs.foldl applyRecord t

/-- Load a snapshot's entry list through the recovery-time `put` path. -/
def loadL (es : List (Key × Val)) : BNode :=
  es.foldl (fun a p => treePut a p.1 p.2) (.leaf [])

/-! ### Operation sequences against the engine -/

/-- A public mutating call. -/
inductive Op where
  | put (k : Key) (v : Val)
  | update (k : Key) (v : Val)
  | remove (k : Key)

/-- Run one call (the WAL buffer flush succeeding). -/
def applyOp (e : Engine) : Op → Status × Engine
  | .put k v => enginePut .Ok e k v
  | .update k v => engineUpdate .Ok e k v
  | .remove k => engineRemove .Ok e k

/-- Run a sequence, keeping the final engine. -/
def runOps (e : Engine) : List Op → Engine
  | [] => e
  | op :: ops => runOps (applyOp e op).2 ops

/-- Did every call in the sequence return OK? -/
def opsOk (e : Engine) : List Op → Prop
  | [] => True
  | op :: ops => (applyOp e op).1 = .Ok ∧ opsOk (applyOp e op).2 ops

/-! ### Node census (for the key-count invariant) -/

mutual

/-- Every node of a subtree. -/
def allNodes : BNode → List BNode
  | .leaf es => [.leaf es]
  | .node f => .node f :: allNodesF f
termination_by structural t => t

def allNodesF : Frame → List BNode
  | .last c => allNodes c
  | .cons c _ rest => allNodes c ++ allNodesF rest
termination_by structural f => f

end

/-- Is a node a leaf? -/
def isLeafNode : BNode → Bool
  | .leaf _ => true
  | .node _ => false

/-- Every non-root node of the tree (all proper descendants of the root). -/
def nonRootNodes : BNode → List BNode
  | .leaf _ => []
  | .node f => allNodesF f

/-! ### C9: snapshot length-prefix validation

`read_string_from_fd` rejects a length prefix only beyond
`MAX_KEY_SIZE * 10 = 1280` bytes — not beyond `MAX_KEY_SIZE` (or
`MAX_VALUE_SIZE`): a snapshot entry whose key length prefix lies in
`(128, 1280]` is read, CRC-checked and inserted into the tree through the
recovery-time `put`, which performs no size validation of its own. -/

theorem loadSnapshot_header (t : BNode) (es : List (Key × Val))
    (hc : es.length < 2 ^ 32) :
    loadSnapshot t (serializeSnapshot es) =
      loadEntries es.length t (es.flatMap fun p => entryBytes p.1 p.2) := by
  unfold loadSnapshot
  rw [serializeSnapshot_assoc]
  rw [readLe32Fd_append _ (by norm_num [SNAPSHOT_MAGIC])]
  dsimp only
  rw [if_neg (by simp)]
  rw [readLe32Fd_append _ (by norm_num [SNAPSHOT_VERSION])]
  dsimp only
  rw [if_neg (by simp)]
  rw [readLe32Fd_append _ hc]
  dsimp only
  rw [readLe32Fd_append _ (crc_lt32 (headerBytes es.length))]
  dsimp only
  rw [if_neg (by simp)]

theorem loadEntries_serialized_append (es : List (Key × Val)) (m : Nat) (t : BNode)
    (tail : List Nat)
    (hb : ∀ p ∈ es, p.1.length ≤ MAX_KEY_SIZE * 10 ∧ p.2.length ≤ MAX_KEY_SIZE * 10) :
    loadEntries (es.length + m) t ((es.flatMap fun p => entryBytes p.1 p.2) ++ tail) =
      loadEntries m (es.foldl (fun a p => treePut a p.1 p.2) t) tail := by
  induction es generalizing t with
  | nil =>
    show loadEntries (0 + m) t ([] ++ tail) = loadEntries m t tail
    rw [Nat.zero_add, List.nil_append]
  | cons p ps ih =>
    obtain ⟨k, v⟩ := p
    have hk := (hb (k, v) (by simp)).1
    have hv := (hb (k, v) (by simp)).2
    show loadEntries (ps.length + 1 + m) t _ = _
    rw [show ps.length + 1 + m = ps.length + m + 1 from by omega]
    conv_lhs => unfold loadEntries
    rw [List.flatMap_cons, List.append_assoc, entryBytes_assoc]
    rw [readStringFd_append k _ hk]
    dsimp only
    rw [readStringFd_append v _ hv]
    dsimp only
    rw [readLe32Fd_append _ (crc_lt32 (entryImage k v))]
    dsimp only
    rw [if_neg (by simp)]
    exact ih (treePut t k v) fun q hq => hb q (by simp [hq])

theorem readStringFd_toolong {n : Nat} (s : List Nat) (hn : n > MAX_KEY_SIZE * 10)
    (h32 : n < 2 ^ 32) :
    readStringFd (le32 n ++ s) = .error (.Corruption "String length too large") := by
  unfold readStringFd
  rw [readLe32Fd_append _ h32]
  dsimp only
  rw [if_pos hn]

theorem loadEntries_bad_key (m : Nat) (t : BNode) (k : Key) (v : Val) (tail : List Nat)
    (hk : k.length > MAX_KEY_SIZE * 10) (hk32 : k.length < 2 ^ 32) :
    loadEntries (m + 1) t (entryBytes k v ++ tail) =
      (.Corruption "Failed to read key at entry", t) := by
  unfold loadEntries
  rw [entryBytes_assoc]
  rw [readStringFd_toolong _ hk hk32]

theorem loadEntries_bad_val (m : Nat) (t : BNode) (k : Key) (v : Val) (tail : List Nat)
    (hk : k.length ≤ MAX_KEY_SIZE * 10) (hv : v.length > MAX_KEY_SIZE * 10)
    (hv32 : v.length < 2 ^ 32) :
    loadEntries (m + 1) t (entryBytes k v ++ tail) =
      (.Corruption "Failed to read value at entry", t) := by
  unfold loadEntries
  rw [entryBytes_assoc]
  rw [readStringFd_append k _ hk]
  dsimp only
  rw [readStringFd_toolong _ hv hv32]

/-- C9 amended: for a snapshot entry at any position (with well-formed entries
before it), `load_snapshot` returns `Corruption` — and does not insert the
entry, leaving only the preceding entries in the tree — exactly when the
entry's key or value length prefix exceeds `MAX_KEY_SIZE * 10 = 1280`; an
entry whose prefixes are at most 1280 — even a key longer than
`MAX_KEY_SIZE = 128` or a value longer than `MAX_VALUE_SIZE = 1024` — is
read, CRC-checked and inserted through the recovery-time `put`, which
performs no size validation of its own. -/
theorem c9_snapshot_length_checks (t : BNode) (pre rest : List (Key × Val))
    (k : Key) (v : Val)
    (hpre : ∀ p ∈ pre, (p : Key × Val).1.length ≤ MAX_KEY_SIZE * 10 ∧
      (p : Key × Val).2.length ≤ MAX_KEY_SIZE * 10)
    (hk32 : k.length < 2 ^ 32) (hv32 : v.length < 2 ^ 32)
    (hcnt : (pre ++ (k, v) :: rest).length < 2 ^ 32) :
    (k.length > MAX_KEY_SIZE * 10 →
      loadSnapshot t (serializeSnapshot (pre ++ (k, v) :: rest)) =
        (.Corruption "Failed to read key at entry",
          pre.foldl (fun a p => treePut a p.1 p.2) t)) ∧
    (k.length ≤ MAX_KEY_SIZE * 10 → v.length > MAX_KEY_SIZE * 10 →
      loadSnapshot t (serializeSnapshot (pre ++ (k, v) :: rest)) =
        (.Corruption "Failed to read value at entry",
          pre.foldl (fun a p => treePut a p.1 p.2) t)) ∧
    (k.length ≤ MAX_KEY_SIZE * 10 → v.length ≤ MAX_KEY_SIZE * 10 →
      (∀ p ∈ rest, (p : Key × Val).1.length ≤ MAX_KEY_SIZE * 10 ∧
        (p : Key × Val).2.length ≤ MAX_KEY_SIZE * 10) →
      loadSnapshot t (serializeSnapshot (pre ++ (k, v) :: rest)) =
        (.Ok, (pre ++ (k, v) :: rest).foldl (fun a p => treePut a p.1 p.2) t)) := by
  have hsplit : loadSnapshot t (serializeSnapshot (pre ++ (k, v) :: rest)) =
      loadEntries (rest.length + 1) (pre.foldl (fun a p => treePut a p.1 p.2) t)
        (entryBytes k v ++ rest.flatMap fun p => entryBytes p.1 p.2) := by
    rw [loadSnapshot_header t _ hcnt]
    rw [show (pre ++ (k, v) :: rest).flatMap (fun p => entryBytes p.1 p.2) =
        (pre.flatMap fun p => entryBytes p.1 p.2) ++
          (entryBytes k v ++ rest.flatMap fun p => entryBytes p.1 p.2) from by
      rw [List.flatMap_append, List.flatMap_cons]]
    rw [show (pre ++ (k, v) :: rest).length = pre.length + (rest.length + 1) from by
      simp]
    exact loadEntries_serialized_append pre (rest.length + 1) t _ hpre
  refine ⟨?_, ?_, ?_⟩
  · intro hk
    rw [hsplit]
    exact loadEntries_bad_key rest.length _ k v _ hk hk32
  · intro hk hv
    rw [hsplit]
    exact loadEntries_bad_val rest.length _ k v _ hk hv hv32
  · intro hk hv hrest
    rw [hsplit]
    have hall : ∀ p ∈ (k, v) :: rest, (p : Key × Val).1.length ≤ MAX_KEY_SIZE * 10 ∧
        (p : Key × Val).2.length ≤ MAX_KEY_SIZE * 10 := by
      intro p hp
      rcases List.mem_cons.1 hp with h1 | h2
      · rw [h1]
        exact ⟨hk, hv⟩
      · exact hrest p h2
    have h := loadEntries_serialized ((k, v) :: rest)
      (pre.foldl (fun a p => treePut a p.1 p.2) t) hall
    rw [show entryBytes k v ++ (rest.flatMap fun p => entryBytes p.1 p.2) =
        ((k, v) :: rest).flatMap fun p => entryBytes p.1 p.2 from by
      rw [List.flatMap_cons]]
    rw [show rest.length + 1 = ((k, v) :: rest).length from by simp]
    rw [h, List.foldl_append]

set_option maxRecDepth 4000 in
/-- C9 counterexample: a snapshot whose single entry has a 129-byte key —
longer than `MAX_KEY_SIZE = 128` — loads with OK and the entry is inserted
into the tree. -/
theorem c9_oversized_entry_loaded :
    MAX_KEY_SIZE < c9key.length ∧
      loadSnapshot (.leaf []) (serializeSnapshot [(c9key, [1])]) =
        (.Ok, .leaf [(c9key, [1])]) ∧
      treeGet (BNode.leaf [(c9key, [1])]) c9key = some [1] := by
  refine ⟨by decide, ?_, by decide⟩
  have h := loadSnapshot_serialized (.leaf []) [(c9key, [1])] (by decide) (by decide)
  rw [h]
  rfl

set_option maxRecDepth 8000 in
/-- C9 witness: a two-entry snapshot whose first entry has a 129-byte key
(within the reader's 1280-byte sanity bound) and whose second entry's key is
1281 bytes long: loading yields `Corruption` at the second entry, with only
the first entry inserted. -/
theorem c9_snapshot_length_checks_witness :
    c9hugeKey.length > MAX_KEY_SIZE * 10 ∧
    loadSnapshot (.leaf []) (serializeSnapshot ([(c9key, [1])] ++ (c9hugeKey, [2]) :: [])) =
      (.Corruption "Failed to read key at entry",
        ([(c9key, [1])] : List (Key × Val)).foldl
          (fun a p => treePut a p.1 p.2) (.leaf [])) :=
  ⟨by decide,
    (c9_snapshot_length_checks (.leaf []) [(c9key, [1])] [] c9hugeKey [2]
      (by decide) (by decide) (by decide) (by decide)).1 (by decide)⟩


/-! ### Order-theoretic facts about well-formed trees -/

theorem keyInBounds_weaken {lo hi lo2 hi2 : Option Key} {k : Key}
    (h : keyInBounds lo hi k) (hl : weakerLo lo2 lo) (hh : weakerHi hi2 hi) :
    keyInBounds lo2 hi2 k := by
  obtain ⟨h1, h2⟩ := h
  constructor
  · cases lo2 with
    | none => trivial
    | some a2 =>
      cases lo with
      | none => exact absurd hl (by simp [weakerLo])
      | some a => exact le_trans hl h1
  · cases hi2 with
    | none => trivial
    | some b2 =>
      cases hi with
      | none => exact absurd hh (by simp [weakerHi])
      | some b => exact lt_of_lt_of_le h2 hh

theorem weakerLo_refl (lo : Option Key) : weakerLo lo lo := by
  cases lo <;> simp [weakerLo]

theorem weakerHi_refl (hi : Option Key) : weakerHi hi hi := by
  cases hi <;> simp [weakerHi]

theorem entsBounded_weaken {lo hi lo2 hi2 : Option Key} {es : List (Key × Val)}
    (h : entsBounded lo hi es) (hl : weakerLo lo2 lo) (hh : weakerHi hi2 hi) :
    entsBounded lo2 hi2 es :=
  fun p hp => keyInBounds_weaken (h p hp) hl hh

mutual

theorem wfn_weaken {lo hi lo2 hi2 : Option Key} {d : Nat} {t : BNode}
    (h : WFN lo hi d t) (hl : weakerLo lo2 lo) (hh : weakerHi hi2 hi) :
    WFN lo2 hi2 d t := by
  match d, t with
  | 0, .leaf es =>
    obtain ⟨h1, h2, h3, h4⟩ := h
    exact ⟨h1, h2, h3, entsBounded_weaken h4 hl hh⟩
  | d + 1, .node f =>
    obtain ⟨h1, h2, h3⟩ := h
    exact ⟨h1, h2, wff_weaken h3 hl hh⟩
  | 0, .node f => exact absurd h (by simp [WFN])
  | d + 1, .leaf es => exact absurd h (by simp [WFN])
termination_by structural t

theorem wff_weaken {lo hi lo2 hi2 : Option Key} {d : Nat} {f : Frame}
    (h : WFF lo hi d f) (hl : weakerLo lo2 lo) (hh : weakerHi hi2 hi) :
    WFF lo2 hi2 d f := by
  match f with
  | .last c => exact wfn_weaken h hl hh
  | .cons c s rest =>
    obtain ⟨h1, h2⟩ := h
    exact ⟨wfn_weaken h1 hl (by simp [weakerHi]), wff_weaken h2 (by simp [weakerLo]) hh⟩
termination_by structural f

end

mutual

theorem WFN.entries_ne_nil {lo hi : Option Key} {d : Nat} {t : BNode}
    (h : WFN lo hi d t) : entries t ≠ [] := by
  match d, t with
  | 0, .leaf es =>
    obtain ⟨h1, -, -, -⟩ := h
    show es ≠ []
    intro he
    simp [he] at h1
  | d + 1, .node f =>
    obtain ⟨-, -, h3⟩ := h
    exact WFF.frameEntries_ne_nil h3
  | 0, .node f => exact absurd h (by simp [WFN])
  | d + 1, .leaf es => exact absurd h (by simp [WFN])
termination_by structural t

theorem WFF.frameEntries_ne_nil {lo hi : Option Key} {d : Nat} {f : Frame}
    (h : WFF lo hi d f) : frameEntries f ≠ [] := by
  match f with
  | .last c => exact WFN.entries_ne_nil h
  | .cons c s rest =>
    obtain ⟨h1, h2⟩ := h
    show entries c ++ frameEntries rest ≠ []
    simp [WFN.entries_ne_nil h1]
termination_by structural f

end

theorem entsSorted_append {a b : List (Key × Val)}
    (ha : entsSorted a) (hb : entsSorted b)
    (hab : ∀ p ∈ a, ∀ q ∈ b, (p : Key × Val).1 < (q : Key × Val).1) :
    entsSorted (a ++ b) := by
  rw [entsSorted, List.chain'_append]
  refine ⟨ha, hb, ?_⟩
  intro x hx y hy
  exact hab x (List.mem_of_mem_getLast? hx) y (List.mem_of_mem_head? hy)

mutual

theorem wfn_sorted {lo hi : Option Key} {d : Nat} {t : BNode} (h : WFN lo hi d t) :
    entsSorted (entries t) ∧ entsBounded lo hi (entries t) := by
  match d, t with
  | 0, .leaf es =>
    obtain ⟨-, -, h3, h4⟩ := h
    exact ⟨h3, h4⟩
  | d + 1, .node f =>
    obtain ⟨-, -, h3⟩ := h
    exact wff_sorted h3
  | 0, .node f => exact absurd h (by simp [WFN])
  | d + 1, .leaf es => exact absurd h (by simp [WFN])
termination_by structural t

theorem wff_sorted {lo hi : Option Key} {d : Nat} {f : Frame} (h : WFF lo hi d f) :
    entsSorted (frameEntries f) ∧ entsBounded lo hi (frameEntries f) := by
  match f with
  | .last c => exact wfn_sorted h
  | .cons c s rest =>
    obtain ⟨h1, h2⟩ := h
    obtain ⟨s1, b1⟩ := wfn_sorted h1
    obtain ⟨s2, b2⟩ := wff_sorted h2
    constructor
    · refine entsSorted_append s1 s2 ?_
      intro p hp q hq
      exact lt_of_lt_of_le (b1 p hp).2 (b2 q hq).1
    · intro p hp
      rcases List.mem_append.1 hp with hp1 | hp2
      · refine keyInBounds_weaken (b1 p hp1) (weakerLo_refl lo) ?_
        cases hi with
        | none => trivial
        | some b =>
          obtain ⟨q, hq⟩ := List.exists_mem_of_ne_nil _ (WFF.frameEntries_ne_nil h2)
          exact le_of_lt (lt_of_le_of_lt (b2 q hq).1 (b2 q hq).2)
      · refine keyInBounds_weaken (b2 p hp2) ?_ (weakerHi_refl hi)
        cases lo with
        | none => trivial
        | some a =>
          obtain ⟨q, hq⟩ := List.exists_mem_of_ne_nil _ (WFN.entries_ne_nil h1)
          exact le_of_lt (lt_of_le_of_lt (b1 q hq).1 (b1 q hq).2)
termination_by structural f

end

/-! ### `get` computes the mapping lookup -/

instance : IsTrans (Key × Val) fun p q => p.1 < q.1 :=
  ⟨fun _ _ _ h1 h2 => lt_trans h1 h2⟩

theorem entsSorted_head_lt {p : Key × Val} {rest : List (Key × Val)}
    (h : entsSorted (p :: rest)) : ∀ q ∈ rest, p.1 < q.1 :=
  (List.pairwise_cons.1 (List.chain'_iff_pairwise.1 h)).1

theorem refLookup_eq_none {k : Key} {es : List (Key × Val)}
    (h : ∀ p ∈ es, (p : Key × Val).1 ≠ k) : refLookup k es = none := by
  induction es with
  | nil => rfl
  | cons p rest ih =>
    show (if p.1 = k then some p.2 else refLookup k rest) = none
    rw [if_neg (h p (by simp))]
    exact ih fun q hq => h q (by simp [hq])

theorem leafLookup_sorted {es : List (Key × Val)} (h : entsSorted es) (k : Key) :
    leafLookup es k = refLookup k es := by
  induction es with
  | nil => rfl
  | cons p rest ih =>
    have hrest : entsSorted rest := (List.chain'_cons'.1 h).2
    by_cases hlt : p.1 < k
    · show leafLookup (p :: rest) k = _
      unfold leafLookup
      rw [List.dropWhile_cons_of_pos (by simpa using hlt)]
      show (match rest.dropWhile (fun q => decide (q.1 < k)) with
        | q :: _ => if q.1 = k then some q.2 else none
        | [] => none) = _
      have hne : ¬p.1 = k := ne_of_lt hlt
      show _ = (if p.1 = k then some p.2 else refLookup k rest)
      rw [if_neg hne, ← ih hrest]
      rfl
    · show leafLookup (p :: rest) k = _
      unfold leafLookup
      rw [List.dropWhile_cons_of_neg (by simpa using hlt)]
      show (if p.1 = k then some p.2 else none) = if p.1 = k then some p.2 else refLookup k rest
      by_cases he : p.1 = k
      · rw [if_pos he, if_pos he]
      · rw [if_neg he, if_neg he]
        refine (refLookup_eq_none ?_).symm
        intro q hq
        have hpq : p.1 < q.1 := entsSorted_head_lt h q hq
        have hkp : k < p.1 := lt_of_le_of_ne (not_lt.1 hlt) (Ne.symm he)
        exact ne_of_gt (lt_trans hkp hpq)

theorem refLookup_append {k : Key} (a b : List (Key × Val)) :
    refLookup k (a ++ b) =
      match refLookup k a with
      | some v => some v
      | none => refLookup k b := by
  induction a with
  | nil => rfl
  | cons p rest ih =>
    show (if p.1 = k then some p.2 else refLookup k (rest ++ b)) =
      (match (if p.1 = k then some p.2 else refLookup k rest) with
        | some v => some v
        | none => refLookup k b)
    by_cases he : p.1 = k
    · rw [if_pos he, if_pos he]
    · rw [if_neg he, if_neg he, ih]

theorem refLookup_append_left {k : Key} {a b : List (Key × Val)}
    (h : ∀ p ∈ b, (p : Key × Val).1 ≠ k) :
    refLookup k (a ++ b) = refLookup k a := by
  rw [refLookup_append]
  cases hv : refLookup k a with
  | some v => rfl
  | none => exact refLookup_eq_none h

theorem refLookup_append_right {k : Key} {a b : List (Key × Val)}
    (h : ∀ p ∈ a, (p : Key × Val).1 ≠ k) :
    refLookup k (a ++ b) = refLookup k b := by
  rw [refLookup_append, refLookup_eq_none h]

mutual

theorem treeGet_eq {lo hi : Option Key} {d : Nat} {t : BNode} {k : Key}
    (h : WFN lo hi d t) (hk : keyInBounds lo hi k) :
    treeGet t k = refLookup k (entries t) := by
  match d, t with
  | 0, .leaf es =>
    obtain ⟨-, -, h3, -⟩ := h
    exact leafLookup_sorted h3 k
  | d + 1, .node f =>
    obtain ⟨-, -, h3⟩ := h
    exact frameGet_eq h3 hk
  | 0, .node f => exact absurd h (by simp [WFN])
  | d + 1, .leaf es => exact absurd h (by simp [WFN])
termination_by structural t

theorem frameGet_eq {lo hi : Option Key} {d : Nat} {f : Frame} {k : Key}
    (h : WFF lo hi d f) (hk : keyInBounds lo hi k) :
    frameGet f k = refLookup k (frameEntries f) := by
  match f with
  | .last c => exact treeGet_eq h hk
  | .cons c s rest =>
    obtain ⟨h1, h2⟩ := h
    show (if k < s then treeGet c k else frameGet rest k) = _
    by_cases hks : k < s
    · rw [if_pos hks, treeGet_eq h1 ⟨hk.1, hks⟩]
      refine (refLookup_append_left ?_).symm
      intro p hp
      exact ne_of_gt (lt_of_lt_of_le hks ((wff_sorted h2).2 p hp).1)
    · rw [if_neg hks, frameGet_eq h2 ⟨not_lt.1 hks, hk.2⟩]
      refine (refLookup_append_right ?_).symm
      intro p hp
      exact ne_of_lt (lt_of_lt_of_le ((wfn_sorted h1).2 p hp).2 (not_lt.1 hks))
termination_by structural f

end

/-- `get` at the root. -/
theorem treeGet_root {t : BNode} (h : WFRoot t) (k : Key) :
    treeGet t k = refLookup k (entries t) := by
  match t with
  | .leaf es => exact leafLookup_sorted h.2.1 k
  | .node f =>
    obtain ⟨d, -, -, h3⟩ := h
    exact frameGet_eq h3 ⟨trivial, trivial⟩

/-! ### `put` computes insert-or-replace -/

theorem refInsert_mem {k : Key} {v : Val} {es : List (Key × Val)} {q : Key × Val}
    (hq : q ∈ refInsert k v es) : q.1 = k ∨ q ∈ es := by
  induction es with
  | nil =>
    simp [refInsert] at hq
    simp [hq]
  | cons p rest ih =>
    rw [show refInsert k v (p :: rest) = if p.1 < k then p :: refInsert k v rest
      else if p.1 = k then (k, v) :: rest else (k, v) :: p :: rest from rfl] at hq
    split at hq
    · rcases List.mem_cons.1 hq with hq1 | hq2
      · exact Or.inr (by simp [hq1])
      · rcases ih hq2 with hk | hr
        · exact Or.inl hk
        · exact Or.inr (by simp [hr])
    · split at hq
      · rcases List.mem_cons.1 hq with hq1 | hq2
        · exact Or.inl (by simp [hq1])
        · exact Or.inr (by simp [hq2])
      · rcases List.mem_cons.1 hq with hq1 | hq2
        · exact Or.inl (by simp [hq1])
        · exact Or.inr hq2

theorem refInsert_sorted {k : Key} {v : Val} {es : List (Key × Val)}
    (h : entsSorted es) : entsSorted (refInsert k v es) := by
  induction es with
  | nil => simp [refInsert, entsSorted]
  | cons p rest ih =>
    have hrest : entsSorted rest := (List.chain'_cons'.1 h).2
    show entsSorted (if p.1 < k then p :: refInsert k v rest
      else if p.1 = k then (k, v) :: rest else (k, v) :: p :: rest)
    by_cases h1 : p.1 < k
    · rw [if_pos h1]
      rw [entsSorted, List.chain'_cons']
      refine ⟨?_, ih hrest⟩
      intro q hq
      have hq2 := List.mem_of_mem_head? hq
      rcases refInsert_mem hq2 with hqk | hqrest
      · rw [hqk]
        exact h1
      · exact entsSorted_head_lt h q hqrest
    · rw [if_neg h1]
      by_cases h2 : p.1 = k
      · rw [if_pos h2]
        rw [entsSorted, List.chain'_cons']
        refine ⟨?_, hrest⟩
        intro q hq
        rw [← h2]
        exact entsSorted_head_lt h q (List.mem_of_mem_head? hq)
      · rw [if_neg h2]
        rw [entsSorted, List.chain'_cons]
        exact ⟨lt_of_le_of_ne (not_lt.1 h1) (Ne.symm h2), h⟩

theorem refInsert_bounded {lo hi : Option Key} {k : Key} {v : Val}
    {es : List (Key × Val)} (h : entsBounded lo hi es) (hk : keyInBounds lo hi k) :
    entsBounded lo hi (refInsert k v es) := by
  intro q hq
  rcases refInsert_mem hq with h1 | h2
  · rw [h1]
    exact hk
  · exact h q h2

theorem refInsert_length_absent {k : Key} {v : Val} {es : List (Key × Val)}
    (h : refLookup k es = none) : (refInsert k v es).length = es.length + 1 := by
  induction es with
  | nil => rfl
  | cons p rest ih =>
    have hne : ¬p.1 = k := by
      intro he
      simp [refLookup, he] at h
    have hrest : refLookup k rest = none := by
      rw [show refLookup k (p :: rest) = if p.1 = k then some p.2 else refLookup k rest
        from rfl, if_neg hne] at h
      exact h
    show (if p.1 < k then p :: refInsert k v rest
      else if p.1 = k then (k, v) :: rest else (k, v) :: p :: rest).length = _
    by_cases h1 : p.1 < k
    · simp [h1, ih hrest]
    · simp [h1, hne]

theorem refInsert_length_present {k : Key} {v : Val} {es : List (Key × Val)}
    (hs : entsSorted es) (h : refLookup k es ≠ none) :
    (refInsert k v es).length = es.length := by
  induction es with
  | nil => simp [refLookup] at h
  | cons p rest ih =>
    have hrests : entsSorted rest := (List.chain'_cons'.1 hs).2
    show (if p.1 < k then p :: refInsert k v rest
      else if p.1 = k then (k, v) :: rest else (k, v) :: p :: rest).length = _
    by_cases h2 : p.1 = k
    · simp [h2]
    · have hrest : refLookup k rest ≠ none := by
        rw [show refLookup k (p :: rest) = if p.1 = k then some p.2 else refLookup k rest
          from rfl, if_neg h2] at h
        exact h
      by_cases h1 : p.1 < k
      · simp [h1, ih hrests hrest]
      · exact absurd (refLookup_eq_none fun q hq =>
          ne_of_gt (lt_trans (lt_of_le_of_ne (not_lt.1 h1) (Ne.symm h2))
            (entsSorted_head_lt hs q hq))) hrest

theorem refInsert_append_right {k : Key} {v : Val} {a b : List (Key × Val)}
    (h : ∀ p ∈ a, (p : Key × Val).1 < k) :
    refInsert k v (a ++ b) = a ++ refInsert k v b := by
  induction a with
  | nil => rfl
  | cons p rest ih =>
    show (if p.1 < k then p :: refInsert k v (rest ++ b) else _) = _
    rw [if_pos (h p (by simp))]
    rw [ih fun q hq => h q (by simp [hq])]
    rfl

theorem refInsert_append_left {k : Key} {v : Val} {a b : List (Key × Val)}
    (h : ∀ p ∈ b, k < (p : Key × Val).1) :
    refInsert k v (a ++ b) = refInsert k v a ++ b := by
  induction a with
  | nil =>
    show refInsert k v b = [(k, v)] ++ b
    cases b with
    | nil => rfl
    | cons p rest =>
      show (if p.1 < k then _ else if p.1 = k then _ else (k, v) :: p :: rest) = _
      rw [if_neg (by exact not_lt.2 (le_of_lt (h p (by simp)))),
        if_neg (by exact fun he => absurd (he ▸ h p (by simp)) (lt_irrefl k))]
      rfl
  | cons p rest ih =>
    show (if p.1 < k then p :: refInsert k v (rest ++ b)
      else if p.1 = k then (k, v) :: (rest ++ b) else (k, v) :: p :: (rest ++ b)) = _
    by_cases h1 : p.1 < k
    · rw [if_pos h1, ih]
      show p :: (refInsert k v rest ++ b) =
        (if p.1 < k then p :: refInsert k v rest
          else if p.1 = k then (k, v) :: rest else (k, v) :: p :: rest) ++ b
      rw [if_pos h1]
      rfl
    · by_cases h2 : p.1 = k
      · rw [if_neg h1, if_pos h2]
        show _ = (if p.1 < k then p :: refInsert k v rest
          else if p.1 = k then (k, v) :: rest else (k, v) :: p :: rest) ++ b
        rw [if_neg h1, if_pos h2]
        rfl
      · rw [if_neg h1, if_neg h2]
        show _ = (if p.1 < k then p :: refInsert k v rest
          else if p.1 = k then (k, v) :: rest else (k, v) :: p :: rest) ++ b
        rw [if_neg h1, if_neg h2]
        rfl

theorem leafContains_sorted {es : List (Key × Val)} (h : entsSorted es) (k : Key) :
    leafContains es k = (refLookup k es).isSome := by
  rw [leafContains, leafLookup_sorted h]

theorem leafInsert_length {k : Key} {v : Val} (es : List (Key × Val)) :
    (leafInsert k v es).length = es.length + 1 := by
  induction es with
  | nil => rfl
  | cons p rest ih =>
    show (if p.1 < k then p :: leafInsert k v rest else (k, v) :: p :: rest).length = _
    by_cases h1 : p.1 < k
    · simp [h1, ih]
    · simp [h1]

theorem leafInsert_eq_refInsert {k : Key} {v : Val} {es : List (Key × Val)}
    (h : ∀ p ∈ es, (p : Key × Val).1 ≠ k) : leafInsert k v es = refInsert k v es := by
  induction es with
  | nil => rfl
  | cons p rest ih =>
    show (if p.1 < k then p :: leafInsert k v rest else (k, v) :: p :: rest) =
      (if p.1 < k then p :: refInsert k v rest
        else if p.1 = k then (k, v) :: rest else (k, v) :: p :: rest)
    by_cases h1 : p.1 < k
    · rw [if_pos h1, if_pos h1, ih fun q hq => h q (by simp [hq])]
    · rw [if_neg h1, if_neg h1, if_neg (h p (by simp))]

theorem leafSet_eq_refInsert {k : Key} {v : Val} {es : List (Key × Val)}
    (hs : entsSorted es) (h : refLookup k es ≠ none) :
    leafSet k v es = refInsert k v es := by
  induction es with
  | nil => simp [refLookup] at h
  | cons p rest ih =>
    have hrests : entsSorted rest := (List.chain'_cons'.1 hs).2
    show (if p.1 = k then (k, v) :: rest else p :: leafSet k v rest) =
      (if p.1 < k then p :: refInsert k v rest
        else if p.1 = k then (k, v) :: rest else (k, v) :: p :: rest)
    by_cases h2 : p.1 = k
    · rw [if_pos h2, if_neg (by rw [h2]; exact lt_irrefl k), if_pos h2]
    · have hrest : refLookup k rest ≠ none := by
        rw [show refLookup k (p :: rest) = if p.1 = k then some p.2 else refLookup k rest
          from rfl, if_neg h2] at h
        exact h
      by_cases h1 : p.1 < k
      · rw [if_neg h2, if_pos h1, ih hrests hrest]
      · exact absurd (refLookup_eq_none fun q hq =>
          ne_of_gt (lt_trans (lt_of_le_of_ne (not_lt.1 h1) (Ne.symm h2))
            (entsSorted_head_lt hs q hq))) hrest

theorem wfn_lt_of_bounds {a b : Key} {d : Nat} {t : BNode}
    (h : WFN (some a) (some b) d t) : a < b := by
  obtain ⟨p, hp⟩ := List.exists_mem_of_ne_nil _ (WFN.entries_ne_nil h)
  obtain ⟨hle, hlt⟩ := (wfn_sorted h).2 p hp
  exact lt_of_le_of_lt hle hlt

theorem wff_lt_of_bounds {a b : Key} {d : Nat} {f : Frame}
    (h : WFF (some a) (some b) d f) : a < b := by
  obtain ⟨p, hp⟩ := List.exists_mem_of_ne_nil _ (WFF.frameEntries_ne_nil h)
  obtain ⟨hle, hlt⟩ := (wff_sorted h).2 p hp
  exact lt_of_le_of_lt hle hlt

theorem splitFrame_wf {lo hi : Option Key} {d : Nat} {f : Frame}
    (h : WFF lo hi d f) (h4 : 4 ≤ frameKeys f) :
    ∃ f1 s f2, splitFrame f = .split (.node f1) s (.node f2) ∧
      frameKeys f1 = 2 ∧ frameKeys f2 + 3 = frameKeys f ∧
      WFF lo (some s) d f1 ∧ WFF (some s) hi d f2 ∧
      keyInBounds lo hi s ∧
      frameEntries f1 ++ frameEntries f2 = frameEntries f := by
  rcases f with c0 | ⟨a, sa, b0 | ⟨b, sb, c0 | ⟨c, sc, rest⟩⟩⟩
  · simp [frameKeys] at h4
  · simp [frameKeys] at h4
  · simp [frameKeys] at h4
  · obtain ⟨ha, hb, hc, hrest⟩ := h
    refine ⟨.cons a sa (.cons b sb (.last c)), sc, rest, rfl, rfl, rfl,
      ⟨ha, hb, hc⟩, hrest, ⟨?_, ?_⟩, ?_⟩
    · cases lo with
      | none => trivial
      | some l0 =>
        have h1 : l0 < sa := wfn_lt_of_bounds ha
        have h2 : sa < sb := wfn_lt_of_bounds hb
        have h3 : sb < sc := wfn_lt_of_bounds hc
        exact le_of_lt (lt_trans (lt_trans h1 h2) h3)
    · cases hi with
      | none => trivial
      | some h0 => exact wff_lt_of_bounds hrest
    · simp [frameEntries, entries, List.append_assoc]

theorem refLookup_none_ne {k : Key} {es : List (Key × Val)}
    (h : refLookup k es = none) : ∀ p ∈ es, (p : Key × Val).1 ≠ k := by
  induction es with
  | nil => intro p hp; simp at hp
  | cons p rest ih =>
    have hne : ¬p.1 = k := by
      intro he
      simp [refLookup, he] at h
    have hrest : refLookup k rest = none := by
      rw [show refLookup k (p :: rest) = if p.1 = k then some p.2 else refLookup k rest
        from rfl, if_neg hne] at h
      exact h
    intro q hq
    rcases List.mem_cons.1 hq with hq1 | hq2
    · rw [hq1]; exact hne
    · exact ih hrest q hq2

mutual

theorem putRec_wf {lo hi : Option Key} {d : Nat} {t : BNode} {k : Key} {v : Val}
    (h : WFN lo hi d t) (hk : keyInBounds lo hi k) :
    (∃ t2, putRec k v t = .one t2 ∧ WFN lo hi d t2 ∧
      entries t2 = refInsert k v (entries t)) ∨
    (∃ l s r, putRec k v t = .split l s r ∧ WFN lo (some s) d l ∧
      WFN (some s) hi d r ∧ keyInBounds lo hi s ∧
      entries l ++ entries r = refInsert k v (entries t)) := by
  match d, t with
  | 0, .leaf es =>
    obtain ⟨h1, h2, h3, h4⟩ := h
    cases hlk : refLookup k es with
    | some v0 =>
      have hco : leafContains es k = true := by
        rw [leafContains_sorted h3, hlk]; rfl
      have hset : leafSet k v es = refInsert k v es :=
        leafSet_eq_refInsert h3 (by rw [hlk]; exact fun he => Option.noConfusion he)
      have hlen : (refInsert k v es).length = es.length :=
        refInsert_length_present h3 (by rw [hlk]; exact fun he => Option.noConfusion he)
      refine Or.inl ⟨.leaf (leafSet k v es), by simp [putRec, hco], ?_, ?_⟩
      · show WFN lo hi 0 (.leaf (leafSet k v es))
        rw [hset]
        exact ⟨by omega, by omega, refInsert_sorted h3, refInsert_bounded h4 hk⟩
      · show leafSet k v es = refInsert k v es
        exact hset
    | none =>
      have hco : leafContains es k = false := by
        rw [leafContains_sorted h3, hlk]; rfl
      have heq : leafInsert k v es = refInsert k v es :=
        leafInsert_eq_refInsert (refLookup_none_ne hlk)
      have hlen : (refInsert k v es).length = es.length + 1 := by
        rw [← heq]; exact leafInsert_length es
      have hs1 : entsSorted (refInsert k v es) := refInsert_sorted h3
      have hb1 : entsBounded lo hi (refInsert k v es) := refInsert_bounded h4 hk
      have hput : putRec k v (.leaf es) =
          (if (leafInsert k v es).length ≥ maxDegree
            then splitLeafEntries (leafInsert k v es)
            else .one (.leaf (leafInsert k v es))) := by
        simp [putRec, hco]
      by_cases hbig : (leafInsert k v es).length ≥ maxDegree
      · rw [if_pos hbig] at hput
        have hmd : maxDegree = 4 := rfl
        rw [heq] at hput hbig
        have hlen4 : (refInsert k v es).length = 4 := by
          rw [hmd] at hbig
          omega
        rcases hres : refInsert k v es with - | ⟨a, - | ⟨b, - | ⟨c, - | ⟨d2, - | ⟨x, tail⟩⟩⟩⟩⟩ <;>
          rw [hres] at hlen4 <;> simp at hlen4
        rw [hres] at hput hs1 hb1
        obtain ⟨hab, hbc, hcd⟩ : a.1 < b.1 ∧ b.1 < c.1 ∧ c.1 < d2.1 := by
          simpa [entsSorted, List.chain'_cons] using hs1
        have hsplit : splitLeafEntries [a, b, c, d2] =
            .split (.leaf [a, b]) c.1 (.leaf [c, d2]) := rfl
        rw [hsplit] at hput
        refine Or.inr ⟨.leaf [a, b], c.1, .leaf [c, d2], hput, ?_, ?_, hb1 c (by simp), ?_⟩
        · refine ⟨by simp, by simp, by simp [entsSorted, List.chain'_cons, hab], ?_⟩
          intro p hp
          rcases List.mem_cons.1 hp with hp1 | hp2
          · exact ⟨hp1 ▸ (hb1 a (by simp)).1, hp1 ▸ lt_trans hab hbc⟩
          · rcases List.mem_singleton.1 hp2 with hp3
            exact ⟨hp3 ▸ (hb1 b (by simp)).1, hp3 ▸ hbc⟩
        · refine ⟨by simp, by simp, by simp [entsSorted, List.chain'_cons, hcd], ?_⟩
          intro p hp
          rcases List.mem_cons.1 hp with hp1 | hp2
          · exact ⟨hp1 ▸ le_refl c.1, hp1 ▸ (hb1 c (by simp)).2⟩
          · rcases List.mem_singleton.1 hp2 with hp3
            exact ⟨hp3 ▸ le_of_lt hcd, hp3 ▸ (hb1 d2 (by simp)).2⟩
        · show ([a, b] : List (Key × Val)) ++ [c, d2] = refInsert k v es
          rw [hres]
          rfl
      · rw [if_neg hbig] at hput
        have hmd : maxDegree = 4 := rfl
        rw [heq] at hput hbig
        rw [hmd] at hbig
        refine Or.inl ⟨.leaf (refInsert k v es), hput, ?_, rfl⟩
        exact ⟨by omega, by omega, hs1, hb1⟩
  | d + 1, .node f =>
    obtain ⟨hk1, hk2, hf⟩ := h
    obtain ⟨ihw, ihe, ihk⟩ := @putFrame_wf lo hi d f k v hf hk
    rcases hpf : putFrame k v f with ⟨fn, g⟩
    rw [hpf] at ihw ihe ihk
    dsimp only at ihw ihe ihk
    have hput : putRec k v (.node f) =
        (if g = true ∧ frameKeys fn ≥ maxDegree then splitFrame fn
          else .one (.node fn)) := by
      simp [putRec, hpf]
    by_cases hcond : g = true ∧ frameKeys fn ≥ maxDegree
    · rw [if_pos hcond] at hput
      obtain ⟨f1, s, f2, hsp, hkf1, hkf2, hw1, hw2, hks, hent⟩ :=
        splitFrame_wf ihw hcond.2
      rw [hsp] at hput
      have hmd4 : 4 ≤ frameKeys fn := hcond.2
      have hfn5 : frameKeys fn ≤ 5 := by
        rw [ihk]
        split <;> omega
      refine Or.inr ⟨.node f1, s, .node f2, hput,
        ⟨by omega, by omega, hw1⟩, ⟨by omega, by omega, hw2⟩, hks, ?_⟩
      show frameEntries f1 ++ frameEntries f2 = refInsert k v (frameEntries f)
      rw [hent, ihe]
    · rw [if_neg hcond] at hput
      have hfn4 : frameKeys fn ≤ 4 := by
        rcases Decidable.not_and_iff_or_not.1 hcond with hg | hlt
        · have hg0 : g = false := by
            cases g with
            | true => exact absurd rfl hg
            | false => rfl
          rw [ihk, hg0]
          simpa using hk2
        · have : frameKeys fn < maxDegree := not_le.1 hlt
          have hmd : maxDegree = 4 := rfl
          omega
      have hfn1 : 1 ≤ frameKeys fn := by
        rw [ihk]
        split <;> omega
      exact Or.inl ⟨.node fn, hput, ⟨hfn1, hfn4, ihw⟩, ihe⟩
termination_by structural t

theorem putFrame_wf {lo hi : Option Key} {d : Nat} {f : Frame} {k : Key} {v : Val}
    (h : WFF lo hi d f) (hk : keyInBounds lo hi k) :
    WFF lo hi d (putFrame k v f).1 ∧
      frameEntries (putFrame k v f).1 = refInsert k v (frameEntries f) ∧
      frameKeys (putFrame k v f).1 =
        frameKeys f + (if (putFrame k v f).2 then 1 else 0) := by
  match f with
  | .last c =>
    rcases @putRec_wf lo hi d c k v h hk with ⟨t2, hput, hw, he⟩ | ⟨l, s, r, hput, hwl, hwr, hks, he⟩
    · have hpf : putFrame k v (.last c) = (.last t2, false) := by
        simp [putFrame, hput]
      rw [hpf]
      exact ⟨hw, he, rfl⟩
    · have hpf : putFrame k v (.last c) = (.cons l s (.last r), true) := by
        simp [putFrame, hput]
      rw [hpf]
      refine ⟨⟨hwl, hwr⟩, ?_, rfl⟩
      show entries l ++ entries r = refInsert k v (entries c)
      exact he
  | .cons c s1 rest =>
    obtain ⟨hc, hrest⟩ := h
    by_cases hklt : k < s1
    · have hkb : keyInBounds lo (some s1) k := ⟨hk.1, hklt⟩
      have hbelow : ∀ p ∈ frameEntries rest, k < (p : Key × Val).1 := by
        intro p hp
        exact lt_of_lt_of_le hklt ((wff_sorted hrest).2 p hp).1
      rcases @putRec_wf lo (some s1) d c k v hc hkb with ⟨t2, hput, hw, he⟩ | ⟨l, s, r, hput, hwl, hwr, hks, he⟩
      · have hpf : putFrame k v (.cons c s1 rest) = (.cons t2 s1 rest, false) := by
          simp [putFrame, hklt, hput]
        rw [hpf]
        refine ⟨⟨hw, hrest⟩, ?_, rfl⟩
        show entries t2 ++ frameEntries rest = refInsert k v (entries c ++ frameEntries rest)
        rw [refInsert_append_left hbelow, he]
      · have hpf : putFrame k v (.cons c s1 rest) =
            (.cons l s (.cons r s1 rest), true) := by
          simp [putFrame, hklt, hput]
        rw [hpf]
        refine ⟨⟨hwl, hwr, hrest⟩, ?_, rfl⟩
        show entries l ++ (entries r ++ frameEntries rest) =
          refInsert k v (entries c ++ frameEntries rest)
        rw [refInsert_append_left hbelow, ← he, List.append_assoc]
    · have hkb : keyInBounds (some s1) hi k := ⟨not_lt.1 hklt, hk.2⟩
      have habove : ∀ p ∈ entries c, (p : Key × Val).1 < k := by
        intro p hp
        exact lt_of_lt_of_le ((wfn_sorted hc).2 p hp).2 (not_lt.1 hklt)
      obtain ⟨ihw, ihe, ihk⟩ := @putFrame_wf (some s1) hi d rest k v hrest hkb
      rcases hpr : putFrame k v rest with ⟨restn, g⟩
      rw [hpr] at ihw ihe ihk
      dsimp only at ihw ihe ihk
      have hpf : putFrame k v (.cons c s1 rest) = (.cons c s1 restn, g) := by
        simp [putFrame, hklt, hpr]
      rw [hpf]
      refine ⟨⟨hc, ihw⟩, ?_, ?_⟩
      · show entries c ++ frameEntries restn = refInsert k v (entries c ++ frameEntries rest)
        rw [refInsert_append_right habove, ihe]
      · show frameKeys restn + 1 = frameKeys rest + 1 + (if g then 1 else 0)
        rw [ihk]
        split <;> omega
termination_by structural f

end

theorem refInsert_mem_pair {k : Key} {v : Val} {es : List (Key × Val)} {q : Key × Val}
    (hq : q ∈ refInsert k v es) : q = (k, v) ∨ q ∈ es := by
  induction es with
  | nil =>
    simp [refInsert] at hq
    simp [hq]
  | cons p rest ih =>
    rw [show refInsert k v (p :: rest) = if p.1 < k then p :: refInsert k v rest
      else if p.1 = k then (k, v) :: rest else (k, v) :: p :: rest from rfl] at hq
    split at hq
    · rcases List.mem_cons.1 hq with hq1 | hq2
      · exact Or.inr (by simp [hq1])
      · rcases ih hq2 with hk | hr
        · exact Or.inl hk
        · exact Or.inr (by simp [hr])
    · split at hq
      · rcases List.mem_cons.1 hq with hq1 | hq2
        · exact Or.inl hq1
        · exact Or.inr (by simp [hq2])
      · rcases List.mem_cons.1 hq with hq1 | hq2
        · exact Or.inl hq1
        · exact Or.inr hq2

theorem WFN.toWFRoot {d : Nat} {t : BNode} (h : WFN none none d t) : WFRoot t := by
  match d, t with
  | 0, .leaf es =>
    obtain ⟨-, h2, h3, h4⟩ := h
    exact ⟨h2, h3, h4⟩
  | d + 1, .node f =>
    obtain ⟨h1, h2, h3⟩ := h
    exact ⟨d, h1, h2, h3⟩
  | 0, .node f => exact absurd h (by simp [WFN])
  | d + 1, .leaf es => exact absurd h (by simp [WFN])

theorem treePut_root {t : BNode} {k : Key} {v : Val} (h : WFRoot t) :
    WFRoot (treePut t k v) ∧ entries (treePut t k v) = refInsert k v (entries t) := by
  have hkb : keyInBounds none none k := ⟨trivial, trivial⟩
  cases t with
  | leaf es =>
    obtain ⟨h2, h3, h4⟩ := h
    cases hlk : refLookup k es with
    | some v0 =>
      have hco : leafContains es k = true := by
        rw [leafContains_sorted h3, hlk]; rfl
      have hset : leafSet k v es = refInsert k v es :=
        leafSet_eq_refInsert h3 (by rw [hlk]; exact fun he => Option.noConfusion he)
      have hlen : (refInsert k v es).length = es.length :=
        refInsert_length_present h3 (by rw [hlk]; exact fun he => Option.noConfusion he)
      have hput : treePut (.leaf es) k v = .leaf (leafSet k v es) := by
        simp [treePut, putRec, hco]
      rw [hput]
      refine ⟨?_, hset⟩
      show WFRoot (.leaf (leafSet k v es))
      rw [hset]
      exact ⟨by omega, refInsert_sorted h3, refInsert_bounded h4 hkb⟩
    | none =>
      have hco : leafContains es k = false := by
        rw [leafContains_sorted h3, hlk]; rfl
      have heq : leafInsert k v es = refInsert k v es :=
        leafInsert_eq_refInsert (refLookup_none_ne hlk)
      have hlen : (refInsert k v es).length = es.length + 1 := by
        rw [← heq]; exact leafInsert_length es
      have hs1 : entsSorted (refInsert k v es) := refInsert_sorted h3
      have hb1 : entsBounded none none (refInsert k v es) := refInsert_bounded h4 hkb
      have hput : treePut (.leaf es) k v =
          (match (if (leafInsert k v es).length ≥ maxDegree
              then splitLeafEntries (leafInsert k v es)
              else .one (.leaf (leafInsert k v es))) with
            | .one t1 => t1
            | .split l s r => .node (.cons l s (.last r))) := by
        simp [treePut, putRec, hco]
      by_cases hbig : (leafInsert k v es).length ≥ maxDegree
      · rw [if_pos hbig] at hput
        have hmd : maxDegree = 4 := rfl
        rw [heq] at hput hbig
        have hlen4 : (refInsert k v es).length = 4 := by
          rw [hmd] at hbig
          omega
        rcases hres : refInsert k v es with - | ⟨a, - | ⟨b, - | ⟨c, - | ⟨d2, - | ⟨x, tail⟩⟩⟩⟩⟩ <;>
          rw [hres] at hlen4 <;> simp at hlen4
        rw [hres] at hput hs1 hb1
        obtain ⟨hab, hbc, hcd⟩ : a.1 < b.1 ∧ b.1 < c.1 ∧ c.1 < d2.1 := by
          simpa [entsSorted, List.chain'_cons] using hs1
        have hsplit : splitLeafEntries [a, b, c, d2] =
            .split (.leaf [a, b]) c.1 (.leaf [c, d2]) := rfl
        rw [hsplit] at hput
        rw [hput]
        constructor
        · refine ⟨0, by simp [frameKeys], by simp [frameKeys], ?_, ?_⟩
          · refine ⟨by simp, by simp, by simp [entsSorted, List.chain'_cons, hab], ?_⟩
            intro p hp
            rcases List.mem_cons.1 hp with hp1 | hp2
            · exact ⟨trivial, hp1 ▸ lt_trans hab hbc⟩
            · rcases List.mem_singleton.1 hp2 with hp3
              exact ⟨trivial, hp3 ▸ hbc⟩
          · refine ⟨by simp, by simp, by simp [entsSorted, List.chain'_cons, hcd], ?_⟩
            intro p hp
            rcases List.mem_cons.1 hp with hp1 | hp2
            · exact ⟨hp1 ▸ le_refl c.1, trivial⟩
            · rcases List.mem_singleton.1 hp2 with hp3
              exact ⟨hp3 ▸ le_of_lt hcd, trivial⟩
        · show ([a, b] : List (Key × Val)) ++ [c, d2] = refInsert k v es
          rw [hres]
          rfl
      · rw [if_neg hbig] at hput
        have hmd : maxDegree = 4 := rfl
        rw [heq] at hput hbig
        rw [hmd] at hbig
        rw [hput]
        exact ⟨⟨by omega, hs1, hb1⟩, rfl⟩
  | node f =>
    obtain ⟨d, hk1, hk2, hf⟩ := h
    have hwfn : WFN none none (d + 1) (.node f) := ⟨hk1, hk2, hf⟩
    rcases @putRec_wf none none (d + 1) (.node f) k v hwfn hkb with
      ⟨t2, hput, hw, he⟩ | ⟨l, s, r, hput, hwl, hwr, -, he⟩
    · have htp : treePut (.node f) k v = t2 := by
        simp [treePut, hput]
      rw [htp]
      exact ⟨WFN.toWFRoot hw, he⟩
    · have htp : treePut (.node f) k v = .node (.cons l s (.last r)) := by
        simp [treePut, hput]
      rw [htp]
      refine ⟨⟨d + 1, by simp [frameKeys], by simp [frameKeys], hwl, hwr⟩, ?_⟩
      show entries l ++ entries r = refInsert k v (entries (.node f))
      exact he

/-! ### `update` overwrites in place -/

mutual

theorem updRec_wf {lo hi : Option Key} {d : Nat} {t : BNode} {k : Key} {v : Val}
    (h : WFN lo hi d t) (hk : keyInBounds lo hi k) :
    (updRec k v t = none ∧ refLookup k (entries t) = none) ∨
    (∃ t2, updRec k v t = some t2 ∧ WFN lo hi d t2 ∧ nodeSize t2 = nodeSize t ∧
      entries t2 = refInsert k v (entries t) ∧ refLookup k (entries t) ≠ none) := by
  match d, t with
  | 0, .leaf es =>
    obtain ⟨h1, h2, h3, h4⟩ := h
    cases hlk : refLookup k es with
    | none =>
      have hco : leafContains es k = false := by
        rw [leafContains_sorted h3, hlk]; rfl
      exact Or.inl ⟨by simp [updRec, hco], hlk⟩
    | some v0 =>
      have hco : leafContains es k = true := by
        rw [leafContains_sorted h3, hlk]; rfl
      have hset : leafSet k v es = refInsert k v es :=
        leafSet_eq_refInsert h3 (by rw [hlk]; exact fun he => Option.noConfusion he)
      have hlen : (refInsert k v es).length = es.length :=
        refInsert_length_present h3 (by rw [hlk]; exact fun he => Option.noConfusion he)
      refine Or.inr ⟨.leaf (leafSet k v es), by simp [updRec, hco], ?_, ?_, hset,
        by show refLookup k es ≠ none; rw [hlk]; exact fun he => Option.noConfusion he⟩
      · show WFN lo hi 0 (.leaf (leafSet k v es))
        rw [hset]
        exact ⟨by omega, by omega, refInsert_sorted h3, refInsert_bounded h4 hk⟩
      · show (leafSet k v es).length = es.length
        rw [hset, hlen]
  | d + 1, .node f =>
    obtain ⟨hk1, hk2, hf⟩ := h
    rcases @updFrame_wf lo hi d f k v hf hk with ⟨hnone, hlk⟩ |
      ⟨f2, hsome, hw, hkeys, hent, hlk⟩
    · exact Or.inl ⟨by simp [updRec, hnone], hlk⟩
    · refine Or.inr ⟨.node f2, by simp [updRec, hsome], ⟨?_, ?_, hw⟩, ?_, hent, hlk⟩
      · rw [hkeys]; exact hk1
      · rw [hkeys]; exact hk2
      · show frameKeys f2 = frameKeys f
        exact hkeys
  | 0, .node f => exact absurd h (by simp [WFN])
  | d + 1, .leaf es => exact absurd h (by simp [WFN])
termination_by structural t

theorem updFrame_wf {lo hi : Option Key} {d : Nat} {f : Frame} {k : Key} {v : Val}
    (h : WFF lo hi d f) (hk : keyInBounds lo hi k) :
    (updFrame k v f = none ∧ refLookup k (frameEntries f) = none) ∨
    (∃ f2, updFrame k v f = some f2 ∧ WFF lo hi d f2 ∧ frameKeys f2 = frameKeys f ∧
      frameEntries f2 = refInsert k v (frameEntries f) ∧
      refLookup k (frameEntries f) ≠ none) := by
  match f with
  | .last c =>
    rcases @updRec_wf lo hi d c k v h hk with ⟨hnone, hlk⟩ |
      ⟨t2, hsome, hw, hsz, hent, hlk⟩
    · exact Or.inl ⟨by simp [updFrame, hnone], hlk⟩
    · exact Or.inr ⟨.last t2, by simp [updFrame, hsome], hw, rfl, hent, hlk⟩
  | .cons c s1 rest =>
    obtain ⟨hc, hrest⟩ := h
    by_cases hklt : k < s1
    · have hkb : keyInBounds lo (some s1) k := ⟨hk.1, hklt⟩
      have hbelow : ∀ p ∈ frameEntries rest, k < (p : Key × Val).1 := by
        intro p hp
        exact lt_of_lt_of_le hklt ((wff_sorted hrest).2 p hp).1
      have hlkapp : refLookup k (entries c ++ frameEntries rest) = refLookup k (entries c) :=
        refLookup_append_left fun p hp => ne_of_gt (hbelow p hp)
      rcases @updRec_wf lo (some s1) d c k v hc hkb with ⟨hnone, hlk⟩ |
        ⟨t2, hsome, hw, hsz, hent, hlk⟩
      · refine Or.inl ⟨by simp [updFrame, hklt, hnone], ?_⟩
        show refLookup k (entries c ++ frameEntries rest) = none
        rw [hlkapp, hlk]
      · refine Or.inr ⟨.cons t2 s1 rest, by simp [updFrame, hklt, hsome],
          ⟨hw, hrest⟩, rfl, ?_, ?_⟩
        · show entries t2 ++ frameEntries rest =
            refInsert k v (entries c ++ frameEntries rest)
          rw [refInsert_append_left hbelow, hent]
        · show refLookup k (entries c ++ frameEntries rest) ≠ none
          rw [hlkapp]; exact hlk
    · have hkb : keyInBounds (some s1) hi k := ⟨not_lt.1 hklt, hk.2⟩
      have habove : ∀ p ∈ entries c, (p : Key × Val).1 < k := by
        intro p hp
        exact lt_of_lt_of_le ((wfn_sorted hc).2 p hp).2 (not_lt.1 hklt)
      have hlkapp : refLookup k (entries c ++ frameEntries rest) =
          refLookup k (frameEntries rest) :=
        refLookup_append_right fun p hp => ne_of_lt (habove p hp)
      rcases @updFrame_wf (some s1) hi d rest k v hrest hkb with ⟨hnone, hlk⟩ |
        ⟨f2, hsome, hw, hkeys, hent, hlk⟩
      · refine Or.inl ⟨by simp [updFrame, hklt, hnone], ?_⟩
        show refLookup k (entries c ++ frameEntries rest) = none
        rw [hlkapp, hlk]
      · refine Or.inr ⟨.cons c s1 f2, by simp [updFrame, hklt, hsome],
          ⟨hc, hw⟩, by simp [frameKeys, hkeys], ?_, ?_⟩
        · show entries c ++ frameEntries f2 =
            refInsert k v (entries c ++ frameEntries rest)
          rw [refInsert_append_right habove, hent]
        · show refLookup k (entries c ++ frameEntries rest) ≠ none
          rw [hlkapp]; exact hlk
termination_by structural f

end

/-- `update`'s tree effect at the root: `none` exactly on an absent key,
otherwise the in-place overwrite with shape and well-formedness preserved. -/
theorem updRec_root {t : BNode} {k : Key} {v : Val} (h : WFRoot t) :
    (updRec k v t = none ∧ refLookup k (entries t) = none) ∨
    (∃ t2, updRec k v t = some t2 ∧ WFRoot t2 ∧
      entries t2 = refInsert k v (entries t) ∧ refLookup k (entries t) ≠ none) := by
  have hkb : keyInBounds none none k := ⟨trivial, trivial⟩
  cases t with
  | leaf es =>
    obtain ⟨h2, h3, h4⟩ := h
    cases hlk : refLookup k es with
    | none =>
      have hco : leafContains es k = false := by
        rw [leafContains_sorted h3, hlk]; rfl
      exact Or.inl ⟨by simp [updRec, hco], hlk⟩
    | some v0 =>
      have hco : leafContains es k = true := by
        rw [leafContains_sorted h3, hlk]; rfl
      have hset : leafSet k v es = refInsert k v es :=
        leafSet_eq_refInsert h3 (by rw [hlk]; exact fun he => Option.noConfusion he)
      have hlen : (refInsert k v es).length = es.length :=
        refInsert_length_present h3 (by rw [hlk]; exact fun he => Option.noConfusion he)
      refine Or.inr ⟨.leaf (leafSet k v es), by simp [updRec, hco], ?_, hset,
        by show refLookup k es ≠ none; rw [hlk]; exact fun he => Option.noConfusion he⟩
      show WFRoot (.leaf (leafSet k v es))
      rw [hset]
      exact ⟨by omega, refInsert_sorted h3, refInsert_bounded h4 hkb⟩
  | node f =>
    obtain ⟨d, hk1, hk2, hf⟩ := h
    rcases @updFrame_wf none none d f k v hf hkb with ⟨hnone, hlk⟩ |
      ⟨f2, hsome, hw, hkeys, hent, hlk⟩
    · exact Or.inl ⟨by simp [updRec, hnone], hlk⟩
    · refine Or.inr ⟨.node f2, by simp [updRec, hsome],
        ⟨d, by rw [hkeys]; exact hk1, by rw [hkeys]; exact hk2, hw⟩, hent, hlk⟩

/-! ### `remove`: erase, rebalance, collapse -/

def WFNd : Option Key → Option Key → Nat → BNode → Prop
  | lo, hi, 0, .leaf es =>
    1 ≤ es.length ∧ es.length ≤ 3 ∧ entsSorted es ∧ entsBounded lo hi es
  | lo, hi, d + 1, .node f => frameKeys f ≤ 4 ∧ WFF lo hi d f
  | _, _, _, _ => False

theorem leafErase_eq_refErase (k : Key) (es : List (Key × Val)) :
    leafErase k es = refErase k es := by
  induction es with
  | nil => rfl
  | cons p rest ih =>
    show (if p.1 = k then rest else p :: leafErase k rest) =
      (if p.1 = k then rest else p :: refErase k rest)
    rw [ih]

theorem refErase_sublist (k : Key) (es : List (Key × Val)) :
    List.Sublist (refErase k es) es := by
  induction es with
  | nil => exact List.Sublist.refl []
  | cons p rest ih =>
    show List.Sublist (if p.1 = k then rest else p :: refErase k rest) (p :: rest)
    by_cases h : p.1 = k
    · rw [if_pos h]
      exact List.sublist_cons_self p rest
    · rw [if_neg h]
      exact List.Sublist.cons₂ p ih

theorem refErase_length_le (k : Key) (es : List (Key × Val)) :
    (refErase k es).length ≤ es.length :=
  List.Sublist.length_le (refErase_sublist k es)

theorem refErase_length_ge (k : Key) (es : List (Key × Val)) :
    es.length ≤ (refErase k es).length + 1 := by
  induction es with
  | nil => simp [refErase]
  | cons p rest ih =>
    show rest.length + 1 ≤ (if p.1 = k then rest else p :: refErase k rest).length + 1
    by_cases h : p.1 = k
    · simp [h]
    · simp only [if_neg h, List.length_cons]
      omega

theorem refErase_sorted {k : Key} {es : List (Key × Val)} (h : entsSorted es) :
    entsSorted (refErase k es) := by
  rw [entsSorted, List.chain'_iff_pairwise] at h ⊢
  exact h.sublist (refErase_sublist k es)

theorem refErase_mem {k : Key} {es : List (Key × Val)} {q : Key × Val}
    (hq : q ∈ refErase k es) : q ∈ es :=
  (refErase_sublist k es).mem hq

theorem refErase_bounded {lo hi : Option Key} {k : Key} {es : List (Key × Val)}
    (h : entsBounded lo hi es) : entsBounded lo hi (refErase k es) :=
  fun q hq => h q (refErase_mem hq)

theorem refErase_eq_self {k : Key} {es : List (Key × Val)}
    (h : ∀ p ∈ es, (p : Key × Val).1 ≠ k) : refErase k es = es := by
  induction es with
  | nil => rfl
  | cons p rest ih =>
    show (if p.1 = k then rest else p :: refErase k rest) = p :: rest
    rw [if_neg (h p (by simp)), ih fun q hq => h q (by simp [hq])]

theorem refErase_append_left {k : Key} {a b : List (Key × Val)}
    (h : ∀ p ∈ a, (p : Key × Val).1 ≠ k) :
    refErase k (a ++ b) = a ++ refErase k b := by
  induction a with
  | nil => rfl
  | cons p rest ih =>
    show (if p.1 = k then rest ++ b else p :: refErase k (rest ++ b)) = _
    rw [if_neg (h p (by simp)), ih fun q hq => h q (by simp [hq])]
    rfl

theorem refErase_append_right {k : Key} {a b : List (Key × Val)}
    (h : ∀ p ∈ b, (p : Key × Val).1 ≠ k) :
    refErase k (a ++ b) = refErase k a ++ b := by
  induction a with
  | nil =>
    show refErase k b = refErase k [] ++ b
    rw [refErase_eq_self h]
    rfl
  | cons p rest ih =>
    show (if p.1 = k then rest ++ b else p :: refErase k (rest ++ b)) =
      (if p.1 = k then rest else p :: refErase k rest) ++ b
    by_cases hp : p.1 = k
    · rw [if_pos hp, if_pos hp]
    · rw [if_neg hp, if_neg hp, ih]
      rfl

theorem frameSnoc_spec {lo hi2 : Option Key} {d : Nat} {f : Frame} {s : Key} {c : BNode}
    (hf : WFF lo (some s) d f) (hc : WFN (some s) hi2 d c) :
    WFF lo hi2 d (frameSnoc f s c) ∧
      frameKeys (frameSnoc f s c) = frameKeys f + 1 ∧
      frameEntries (frameSnoc f s c) = frameEntries f ++ entries c := by
  match f with
  | .last c0 =>
    exact ⟨⟨hf, hc⟩, rfl, rfl⟩
  | .cons c0 s0 rest =>
    obtain ⟨hc0, hrest⟩ := hf
    obtain ⟨h1, h2, h3⟩ := @frameSnoc_spec (some s0) hi2 d rest s c hrest hc
    refine ⟨⟨hc0, h1⟩, ?_, ?_⟩
    · show frameKeys (frameSnoc rest s c) + 1 = frameKeys rest + 1 + 1
      rw [h2]
    · show entries c0 ++ frameEntries (frameSnoc rest s c) = _
      rw [h3]
      show _ = entries c0 ++ frameEntries rest ++ entries c
      rw [List.append_assoc]
termination_by structural f

theorem frameAppend_spec {lo hi : Option Key} {d : Nat} {f : Frame} {s : Key} {g : Frame}
    (hf : WFF lo (some s) d f) (hg : WFF (some s) hi d g) :
    WFF lo hi d (frameAppend f s g) ∧
      frameKeys (frameAppend f s g) = frameKeys f + 1 + frameKeys g ∧
      frameEntries (frameAppend f s g) = frameEntries f ++ frameEntries g := by
  match f with
  | .last c0 =>
    refine ⟨⟨hf, hg⟩, ?_, rfl⟩
    show frameKeys g + 1 = 0 + 1 + frameKeys g
    omega
  | .cons c0 s0 rest =>
    obtain ⟨hc0, hrest⟩ := hf
    obtain ⟨h1, h2, h3⟩ := @frameAppend_spec (some s0) hi d rest s g hrest hg
    refine ⟨⟨hc0, h1⟩, ?_, ?_⟩
    · show frameKeys (frameAppend rest s g) + 1 = frameKeys rest + 1 + 1 + frameKeys g
      rw [h2]
      omega
    · show entries c0 ++ frameEntries (frameAppend rest s g) = _
      rw [h3]
      show _ = entries c0 ++ frameEntries rest ++ frameEntries g
      rw [List.append_assoc]
termination_by structural f

theorem frameUnsnoc_spec {lo hi : Option Key} {d : Nat} {c0 : BNode} {s0 : Key} {rest : Frame}
    (hc0 : WFN lo (some s0) d c0) (hrest : WFF (some s0) hi d rest) :
    ∃ fn s c, frameUnsnoc (.cons c0 s0 rest) = some (fn, s, c) ∧
      frameKeys fn + 1 = frameKeys (Frame.cons c0 s0 rest) ∧
      frameEntries (Frame.cons c0 s0 rest) = frameEntries fn ++ entries c ∧
      WFF lo (some s) d fn ∧ WFN (some s) hi d c := by
  match rest with
  | .last c1 =>
    exact ⟨.last c0, s0, c1, rfl, rfl, rfl, hc0, hrest⟩
  | .cons c1 s1 rest2 =>
    obtain ⟨hc1, hrest2⟩ := hrest
    obtain ⟨fn, s, c, heq, hk, he, hwf, hwc⟩ :=
      @frameUnsnoc_spec (some s0) hi d c1 s1 rest2 hc1 hrest2
    refine ⟨.cons c0 s0 fn, s, c, ?_, ?_, ?_, ⟨hc0, hwf⟩, hwc⟩
    · show (frameUnsnoc (.cons c1 s1 rest2)).map _ = _
      rw [heq]
      rfl
    · show frameKeys fn + 1 + 1 = frameKeys (Frame.cons c1 s1 rest2) + 1
      rw [hk]
    · show entries c0 ++ frameEntries (Frame.cons c1 s1 rest2) = _
      rw [he]
      show _ = entries c0 ++ frameEntries fn ++ entries c
      rw [List.append_assoc]
termination_by structural rest

theorem borrowFromRightPair_wf {lo0 hi0 : Option Key} {d : Nat} {cur right : BNode} {s2 : Key}
    (hcur : WFNd lo0 (some s2) d cur) (hsz : nodeSize cur < getMinKeys)
    (hright : WFN (some s2) hi0 d right) (hrich : nodeSize right > getMinKeys) :
    ∃ n s r, borrowFromRightPair cur right s2 = (n, s, r) ∧
      WFN lo0 (some s) d n ∧ WFN (some s) hi0 d r ∧
      entries n ++ entries r = entries cur ++ entries right := by
  have hmk : getMinKeys = 2 := rfl
  match d, cur, right with
  | 0, .leaf es, .leaf fs =>
    obtain ⟨h1, h2, h3, h4⟩ := hcur
    obtain ⟨g1, g2, g3, g4⟩ := hright
    rw [hmk] at hsz hrich
    have hlen1 : es.length = 1 := by
      simp [nodeSize] at hsz
      omega
    have hlen3 : fs.length = 3 := by
      simp [nodeSize] at hrich
      omega
    rcases es with - | ⟨x, - | ⟨y, tl⟩⟩ <;> simp at hlen1
    rcases fs with - | ⟨a, - | ⟨b, - | ⟨c, - | ⟨z, tl⟩⟩⟩⟩ <;> simp at hlen3
    obtain ⟨hab, hbc⟩ : a.1 < b.1 ∧ b.1 < c.1 := by
      simpa [entsSorted, List.chain'_cons] using g3
    obtain ⟨hx1, hx2⟩ := h4 x (by simp)
    obtain ⟨ha1, ha2⟩ := g4 a (by simp)
    obtain ⟨hb1, hb2⟩ := g4 b (by simp)
    obtain ⟨hc1, hc2⟩ := g4 c (by simp)
    refine ⟨.leaf [x, a], b.1, .leaf [b, c], rfl, ?_, ?_, rfl⟩
    · refine ⟨by simp, by simp, ?_, ?_⟩
      · simp [entsSorted, List.chain'_cons]
        exact lt_of_lt_of_le hx2 ha1
      · intro p hp
        rcases List.mem_cons.1 hp with hp1 | hp2
        · exact ⟨hp1 ▸ hx1, hp1 ▸ lt_of_lt_of_le hx2 (le_of_lt (lt_of_le_of_lt ha1 hab))⟩
        · rcases List.mem_singleton.1 hp2 with hp3
          subst hp3
          refine ⟨?_, hab⟩
          cases lo0 with
          | none => trivial
          | some l0 =>
            exact le_trans (le_trans hx1 (le_of_lt hx2)) ha1
    · refine ⟨by simp, by simp, by simp [entsSorted, List.chain'_cons, hbc], ?_⟩
      intro p hp
      rcases List.mem_cons.1 hp with hp1 | hp2
      · exact ⟨hp1 ▸ le_refl b.1, hp1 ▸ hb2⟩
      · rcases List.mem_singleton.1 hp2 with hp3
        exact ⟨hp3 ▸ le_of_lt hbc, hp3 ▸ hc2⟩
  | d0 + 1, .node df, .node ef =>
    obtain ⟨hkdf, hdf⟩ := hcur
    obtain ⟨g1, g2, hef⟩ := hright
    rw [hmk] at hsz hrich
    have hdf1 : frameKeys df ≤ 1 := by
      simp [nodeSize] at hsz
      omega
    have hef3 : 3 ≤ frameKeys ef := by
      simp [nodeSize] at hrich
      omega
    rcases ef with e0 | ⟨e0, ek, erest⟩
    · simp [frameKeys] at hef3
    · obtain ⟨he0, herest⟩ := hef
      obtain ⟨w1, w2, w3⟩ := frameSnoc_spec hdf he0
      refine ⟨.node (frameSnoc df s2 e0), ek, .node erest, rfl, ⟨?_, ?_, w1⟩,
        ⟨?_, ?_, herest⟩, ?_⟩
      · omega
      · omega
      · have : frameKeys (Frame.cons e0 ek erest) = frameKeys erest + 1 := rfl
        omega
      · have : frameKeys (Frame.cons e0 ek erest) = frameKeys erest + 1 := rfl
        omega
      · show frameEntries (frameSnoc df s2 e0) ++ frameEntries erest =
          frameEntries df ++ frameEntries (Frame.cons e0 ek erest)
        rw [w3]
        show _ = frameEntries df ++ (entries e0 ++ frameEntries erest)
        rw [List.append_assoc]
  | 0, .leaf es, .node ef => exact absurd hright (by simp [WFN])
  | 0, .node df, .leaf fs => exact absurd hcur (by simp [WFNd])
  | 0, .node df, .node ef => exact absurd hcur (by simp [WFNd])
  | d0 + 1, .leaf es, .leaf fs => exact absurd hcur (by simp [WFNd])
  | d0 + 1, .leaf es, .node ef => exact absurd hcur (by simp [WFNd])
  | d0 + 1, .node df, .leaf fs => exact absurd hright (by simp [WFN])

theorem borrowFromLeftPair_wf {lo0 hi0 : Option Key} {d : Nat} {left cur : BNode} {sep : Key}
    (hleft : WFN lo0 (some sep) d left) (hrich : nodeSize left > getMinKeys)
    (hcur : WFNd (some sep) hi0 d cur) (hsz : nodeSize cur < getMinKeys) :
    ∃ l s n, borrowFromLeftPair left cur sep = (l, s, n) ∧
      WFN lo0 (some s) d l ∧ WFN (some s) hi0 d n ∧
      entries l ++ entries n = entries left ++ entries cur := by
  have hmk : getMinKeys = 2 := rfl
  match d, left, cur with
  | 0, .leaf es, .leaf fs =>
    obtain ⟨g1, g2, g3, g4⟩ := hleft
    obtain ⟨h1, h2, h3, h4⟩ := hcur
    rw [hmk] at hsz hrich
    have hlen1 : fs.length = 1 := by
      simp [nodeSize] at hsz
      omega
    have hlen3 : es.length = 3 := by
      simp [nodeSize] at hrich
      omega
    rcases fs with - | ⟨x, - | ⟨y, tl⟩⟩ <;> simp at hlen1
    rcases es with - | ⟨a, - | ⟨b, - | ⟨c, - | ⟨z, tl⟩⟩⟩⟩ <;> simp at hlen3
    obtain ⟨hab, hbc⟩ : a.1 < b.1 ∧ b.1 < c.1 := by
      simpa [entsSorted, List.chain'_cons] using g3
    obtain ⟨hx1, hx2⟩ := h4 x (by simp)
    obtain ⟨ha1, ha2⟩ := g4 a (by simp)
    obtain ⟨hb1, hb2⟩ := g4 b (by simp)
    obtain ⟨hc1, hc2⟩ := g4 c (by simp)
    refine ⟨.leaf [a, b], c.1, .leaf [c, x], rfl, ?_, ?_, rfl⟩
    · refine ⟨by simp, by simp, by simp [entsSorted, List.chain'_cons, hab], ?_⟩
      intro p hp
      rcases List.mem_cons.1 hp with hp1 | hp2
      · exact ⟨hp1 ▸ ha1, hp1 ▸ lt_trans hab hbc⟩
      · rcases List.mem_singleton.1 hp2 with hp3
        exact ⟨hp3 ▸ hb1, hp3 ▸ hbc⟩
    · refine ⟨by simp, by simp, ?_, ?_⟩
      · simp [entsSorted, List.chain'_cons]
        exact lt_of_lt_of_le hc2 hx1
      · intro p hp
        rcases List.mem_cons.1 hp with hp1 | hp2
        · refine ⟨hp1 ▸ le_refl c.1, ?_⟩
          subst hp1
          cases hi0 with
          | none => trivial
          | some b0 =>
            exact lt_of_lt_of_le hc2 (le_trans hx1 (le_of_lt hx2))
        · rcases List.mem_singleton.1 hp2 with hp3
          subst hp3
          exact ⟨le_of_lt (lt_of_lt_of_le hc2 hx1), hx2⟩
  | d0 + 1, .node df, .node ef =>
    obtain ⟨g1, g2, hdf⟩ := hleft
    obtain ⟨hkef, hef⟩ := hcur
    rw [hmk] at hsz hrich
    have hef1 : frameKeys ef ≤ 1 := by
      simp [nodeSize] at hsz
      omega
    have hdf3 : 3 ≤ frameKeys df := by
      simp [nodeSize] at hrich
      omega
    rcases df with dc0 | ⟨dc0, ds0, drest⟩
    · simp [frameKeys] at hdf3
    · obtain ⟨hdc0, hdrest⟩ := hdf
      obtain ⟨fn, s, c, heq, hkeys, hent, hwfn, hwc⟩ := frameUnsnoc_spec hdc0 hdrest
      refine ⟨.node fn, s, .node (.cons c sep ef), ?_, ⟨?_, ?_, hwfn⟩,
        ⟨?_, ?_, hwc, hef⟩, ?_⟩
      · show (match frameUnsnoc (Frame.cons dc0 ds0 drest) with
          | some (dfn, dk, dc) => (BNode.node dfn, dk, BNode.node (.cons dc sep ef))
          | none => (BNode.node (Frame.cons dc0 ds0 drest), sep, BNode.node ef)) = _
        rw [heq]
      · omega
      · omega
      · show 1 ≤ frameKeys ef + 1
        omega
      · show frameKeys ef + 1 ≤ 4
        omega
      · show frameEntries fn ++ (entries c ++ frameEntries ef) =
          frameEntries (Frame.cons dc0 ds0 drest) ++ frameEntries ef
        rw [hent, List.append_assoc]
  | 0, .leaf es, .node ef => exact absurd hcur (by simp [WFNd])
  | 0, .node df, .leaf fs => exact absurd hleft (by simp [WFN])
  | 0, .node df, .node ef => exact absurd hleft (by simp [WFN])
  | d0 + 1, .leaf es, .leaf fs => exact absurd hleft (by simp [WFN])
  | d0 + 1, .leaf es, .node ef => exact absurd hleft (by simp [WFN])
  | d0 + 1, .node df, .leaf fs => exact absurd hcur (by simp [WFNd])

theorem mergePair_left_wf {lo0 hi0 : Option Key} {d : Nat} {left cur : BNode} {sep : Key}
    (hleft : WFN lo0 (some sep) d left) (hsmall : ¬ nodeSize left > getMinKeys)
    (hcur : WFNd (some sep) hi0 d cur) (hsz : nodeSize cur < getMinKeys) :
    WFN lo0 hi0 d (mergePair left cur sep) ∧
      entries (mergePair left cur sep) = entries left ++ entries cur := by
  have hmk : getMinKeys = 2 := rfl
  match d, left, cur with
  | 0, .leaf es, .leaf fs =>
    obtain ⟨g1, g2, g3, g4⟩ := hleft
    obtain ⟨h1, h2, h3, h4⟩ := hcur
    rw [hmk] at hsz hsmall
    have hlen1 : fs.length = 1 := by
      simp [nodeSize] at hsz
      omega
    have hlen2 : es.length = 2 := by
      simp [nodeSize] at hsmall
      omega
    rcases fs with - | ⟨x, - | ⟨y, tl⟩⟩ <;> simp at hlen1
    rcases es with - | ⟨a, - | ⟨b, - | ⟨c, tl⟩⟩⟩ <;> simp at hlen2
    obtain hab : a.1 < b.1 := by
      simpa [entsSorted, List.chain'_cons] using g3
    obtain ⟨hx1, hx2⟩ := h4 x (by simp)
    obtain ⟨ha1, ha2⟩ := g4 a (by simp)
    obtain ⟨hb1, hb2⟩ := g4 b (by simp)
    refine ⟨⟨by simp, by simp, ?_, ?_⟩, rfl⟩
    · simp [entsSorted, List.chain'_cons, hab]
      exact lt_of_lt_of_le hb2 hx1
    · intro p hp
      rcases List.mem_cons.1 hp with hp1 | hp2
      · subst hp1
        refine ⟨ha1, ?_⟩
        cases hi0 with
        | none => trivial
        | some b0 => exact lt_of_lt_of_le (lt_trans hab hb2) (le_trans hx1 (le_of_lt hx2))
      rcases List.mem_cons.1 hp2 with hp3 | hp4
      · subst hp3
        refine ⟨hb1, ?_⟩
        cases hi0 with
        | none => trivial
        | some b0 => exact lt_of_lt_of_le hb2 (le_trans hx1 (le_of_lt hx2))
      · rcases List.mem_singleton.1 hp4 with hp5
        subst hp5
        refine ⟨?_, hx2⟩
        cases lo0 with
        | none => trivial
        | some l0 => exact le_trans ha1 (le_of_lt (lt_of_lt_of_le (lt_trans hab hb2) hx1))
  | d0 + 1, .node df, .node ef =>
    obtain ⟨g1, g2, hdf⟩ := hleft
    obtain ⟨hkef, hef⟩ := hcur
    rw [hmk] at hsz hsmall
    have hef1 : frameKeys ef ≤ 1 := by
      simp [nodeSize] at hsz
      omega
    have hdf2 : frameKeys df ≤ 2 := by
      simp [nodeSize] at hsmall
      omega
    obtain ⟨w1, w2, w3⟩ := frameAppend_spec hdf hef
    exact ⟨⟨by omega, by omega, w1⟩, w3⟩
  | 0, .leaf es, .node ef => exact absurd hcur (by simp [WFNd])
  | 0, .node df, .leaf fs => exact absurd hleft (by simp [WFN])
  | 0, .node df, .node ef => exact absurd hleft (by simp [WFN])
  | d0 + 1, .leaf es, .leaf fs => exact absurd hleft (by simp [WFN])
  | d0 + 1, .leaf es, .node ef => exact absurd hleft (by simp [WFN])
  | d0 + 1, .node df, .leaf fs => exact absurd hcur (by simp [WFNd])

theorem mergePair_right_wf {lo0 hi0 : Option Key} {d : Nat} {cur right : BNode} {sep : Key}
    (hcur : WFNd lo0 (some sep) d cur) (hsz : nodeSize cur < getMinKeys)
    (hright : WFN (some sep) hi0 d right) (hsmall : ¬ nodeSize right > getMinKeys) :
    WFN lo0 hi0 d (mergePair cur right sep) ∧
      entries (mergePair cur right sep) = entries cur ++ entries right := by
  have hmk : getMinKeys = 2 := rfl
  match d, cur, right with
  | 0, .leaf es, .leaf fs =>
    obtain ⟨h1, h2, h3, h4⟩ := hcur
    obtain ⟨g1, g2, g3, g4⟩ := hright
    rw [hmk] at hsz hsmall
    have hlen1 : es.length = 1 := by
      simp [nodeSize] at hsz
      omega
    have hlen2 : fs.length = 2 := by
      simp [nodeSize] at hsmall
      omega
    rcases es with - | ⟨x, - | ⟨y, tl⟩⟩ <;> simp at hlen1
    rcases fs with - | ⟨a, - | ⟨b, - | ⟨c, tl⟩⟩⟩ <;> simp at hlen2
    obtain hab : a.1 < b.1 := by
      simpa [entsSorted, List.chain'_cons] using g3
    obtain ⟨hx1, hx2⟩ := h4 x (by simp)
    obtain ⟨ha1, ha2⟩ := g4 a (by simp)
    obtain ⟨hb1, hb2⟩ := g4 b (by simp)
    refine ⟨⟨by simp, by simp, ?_, ?_⟩, rfl⟩
    · simp [entsSorted, List.chain'_cons, hab]
      exact lt_of_lt_of_le hx2 ha1
    · intro p hp
      rcases List.mem_cons.1 hp with hp1 | hp2
      · subst hp1
        refine ⟨hx1, ?_⟩
        cases hi0 with
        | none => trivial
        | some b0 => exact lt_trans (lt_of_lt_of_le hx2 ha1) ha2
      rcases List.mem_cons.1 hp2 with hp3 | hp4
      · subst hp3
        refine ⟨?_, ha2⟩
        cases lo0 with
        | none => trivial
        | some l0 => exact le_trans hx1 (le_trans (le_of_lt hx2) ha1)
      · rcases List.mem_singleton.1 hp4 with hp5
        subst hp5
        refine ⟨?_, hb2⟩
        cases lo0 with
        | none => trivial
        | some l0 =>
          exact le_trans hx1 (le_trans (le_of_lt hx2) (le_trans ha1 (le_of_lt hab)))
  | d0 + 1, .node df, .node ef =>
    obtain ⟨hkdf, hdf⟩ := hcur
    obtain ⟨g1, g2, hef⟩ := hright
    rw [hmk] at hsz hsmall
    have hdf1 : frameKeys df ≤ 1 := by
      simp [nodeSize] at hsz
      omega
    have hef2 : frameKeys ef ≤ 2 := by
      simp [nodeSize] at hsmall
      omega
    obtain ⟨w1, w2, w3⟩ := frameAppend_spec hdf hef
    exact ⟨⟨by omega, by omega, w1⟩, w3⟩
  | 0, .leaf es, .node ef => exact absurd hright (by simp [WFN])
  | 0, .node df, .leaf fs => exact absurd hcur (by simp [WFNd])
  | 0, .node df, .node ef => exact absurd hcur (by simp [WFNd])
  | d0 + 1, .leaf es, .leaf fs => exact absurd hcur (by simp [WFNd])
  | d0 + 1, .leaf es, .node ef => exact absurd hcur (by simp [WFNd])
  | d0 + 1, .node df, .leaf fs => exact absurd hright (by simp [WFN])

theorem fixFirst_wf {lo hi : Option Key} {d : Nat} {c0 : BNode} {s1 : Key} {rest : Frame}
    (hc0 : WFNd lo (some s1) d c0) (hsz : nodeSize c0 < getMinKeys)
    (hrest : WFF (some s1) hi d rest) :
    WFF lo hi d (fixFirst c0 s1 rest).1 ∧
      frameEntries (fixFirst c0 s1 rest).1 = entries c0 ++ frameEntries rest ∧
      frameKeys (fixFirst c0 s1 rest).1 + (if (fixFirst c0 s1 rest).2 then 1 else 0) =
        frameKeys rest + 1 := by
  match rest with
  | .last c1 =>
    by_cases hrich : nodeSize c1 > getMinKeys
    · obtain ⟨n, s, r, heq, hwn, hwr, hent⟩ := borrowFromRightPair_wf hc0 hsz hrest hrich
      have hfix : fixFirst c0 s1 (.last c1) = (.cons n s (.last r), false) := by
        simp [fixFirst, frameHead, hrich, heq, frameSetHead]
      rw [hfix]
      refine ⟨⟨hwn, hwr⟩, ?_, by simp [frameKeys]⟩
      show entries n ++ entries r = entries c0 ++ entries c1
      exact hent
    · obtain ⟨hwm, hent⟩ := mergePair_right_wf hc0 hsz hrest hrich
      have hfix : fixFirst c0 s1 (.last c1) = (.last (mergePair c0 c1 s1), true) := by
        simp [fixFirst, frameHead, hrich]
      rw [hfix]
      refine ⟨hwm, ?_, by simp [frameKeys]⟩
      show entries (mergePair c0 c1 s1) = entries c0 ++ entries c1
      exact hent
  | .cons c1 s2 rest2 =>
    obtain ⟨hc1, hrest2⟩ := hrest
    by_cases hrich : nodeSize c1 > getMinKeys
    · obtain ⟨n, s, r, heq, hwn, hwr, hent⟩ := borrowFromRightPair_wf hc0 hsz hc1 hrich
      have hfix : fixFirst c0 s1 (.cons c1 s2 rest2) = (.cons n s (.cons r s2 rest2), false) := by
        simp [fixFirst, frameHead, hrich, heq, frameSetHead]
      rw [hfix]
      refine ⟨⟨hwn, hwr, hrest2⟩, ?_, by simp [frameKeys]⟩
      show entries n ++ (entries r ++ frameEntries rest2) =
        entries c0 ++ (entries c1 ++ frameEntries rest2)
      rw [← List.append_assoc, ← List.append_assoc, hent]
    · obtain ⟨hwm, hent⟩ := mergePair_right_wf hc0 hsz hc1 hrich
      have hfix : fixFirst c0 s1 (.cons c1 s2 rest2) =
          (.cons (mergePair c0 c1 s1) s2 rest2, true) := by
        simp [fixFirst, frameHead, hrich]
      rw [hfix]
      refine ⟨⟨hwm, hrest2⟩, ?_, by simp [frameKeys]⟩
      show entries (mergePair c0 c1 s1) ++ frameEntries rest2 =
        entries c0 ++ (entries c1 ++ frameEntries rest2)
      rw [hent, List.append_assoc]

theorem fixWithLeft_last {lo hi : Option Key} {d : Nat} {left : BNode} {sep : Key} {cur : BNode}
    (hleft : WFN lo (some sep) d left)
    (hcur : WFNd (some sep) hi d cur) (hsz : nodeSize cur < getMinKeys) :
    WFF lo hi d (fixWithLeft left sep (.last cur)).1 ∧
      frameEntries (fixWithLeft left sep (.last cur)).1 = entries left ++ entries cur ∧
      frameKeys (fixWithLeft left sep (.last cur)).1 +
        (if (fixWithLeft left sep (.last cur)).2 then 1 else 0) = 1 := by
  by_cases hrich : nodeSize left > getMinKeys
  · obtain ⟨l, s, n, heq, hwl, hwn, hent⟩ := borrowFromLeftPair_wf hleft hrich hcur hsz
    have hfix : fixWithLeft left sep (.last cur) = (.cons l s (.last n), false) := by
      simp [fixWithLeft, hrich, heq]
    rw [hfix]
    refine ⟨⟨hwl, hwn⟩, ?_, by simp [frameKeys]⟩
    show entries l ++ entries n = entries left ++ entries cur
    exact hent
  · obtain ⟨hwm, hent⟩ := mergePair_left_wf hleft hrich hcur hsz
    have hfix : fixWithLeft left sep (.last cur) = (.last (mergePair left cur sep), true) := by
      simp [fixWithLeft, hrich]
    rw [hfix]
    refine ⟨hwm, ?_, by simp [frameKeys]⟩
    show entries (mergePair left cur sep) = entries left ++ entries cur
    exact hent

theorem fixWithLeft_cons {lo hi : Option Key} {d : Nat} {left : BNode} {sep : Key}
    {cur : BNode} {s2 : Key} {rest2 : Frame}
    (hleft : WFN lo (some sep) d left)
    (hcur : WFNd (some sep) (some s2) d cur) (hsz : nodeSize cur < getMinKeys)
    (hrest2 : WFF (some s2) hi d rest2) :
    WFF lo hi d (fixWithLeft left sep (.cons cur s2 rest2)).1 ∧
      frameEntries (fixWithLeft left sep (.cons cur s2 rest2)).1 =
        entries left ++ (entries cur ++ frameEntries rest2) ∧
      frameKeys (fixWithLeft left sep (.cons cur s2 rest2)).1 +
        (if (fixWithLeft left sep (.cons cur s2 rest2)).2 then 1 else 0) =
        frameKeys rest2 + 2 := by
  match rest2 with
  | .last c1 =>
    by_cases hrich : nodeSize c1 > getMinKeys
    · obtain ⟨n, s2n, r, heq, hwn, hwr, hent⟩ := borrowFromRightPair_wf hcur hsz hrest2 hrich
      have hfix : fixWithLeft left sep (.cons cur s2 (.last c1)) =
          (.cons left sep (.cons n s2n (.last r)), false) := by
        simp [fixWithLeft, frameHead, hrich, heq, frameSetHead]
      rw [hfix]
      refine ⟨⟨hleft, hwn, hwr⟩, ?_, by simp [frameKeys]⟩
      show entries left ++ (entries n ++ entries r) = entries left ++ (entries cur ++ entries c1)
      rw [hent]
    · by_cases hlrich : nodeSize left > getMinKeys
      · obtain ⟨l, sn, n, heq, hwl, hwn, hent⟩ := borrowFromLeftPair_wf hleft hlrich hcur hsz
        have hfix : fixWithLeft left sep (.cons cur s2 (.last c1)) =
            (.cons l sn (.cons n s2 (.last c1)), false) := by
          simp [fixWithLeft, frameHead, hrich, hlrich, heq]
        rw [hfix]
        refine ⟨⟨hwl, hwn, hrest2⟩, ?_, by simp [frameKeys]⟩
        show entries l ++ (entries n ++ entries c1) =
          entries left ++ (entries cur ++ entries c1)
        rw [← List.append_assoc, ← List.append_assoc, hent]
      · obtain ⟨hwm, hent⟩ := mergePair_left_wf hleft hlrich hcur hsz
        have hfix : fixWithLeft left sep (.cons cur s2 (.last c1)) =
            (.cons (mergePair left cur sep) s2 (.last c1), true) := by
          simp [fixWithLeft, frameHead, hrich, hlrich]
        rw [hfix]
        refine ⟨⟨hwm, hrest2⟩, ?_, by simp [frameKeys]⟩
        show entries (mergePair left cur sep) ++ entries c1 =
          entries left ++ (entries cur ++ entries c1)
        rw [hent, List.append_assoc]
  | .cons c1 s3 rest3 =>
    obtain ⟨hc1, hrest3⟩ := hrest2
    by_cases hrich : nodeSize c1 > getMinKeys
    · obtain ⟨n, s2n, r, heq, hwn, hwr, hent⟩ := borrowFromRightPair_wf hcur hsz hc1 hrich
      have hfix : fixWithLeft left sep (.cons cur s2 (.cons c1 s3 rest3)) =
          (.cons left sep (.cons n s2n (.cons r s3 rest3)), false) := by
        simp [fixWithLeft, frameHead, hrich, heq, frameSetHead]
      rw [hfix]
      refine ⟨⟨hleft, hwn, hwr, hrest3⟩, ?_, by simp [frameKeys]⟩
      show entries left ++ (entries n ++ (entries r ++ frameEntries rest3)) =
        entries left ++ (entries cur ++ (entries c1 ++ frameEntries rest3))
      rw [← List.append_assoc (entries n) (entries r) (frameEntries rest3), hent,
        List.append_assoc]
    · by_cases hlrich : nodeSize left > getMinKeys
      · obtain ⟨l, sn, n, heq, hwl, hwn, hent⟩ := borrowFromLeftPair_wf hleft hlrich hcur hsz
        have hfix : fixWithLeft left sep (.cons cur s2 (.cons c1 s3 rest3)) =
            (.cons l sn (.cons n s2 (.cons c1 s3 rest3)), false) := by
          simp [fixWithLeft, frameHead, hrich, hlrich, heq]
        rw [hfix]
        refine ⟨⟨hwl, hwn, hc1, hrest3⟩, ?_, by simp [frameKeys]⟩
        show entries l ++ (entries n ++ (entries c1 ++ frameEntries rest3)) =
          entries left ++ (entries cur ++ (entries c1 ++ frameEntries rest3))
        rw [← List.append_assoc (entries l) (entries n) _, hent, List.append_assoc]
      · obtain ⟨hwm, hent⟩ := mergePair_left_wf hleft hlrich hcur hsz
        have hfix : fixWithLeft left sep (.cons cur s2 (.cons c1 s3 rest3)) =
            (.cons (mergePair left cur sep) s2 (.cons c1 s3 rest3), true) := by
          simp [fixWithLeft, frameHead, hrich, hlrich]
        rw [hfix]
        refine ⟨⟨hwm, hc1, hrest3⟩, ?_, by simp [frameKeys]⟩
        show entries (mergePair left cur sep) ++ (entries c1 ++ frameEntries rest3) =
          entries left ++ (entries cur ++ (entries c1 ++ frameEntries rest3))
        rw [hent, List.append_assoc]

mutual

theorem delRec_wf {lo hi : Option Key} {d : Nat} {t : BNode} {k : Key}
    (h : WFN lo hi d t) :
    entries (delRec k t).1 = refErase k (entries t) ∧
    WFNd lo hi d (delRec k t).1 ∧
    nodeSize (delRec k t).1 ≤ nodeSize t ∧
    nodeSize t ≤ nodeSize (delRec k t).1 + 1 ∧
    ((delRec k t).2 = false → nodeSize (delRec k t).1 = nodeSize t) ∧
    (¬((delRec k t).2 = true ∧ nodeSize (delRec k t).1 < getMinKeys) →
      WFN lo hi d (delRec k t).1) := by
  match d, t with
  | 0, .leaf es =>
    obtain ⟨h1, h2, h3, h4⟩ := h
    have hD : delRec k (.leaf es) = (.leaf (leafErase k es), true) := rfl
    rw [hD]
    dsimp only
    rw [leafErase_eq_refErase]
    have hle := refErase_length_le k es
    have hge := refErase_length_ge k es
    refine ⟨rfl, ⟨by omega, by omega, refErase_sorted h3, refErase_bounded h4⟩,
      ?_, ?_, ?_, ?_⟩
    · exact hle
    · exact hge
    · intro hf
      exact absurd hf (by simp)
    · intro hn
      have h5 : ¬(nodeSize (BNode.leaf (refErase k es)) < getMinKeys) :=
        fun hlt => hn ⟨rfl, hlt⟩
      have h6 : getMinKeys ≤ (refErase k es).length := not_lt.1 h5
      have hmk : getMinKeys = 2 := rfl
      rw [hmk] at h6
      exact ⟨h6, by omega, refErase_sorted h3, refErase_bounded h4⟩
  | d + 1, .node f =>
    obtain ⟨hk1, hk2, hf⟩ := h
    obtain ⟨hE, hW, hK⟩ := @delFrame_wf lo hi d f k hf hk1
    rcases hDF : delFrame k f with ⟨fn, mg⟩
    rw [hDF] at hE hW hK
    dsimp only at hE hW hK
    have hD : delRec k (.node f) = (.node fn, mg) := by
      simp [delRec, hDF]
    rw [hD]
    dsimp only
    have hKn : frameKeys fn + (if mg then 1 else 0) = frameKeys f := hK
    refine ⟨hE, ⟨?_, hW⟩, ?_, ?_, ?_, ?_⟩
    · split at hKn <;> omega
    · show frameKeys fn ≤ frameKeys f
      split at hKn <;> omega
    · show frameKeys f ≤ frameKeys fn + 1
      split at hKn <;> omega
    · intro hmg
      show frameKeys fn = frameKeys f
      rw [hmg] at hKn
      simpa using hKn
    · intro hn
      refine ⟨?_, ?_, hW⟩
      · cases hmg : mg with
        | false =>
          rw [hmg] at hKn
          simp at hKn
          omega
        | true =>
          have h5 : ¬(nodeSize (BNode.node fn) < getMinKeys) :=
            fun hlt => hn ⟨hmg, hlt⟩
          have h6 : getMinKeys ≤ frameKeys fn := not_lt.1 h5
          have hmk : getMinKeys = 2 := rfl
          omega
      · split at hKn <;> omega
termination_by structural t

theorem delFrame_wf {lo hi : Option Key} {d : Nat} {f : Frame} {k : Key}
    (h : WFF lo hi d f) (h1 : 1 ≤ frameKeys f) :
    frameEntries (delFrame k f).1 = refErase k (frameEntries f) ∧
    WFF lo hi d (delFrame k f).1 ∧
    frameKeys (delFrame k f).1 + (if (delFrame k f).2 then 1 else 0) = frameKeys f := by
  match f with
  | .last c => simp [frameKeys] at h1
  | .cons c0 s1 rest =>
    obtain ⟨hc0, hrest⟩ := h
    by_cases hklt : k < s1
    · obtain ⟨hE, hDd, hS1, hS2, hF, hW⟩ := @delRec_wf lo (some s1) d c0 k hc0
      rcases hD : delRec k c0 with ⟨c0n, sh⟩
      rw [hD] at hE hDd hS1 hS2 hF hW
      dsimp only at hE hDd hS1 hS2 hF hW
      have habs : ∀ p ∈ frameEntries rest, (p : Key × Val).1 ≠ k :=
        fun p hp => ne_of_gt (lt_of_lt_of_le hklt ((wff_sorted hrest).2 p hp).1)
      have hEapp : refErase k (entries c0 ++ frameEntries rest) =
          refErase k (entries c0) ++ frameEntries rest := refErase_append_right habs
      have hDFeq : delFrame k (.cons c0 s1 rest) =
          (if sh = true ∧ nodeSize c0n < getMinKeys then fixFirst c0n s1 rest
            else (.cons c0n s1 rest, false)) := by
        simp [delFrame, hklt, hD]
      by_cases hfix : sh = true ∧ nodeSize c0n < getMinKeys
      · rw [if_pos hfix] at hDFeq
        obtain ⟨w1, w2, w3⟩ := fixFirst_wf hDd hfix.2 hrest
        rw [hDFeq]
        refine ⟨?_, w1, ?_⟩
        · show frameEntries (fixFirst c0n s1 rest).1 =
            refErase k (entries c0 ++ frameEntries rest)
          rw [hEapp, w2, hE]
        · show frameKeys (fixFirst c0n s1 rest).1 + _ = frameKeys rest + 1
          exact w3
      · rw [if_neg hfix] at hDFeq
        rw [hDFeq]
        refine ⟨?_, ⟨hW hfix, hrest⟩, ?_⟩
        · show entries c0n ++ frameEntries rest = refErase k (entries c0 ++ frameEntries rest)
          rw [hEapp, hE]
        · show frameKeys rest + 1 + (if false then 1 else 0) = frameKeys rest + 1
          simp
    · have hDFeq : delFrame k (.cons c0 s1 rest) = delGo c0 s1 rest k := by
        simp [delFrame, hklt]
      obtain ⟨g1, g2, g3⟩ := @delGo_wf lo hi d c0 s1 rest k hc0 hrest (not_lt.1 hklt)
      rw [hDFeq]
      exact ⟨g1, g2, g3⟩
termination_by structural f

theorem delGo_wf {lo hi : Option Key} {d : Nat} {left : BNode} {sep : Key} {g : Frame}
    {k : Key} (hleft : WFN lo (some sep) d left) (hg : WFF (some sep) hi d g)
    (hsep : sep ≤ k) :
    frameEntries (delGo left sep g k).1 = refErase k (entries left ++ frameEntries g) ∧
    WFF lo hi d (delGo left sep g k).1 ∧
    frameKeys (delGo left sep g k).1 + (if (delGo left sep g k).2 then 1 else 0) =
      frameKeys g + 1 := by
  have habsL : ∀ p ∈ entries left, (p : Key × Val).1 ≠ k :=
    fun p hp => ne_of_lt (lt_of_lt_of_le ((wfn_sorted hleft).2 p hp).2 hsep)
  match g with
  | .last cur =>
    obtain ⟨hE, hDd, hS1, hS2, hF, hW⟩ := @delRec_wf (some sep) hi d cur k hg
    rcases hD : delRec k cur with ⟨curn, sh⟩
    rw [hD] at hE hDd hS1 hS2 hF hW
    dsimp only at hE hDd hS1 hS2 hF hW
    have hgeq : delGo left sep (.last cur) k =
        (if sh = true ∧ nodeSize curn < getMinKeys then fixWithLeft left sep (.last curn)
          else (.cons left sep (.last curn), false)) := by
      simp [delGo, hD]
    by_cases hfix : sh = true ∧ nodeSize curn < getMinKeys
    · rw [if_pos hfix] at hgeq
      obtain ⟨w1, w2, w3⟩ := fixWithLeft_last hleft hDd hfix.2
      rw [hgeq]
      refine ⟨?_, w1, ?_⟩
      · show frameEntries (fixWithLeft left sep (.last curn)).1 =
          refErase k (entries left ++ entries cur)
        rw [refErase_append_left habsL, w2, hE]
      · show frameKeys (fixWithLeft left sep (.last curn)).1 + _ = 0 + 1
        rw [w3]
    · rw [if_neg hfix] at hgeq
      rw [hgeq]
      refine ⟨?_, ⟨hleft, hW hfix⟩, ?_⟩
      · show entries left ++ entries curn = refErase k (entries left ++ entries cur)
        rw [refErase_append_left habsL, hE]
      · show 0 + 1 + (if false then 1 else 0) = 0 + 1
        simp
  | .cons cur s2 rest2 =>
    obtain ⟨hcur, hrest2⟩ := hg
    by_cases hk2 : k < s2
    · obtain ⟨hE, hDd, hS1, hS2, hF, hW⟩ := @delRec_wf (some sep) (some s2) d cur k hcur
      rcases hD : delRec k cur with ⟨curn, sh⟩
      rw [hD] at hE hDd hS1 hS2 hF hW
      dsimp only at hE hDd hS1 hS2 hF hW
      have habsR : ∀ p ∈ frameEntries rest2, (p : Key × Val).1 ≠ k :=
        fun p hp => ne_of_gt (lt_of_lt_of_le hk2 ((wff_sorted hrest2).2 p hp).1)
      have hgeq : delGo left sep (.cons cur s2 rest2) k =
          (if sh = true ∧ nodeSize curn < getMinKeys
            then fixWithLeft left sep (.cons curn s2 rest2)
            else (.cons left sep (.cons curn s2 rest2), false)) := by
        simp [delGo, hk2, hD]
      by_cases hfix : sh = true ∧ nodeSize curn < getMinKeys
      · rw [if_pos hfix] at hgeq
        obtain ⟨w1, w2, w3⟩ := fixWithLeft_cons hleft hDd hfix.2 hrest2
        rw [hgeq]
        refine ⟨?_, w1, ?_⟩
        · show frameEntries (fixWithLeft left sep (.cons curn s2 rest2)).1 =
            refErase k (entries left ++ (entries cur ++ frameEntries rest2))
          rw [refErase_append_left habsL, refErase_append_right habsR, w2, hE]
        · show frameKeys (fixWithLeft left sep (.cons curn s2 rest2)).1 + _ =
            frameKeys rest2 + 1 + 1
          rw [w3]
      · rw [if_neg hfix] at hgeq
        rw [hgeq]
        refine ⟨?_, ⟨hleft, hW hfix, hrest2⟩, ?_⟩
        · show entries left ++ (entries curn ++ frameEntries rest2) =
            refErase k (entries left ++ (entries cur ++ frameEntries rest2))
          rw [refErase_append_left habsL, refErase_append_right habsR, hE]
        · show frameKeys rest2 + 1 + 1 + (if false then 1 else 0) = frameKeys rest2 + 1 + 1
          simp
    · obtain ⟨g1, g2, g3⟩ := @delGo_wf (some sep) hi d cur s2 rest2 k hcur hrest2 (not_lt.1 hk2)
      rcases hDG : delGo cur s2 rest2 k with ⟨gn, mg⟩
      rw [hDG] at g1 g2 g3
      dsimp only at g1 g2 g3
      have hgeq : delGo left sep (.cons cur s2 rest2) k = (.cons left sep gn, mg) := by
        simp [delGo, hk2, hDG]
      rw [hgeq]
      refine ⟨?_, ⟨hleft, g2⟩, ?_⟩
      · show entries left ++ frameEntries gn =
          refErase k (entries left ++ (entries cur ++ frameEntries rest2))
        rw [refErase_append_left habsL, g1]
      · show frameKeys gn + 1 + (if mg = true then 1 else 0) = frameKeys rest2 + 1 + 1
        cases mg with
        | false =>
          simp at g3 ⊢
          omega
        | true =>
          simp at g3 ⊢
          omega
termination_by structural g

end

/-- `remove`'s tree effect at the root: `none` exactly on an absent key,
otherwise erase-with-rebalance and root collapse, preserving well-formedness
and removing exactly the key's entry. -/
theorem treeRemove_root {t : BNode} {k : Key} (h : WFRoot t) :
    (treeRemove t k = none ∧ refLookup k (entries t) = none) ∨
    (∃ t2, treeRemove t k = some t2 ∧ WFRoot t2 ∧
      entries t2 = refErase k (entries t) ∧ refLookup k (entries t) ≠ none) := by
  have hget := treeGet_root h k
  cases hlk : refLookup k (entries t) with
  | none =>
    refine Or.inl ⟨?_, rfl⟩
    rw [treeRemove, hget, hlk]
  | some v0 =>
    rw [hlk] at hget
    have hrem : treeRemove t k =
        (let t1 := (delRec k t).1
          if isEmptyLeafRoot t1 then some t1 else some (collapseRoot t1)) := by
      rw [treeRemove, hget]
    cases t with
    | leaf es =>
      obtain ⟨h2, h3, h4⟩ := h
      have hD : delRec k (.leaf es) = (.leaf (leafErase k es), true) := rfl
      rw [hD] at hrem
      dsimp only at hrem
      rw [leafErase_eq_refErase] at hrem
      have hwf2 : WFRoot (.leaf (refErase k es)) :=
        ⟨le_trans (refErase_length_le k es) h2, refErase_sorted h3, refErase_bounded h4⟩
      by_cases hemp : isEmptyLeafRoot (.leaf (refErase k es)) = true
      · rw [if_pos hemp] at hrem
        refine Or.inr ⟨.leaf (refErase k es), hrem, hwf2, ?_, by simp⟩
        show refErase k es = refErase k (entries (BNode.leaf es))
        rfl
      · rw [if_neg hemp] at hrem
        have hcol : collapseRoot (.leaf (refErase k es)) = .leaf (refErase k es) := by
          cases hre : refErase k es <;> rfl
        rw [hcol] at hrem
        refine Or.inr ⟨.leaf (refErase k es), hrem, hwf2, ?_, by simp⟩
        show refErase k es = refErase k (entries (BNode.leaf es))
        rfl
    | node f =>
      obtain ⟨d, hk1, hk2, hf⟩ := h
      have hwfn : WFN none none (d + 1) (.node f) := ⟨hk1, hk2, hf⟩
      obtain ⟨hE, hDd, -, -, -, -⟩ := @delRec_wf none none (d + 1) (.node f) k hwfn
      rcases hD : delRec k (.node f) with ⟨t1, sh⟩
      rw [hD] at hE hDd
      try dsimp only at hE hDd
      rw [hD] at hrem
      try dsimp only at hrem
      cases t1 with
      | leaf es1 => exact absurd hDd (by simp [WFNd])
      | node fn =>
        obtain ⟨hk4, hwff⟩ := hDd
        have hemp : isEmptyLeafRoot (.node fn) = false := rfl
        simp only [hemp, Bool.false_eq_true, if_false] at hrem
        cases fn with
        | last c =>
          have hcol : collapseRoot (.node (.last c)) = c := rfl
          rw [hcol] at hrem
          refine Or.inr ⟨c, hrem, ?_, ?_, by simp⟩
          · exact WFN.toWFRoot hwff
          · show entries c = refErase k (entries (BNode.node f))
            exact hE
        | cons c s rest =>
          have hcol : collapseRoot (.node (.cons c s rest)) = .node (.cons c s rest) := rfl
          rw [hcol] at hrem
          refine Or.inr ⟨.node (.cons c s rest), hrem,
            ⟨d, by simp [frameKeys], hk4, hwff⟩, ?_, by simp⟩
          show frameEntries (Frame.cons c s rest) = refErase k (entries (BNode.node f))
          exact hE

/-! ### WAL replay of writer-encoded records -/

theorem readBytes_append {n : Nat} {a : List Nat} (b : List Nat) (h : a.length = n) :
    readBytes n (a ++ b) = .ok (a, b) := by
  rw [readBytes_ok_iff]
  subst h
  refine ⟨by simp, ?_, ?_⟩
  · rw [List.take_left]
  · rw [List.drop_left]

theorem readNext_encode (r : WalRecord) (rest : List Nat) (hr : WellFormedRecord r) :
    readNext (encodeRecord r ++ rest) = .ok (r, rest) := by
  obtain ⟨ht1, ht4, hkl, hvl⟩ := hr
  have hassoc : encodeRecord r ++ rest =
      [r.type] ++ (le32 r.key.length ++ (r.key ++ (le32 r.value.length ++
        (r.value ++ (le32 (compute_crc32 (recordBody r)) ++ rest))))) := by
    rw [encodeRecord_assoc]
    simp [List.append_assoc]
  rw [hassoc]
  unfold readNext
  rw [readBytes_append _ (by simp)]
  dsimp only
  simp only [List.headD_cons]
  rw [if_neg (by omega)]
  rw [readBytes_append _ (by simp [le32])]
  dsimp only
  rw [readLe32_le32 (by have h9 : r.key.length ≤ 128 := hkl; omega)]
  rw [if_neg (by omega)]
  rw [readBytes_append _ rfl]
  dsimp only
  rw [readBytes_append _ (by simp [le32])]
  dsimp only
  rw [readLe32_le32 (by have h9 : r.value.length ≤ 1024 := hvl; omega)]
  rw [if_neg (by omega)]
  rw [readBytes_append _ rfl]
  dsimp only
  rw [readBytes_append _ (by simp [le32])]
  dsimp only
  rw [readLe32_le32 (crc_lt32 _)]
  rw [if_neg (by simp [recordBody])]

theorem replayWal_eof {t : BNode} {s : List Nat} (h : readNext s = .error .eofClean) :
    replayWal t s = (.Ok, t) := by
  unfold replayWal
  split
  · rfl
  · rename_i heq
    rw [h] at heq
    cases heq
  · rename_i heq
    rw [h] at heq
    cases heq

theorem replayWal_step {t : BNode} {s : List Nat} {r : WalRecord} {rest : List Nat}
    (h : readNext s = .ok (r, rest)) :
    replayWal t s = replayWal (applyRecord t r) rest := by
  conv_lhs => unfold replayWal
  split
  · rename_i heq
    rw [h] at heq
    cases heq
  · rename_i heq
    rw [h] at heq
    cases heq
  · rename_i r2 rest2 heq
    rw [h] at heq
    cases heq
    rfl

theorem replayWal_encoded (R : List WalRecord) (t : BNode)
    (hR : ∀ r ∈ R, WellFormedRecord r) :
    replayWal t (R.flatMap encodeRecord) = (.Ok, replayRecords t R) := by
  induction R generalizing t with
  | nil => exact replayWal_eof rfl
  | cons r R ih =>
    rw [List.flatMap_cons, replayWal_step (readNext_encode r _ (hR r (by simp)))]
    exact ih (applyRecord t r) fun x hx => hR x (by simp [hx])

/-! ### Loading a snapshot rebuilds the same mapping -/

theorem refInsert_at_end {k : Key} {v : Val} {es : List (Key × Val)}
    (h : ∀ q ∈ es, (q : Key × Val).1 < k) :
    refInsert k v es = es ++ [(k, v)] := by
  have h2 := @refInsert_append_right k v es [] h
  simpa using h2

theorem loadL_go {L : List (Key × Val)} {acc : BNode}
    (hacc : WFRoot acc)
    (hgt : ∀ q ∈ entries acc, ∀ p ∈ L, (q : Key × Val).1 < (p : Key × Val).1)
    (hLs : entsSorted L) :
    WFRoot (L.foldl (fun a p => treePut a p.1 p.2) acc) ∧
      entries (L.foldl (fun a p => treePut a p.1 p.2) acc) = entries acc ++ L := by
  induction L generalizing acc with
  | nil => simpa using hacc
  | cons p L ih =>
    obtain ⟨hw, he⟩ := @treePut_root acc p.1 p.2 hacc
    have hstep : entries (treePut acc p.1 p.2) = entries acc ++ [p] := by
      rw [he, refInsert_at_end fun q hq => hgt q hq p (by simp)]
    have hgt2 : ∀ q ∈ entries (treePut acc p.1 p.2), ∀ p2 ∈ L,
        (q : Key × Val).1 < (p2 : Key × Val).1 := by
      intro q hq p2 hp2
      rw [hstep] at hq
      rcases List.mem_append.1 hq with hq1 | hq2
      · exact hgt q hq1 p2 (by simp [hp2])
      · rcases List.mem_singleton.1 hq2 with hq3
        rw [hq3]
        exact entsSorted_head_lt hLs p2 hp2
    obtain ⟨hw2, he2⟩ := ih hw hgt2 (List.chain'_cons'.1 hLs).2
    refine ⟨hw2, ?_⟩
    show entries (List.foldl (fun a p => treePut a p.1 p.2) (treePut acc p.1 p.2) L) =
      entries acc ++ p :: L
    rw [he2, hstep]
    simp

theorem loadL_spec {L : List (Key × Val)} (hLs : entsSorted L) :
    WFRoot (loadL L) ∧ entries (loadL L) = L := by
  have h0 : WFRoot (.leaf ([] : List (Key × Val))) := by
    refine ⟨by simp, by simp [entsSorted], ?_⟩
    intro p hp
    simp at hp
  obtain ⟨h1, h2⟩ := @loadL_go L (.leaf []) h0 (by intro q hq; simp [entries] at hq) hLs
  exact ⟨h1, by simpa using h2⟩

/-! ### The recovery invariant carried across engine runs -/

def SnapWalInv (snap : Option (List Nat)) (wal : List Nat) (tree : BNode) : Prop :=
  ∃ L R,
    (match snap with
      | none => L = []
      | some bytes => bytes = serializeSnapshot L) ∧
    entsSorted L ∧ entsSmall L ∧ L.length < 2 ^ 32 ∧
    wal = R.flatMap encodeRecord ∧
    (∀ r ∈ R, WellFormedRecord r) ∧
    WFRoot (replayRecords (loadL L) R) ∧
    entries (replayRecords (loadL L) R) = entries tree

def C1Inv (e : Engine) : Prop :=
  e.hasWal = true ∧ WFRoot e.tree ∧ entsSmall (entries e.tree) ∧
    (entries e.tree).length ≤ e.opCount ∧ SnapWalInv e.snap e.wal e.tree

theorem WFRoot.entsSorted' {t : BNode} (h : WFRoot t) : entsSorted (entries t) := by
  cases t with
  | leaf es => exact h.2.1
  | node f =>
    obtain ⟨d, -, -, h3⟩ := h
    exact (wff_sorted h3).1

theorem bumpCounter_hasWal (e : Engine) : (bumpCounter e).hasWal = e.hasWal := by
  simp only [bumpCounter, createCheckpoint]
  split
  · split <;> rfl
  · rfl

theorem snapWalInv_append {snap : Option (List Nat)} {wal : List Nat} {tree tree2 : BNode}
    {r : WalRecord} (hsw : SnapWalInv snap wal tree) (hr : WellFormedRecord r)
    (happly : ∀ t, WFRoot t → entries t = entries tree →
      WFRoot (applyRecord t r) ∧ entries (applyRecord t r) = entries tree2) :
    SnapWalInv snap (wal ++ encodeRecord r) tree2 := by
  obtain ⟨L, R, h1, h2, h3, h4, h5, h6, h7, h8⟩ := hsw
  have hrep : replayRecords (loadL L) (R ++ [r]) =
      applyRecord (replayRecords (loadL L) R) r := by
    simp [replayRecords, List.foldl_append]
  refine ⟨L, R ++ [r], h1, h2, h3, h4, ?_, ?_, ?_, ?_⟩
  · rw [h5, List.flatMap_append]
    simp
  · intro x hx
    rcases List.mem_append.1 hx with hx1 | hx2
    · exact h6 x hx1
    · rcases List.mem_singleton.1 hx2 with hx3
      rw [hx3]
      exact hr
  · rw [hrep]
    exact (happly _ h7 h8).1
  · rw [hrep]
    exact (happly _ h7 h8).2

theorem c1_bump {e2 : Engine} (hw : e2.hasWal = true) (hwf : WFRoot e2.tree)
    (hsm : entsSmall (entries e2.tree))
    (hlen : (entries e2.tree).length ≤ e2.opCount + 1)
    (hcnt : e2.opCount + 1 < 2 ^ 32)
    (hsw : SnapWalInv e2.snap e2.wal e2.tree) :
    C1Inv (bumpCounter e2) ∧ (bumpCounter e2).opCount = e2.opCount + 1 := by
  obtain ⟨hop, htr, hsnap, hwal⟩ := bumpCounter_spec e2 hw
  refine ⟨⟨by rw [bumpCounter_hasWal]; exact hw, by rw [htr]; exact hwf,
    by rw [htr]; exact hsm, by rw [htr, hop]; exact hlen, ?_⟩, hop⟩
  by_cases hc : e2.ckptInterval > 0 ∧ (e2.opCount + 1) % e2.ckptInterval = 0
  · rw [if_pos hc] at hsnap hwal
    rw [hsnap, hwal, htr]
    refine ⟨entries e2.tree, [], rfl, WFRoot.entsSorted' hwf, hsm, by omega, rfl,
      by intro x hx; simp at hx, ?_, ?_⟩
    · exact (loadL_spec (WFRoot.entsSorted' hwf)).1
    · exact (loadL_spec (WFRoot.entsSorted' hwf)).2
  · rw [if_neg hc] at hsnap hwal
    rw [hsnap, hwal, htr]
    exact hsw

/-! ### Reductions of the engine calls under known conditions -/

theorem ia_ne_ok (m : String) : Status.InvalidArgument m ≠ Status.Ok := by
  simp [Status.InvalidArgument, Status.Ok]

theorem nf_ne_ok (m : String) : Status.NotFound m ≠ Status.Ok := by
  simp [Status.NotFound, Status.Ok]

theorem enginePut_bigkey {e : Engine} {k : Key} {v : Val} (hw : e.hasWal = true)
    (hk : k.length > MAX_KEY_SIZE) :
    enginePut .Ok e k v = (.InvalidArgument "Key too large for WAL", e) := by
  have h1 : (Status.InvalidArgument "Key too large for WAL").isOk = false := rfl
  simp [enginePut, hw, writeRecord, writeRecordStatus, putRecord, hk, h1]

theorem enginePut_bigval {e : Engine} {k : Key} {v : Val} (hw : e.hasWal = true)
    (hk : k.length ≤ MAX_KEY_SIZE) (hv : v.length > MAX_VALUE_SIZE) :
    enginePut .Ok e k v = (.InvalidArgument "Value too large for WAL", e) := by
  have h1 : (Status.InvalidArgument "Value too large for WAL").isOk = false := rfl
  have h2 : ¬k.length > MAX_KEY_SIZE := by omega
  simp [enginePut, hw, writeRecord, writeRecordStatus, putRecord, h2, hv, h1]

theorem enginePut_ok_over {e : Engine} {k : Key} {v : Val} (hw : e.hasWal = true)
    (hks : k.length ≤ MAX_KEY_SIZE) (hvs : v.length ≤ MAX_VALUE_SIZE)
    (hp : (treeGet e.tree k).isSome = true) :
    enginePut .Ok e k v =
      (.Ok, { e with wal := e.wal ++ encodeRecord (putRecord k v),
                     tree := treePut e.tree k v }) := by
  have hwr := writeRecord_ok (putRecord k v) e.wal hks hvs
  have h1 : Status.Ok.isOk = true := rfl
  simp [enginePut, hw, hwr, h1, hp]

theorem enginePut_ok_fresh {e : Engine} {k : Key} {v : Val} (hw : e.hasWal = true)
    (hks : k.length ≤ MAX_KEY_SIZE) (hvs : v.length ≤ MAX_VALUE_SIZE)
    (hp : (treeGet e.tree k).isSome = false) :
    enginePut .Ok e k v =
      (.Ok, bumpCounter { e with
                            wal := e.wal ++ encodeRecord (putRecord k v),
                            tree := treePut e.tree k v }) := by
  have hwr := writeRecord_ok (putRecord k v) e.wal hks hvs
  have h1 : Status.Ok.isOk = true := rfl
  simp [enginePut, hw, hwr, h1, hp]

theorem engineUpdate_absent {e : Engine} {k : Key} {v : Val}
    (hg : treeGet e.tree k = none) :
    engineUpdate .Ok e k v = (.NotFound "Key not found for update", e) := by
  simp [engineUpdate, hg]

theorem engineUpdate_bigkey {e : Engine} {k : Key} {v : Val} {v0 : Val}
    (hw : e.hasWal = true) (hg : treeGet e.tree k = some v0)
    (hk : k.length > MAX_KEY_SIZE) :
    engineUpdate .Ok e k v = (.InvalidArgument "Key too large for WAL", e) := by
  have h1 : (Status.InvalidArgument "Key too large for WAL").isOk = false := rfl
  simp [engineUpdate, hg, hw, writeRecord, writeRecordStatus, updateRecord, hk, h1]

theorem engineUpdate_bigval {e : Engine} {k : Key} {v : Val} {v0 : Val}
    (hw : e.hasWal = true) (hg : treeGet e.tree k = some v0)
    (hk : k.length ≤ MAX_KEY_SIZE) (hv : v.length > MAX_VALUE_SIZE) :
    engineUpdate .Ok e k v = (.InvalidArgument "Value too large for WAL", e) := by
  have h1 : (Status.InvalidArgument "Value too large for WAL").isOk = false := rfl
  have h2 : ¬k.length > MAX_KEY_SIZE := by omega
  simp [engineUpdate, hg, hw, writeRecord, writeRecordStatus, updateRecord, h2, hv, h1]

theorem engineUpdate_ok_eq {e : Engine} {k : Key} {v : Val} {v0 : Val}
    (hw : e.hasWal = true) (hg : treeGet e.tree k = some v0)
    (hks : k.length ≤ MAX_KEY_SIZE) (hvs : v.length ≤ MAX_VALUE_SIZE) :
    engineUpdate .Ok e k v =
      (.Ok, bumpCounter { e with
                            wal := e.wal ++ encodeRecord (updateRecord k v),
                            tree := (updRec k v e.tree).getD e.tree }) := by
  have hwr := writeRecord_ok (updateRecord k v) e.wal hks hvs
  have h1 : Status.Ok.isOk = true := rfl
  simp [engineUpdate, hg, hw, hwr, h1]

theorem engineRemove_absent {e : Engine} {k : Key} (hg : treeGet e.tree k = none) :
    engineRemove .Ok e k = (.NotFound "Key not found for deletion", e) := by
  simp [engineRemove, hg]

theorem engineRemove_bigkey {e : Engine} {k : Key} {v0 : Val}
    (hw : e.hasWal = true) (hg : treeGet e.tree k = some v0)
    (hk : k.length > MAX_KEY_SIZE) :
    engineRemove .Ok e k = (.InvalidArgument "Key too large for WAL", e) := by
  have h1 : (Status.InvalidArgument "Key too large for WAL").isOk = false := rfl
  simp [engineRemove, hg, hw, writeRecord, writeRecordStatus, deleteRecord, hk, h1]

theorem engineRemove_ok_empty {e : Engine} {k : Key} {v0 : Val}
    (hw : e.hasWal = true) (hg : treeGet e.tree k = some v0)
    (hks : k.length ≤ MAX_KEY_SIZE)
    (hemp : isEmptyLeafRoot (delRec k e.tree).1 = true) :
    engineRemove .Ok e k =
      (.Ok, { e with wal := e.wal ++ encodeRecord (deleteRecord k),
                     tree := (delRec k e.tree).1 }) := by
  have hwr := writeRecord_ok (deleteRecord k) e.wal hks (by simp [deleteRecord])
  have h1 : Status.Ok.isOk = true := rfl
  simp [engineRemove, hg, hw, hwr, h1, hemp]

theorem engineRemove_ok_col {e : Engine} {k : Key} {v0 : Val}
    (hw : e.hasWal = true) (hg : treeGet e.tree k = some v0)
    (hks : k.length ≤ MAX_KEY_SIZE)
    (hemp : isEmptyLeafRoot (delRec k e.tree).1 = false) :
    engineRemove .Ok e k =
      (.Ok, bumpCounter { e with
                            wal := e.wal ++ encodeRecord (deleteRecord k),
                            tree := collapseRoot (delRec k e.tree).1 }) := by
  have hwr := writeRecord_ok (deleteRecord k) e.wal hks (by simp [deleteRecord])
  have h1 : Status.Ok.isOk = true := rfl
  simp [engineRemove, hg, hw, hwr, h1, hemp]

theorem c1_step (e : Engine) (op : Op) (hInv : C1Inv e)
    (hok : (applyOp e op).1 = Status.Ok) (hcnt : e.opCount + 1 < 2 ^ 32) :
    C1Inv (applyOp e op).2 ∧ (applyOp e op).2.opCount ≤ e.opCount + 1 := by
  obtain ⟨hw, hwf, hsm, hlen, hsw⟩ := hInv
  cases op with
  | put k v =>
    rw [show applyOp e (Op.put k v) = enginePut Status.Ok e k v from rfl] at hok ⊢
    by_cases hkb : k.length > MAX_KEY_SIZE
    · rw [enginePut_bigkey hw hkb] at hok
      exact absurd hok (ia_ne_ok _)
    have hks : k.length ≤ MAX_KEY_SIZE := not_lt.1 hkb
    by_cases hvb : v.length > MAX_VALUE_SIZE
    · rw [enginePut_bigval hw hks hvb] at hok
      exact absurd hok (ia_ne_ok _)
    have hvs : v.length ≤ MAX_VALUE_SIZE := not_lt.1 hvb
    have hr : WellFormedRecord (putRecord k v) :=
      ⟨Nat.le_refl 1, (by norm_num : (1 : Nat) ≤ 4), hks, hvs⟩
    obtain ⟨hwtp, hetp⟩ := @treePut_root e.tree k v hwf
    have happly : ∀ t, WFRoot t → entries t = entries e.tree →
        WFRoot (applyRecord t (putRecord k v)) ∧
          entries (applyRecord t (putRecord k v)) = entries (treePut e.tree k v) := by
      intro t hwt het
      rw [show applyRecord t (putRecord k v) = treePut t k v from rfl]
      obtain ⟨w1, w2⟩ := @treePut_root t k v hwt
      exact ⟨w1, by rw [w2, het, hetp]⟩
    have hsw2 : SnapWalInv e.snap (e.wal ++ encodeRecord (putRecord k v))
        (treePut e.tree k v) := snapWalInv_append hsw hr happly
    have hsme : entsSmall (entries (treePut e.tree k v)) := by
      rw [hetp]
      intro p hp
      rcases refInsert_mem_pair hp with h1 | h2
      · rw [h1]
        exact ⟨hks, hvs⟩
      · exact hsm p h2
    cases hpres : (treeGet e.tree k).isSome with
    | true =>
      rw [enginePut_ok_over hw hks hvs hpres]
      dsimp only
      have hlp : refLookup k (entries e.tree) ≠ none := by
        rw [← treeGet_root hwf]
        obtain ⟨v0, hv0⟩ := Option.isSome_iff_exists.1 hpres
        rw [hv0]
        exact fun h => Option.noConfusion h
      refine ⟨⟨hw, hwtp, hsme, ?_, hsw2⟩, ?_⟩
      · show (entries (treePut e.tree k v)).length ≤ e.opCount
        rw [hetp, refInsert_length_present (WFRoot.entsSorted' hwf) hlp]
        exact hlen
      · show e.opCount ≤ e.opCount + 1
        omega
    | false =>
      rw [enginePut_ok_fresh hw hks hvs hpres]
      dsimp only
      have hlnone : refLookup k (entries e.tree) = none := by
        rw [← treeGet_root hwf]
        cases htg : treeGet e.tree k with
        | none => rfl
        | some v0 =>
          rw [htg] at hpres
          simp at hpres
      have hlen2 : (entries (treePut e.tree k v)).length ≤ e.opCount + 1 := by
        rw [hetp, refInsert_length_absent hlnone]
        omega
      obtain ⟨hI, hop⟩ := c1_bump
        (show ({ e with wal := e.wal ++ encodeRecord (putRecord k v),
                        tree := treePut e.tree k v } : Engine).hasWal = true from hw)
        hwtp hsme hlen2 hcnt hsw2
      exact ⟨hI, le_of_eq hop⟩
  | update k v =>
    rw [show applyOp e (Op.update k v) = engineUpdate Status.Ok e k v from rfl] at hok ⊢
    cases hget : treeGet e.tree k with
    | none =>
      rw [engineUpdate_absent hget] at hok
      exact absurd hok (nf_ne_ok _)
    | some v0 =>
      by_cases hkb : k.length > MAX_KEY_SIZE
      · rw [engineUpdate_bigkey hw hget hkb] at hok
        exact absurd hok (ia_ne_ok _)
      have hks : k.length ≤ MAX_KEY_SIZE := not_lt.1 hkb
      by_cases hvb : v.length > MAX_VALUE_SIZE
      · rw [engineUpdate_bigval hw hget hks hvb] at hok
        exact absurd hok (ia_ne_ok _)
      have hvs : v.length ≤ MAX_VALUE_SIZE := not_lt.1 hvb
      have hr : WellFormedRecord (updateRecord k v) :=
        ⟨(by norm_num : (1 : Nat) ≤ 3), (by norm_num : (3 : Nat) ≤ 4), hks, hvs⟩
      have hlp : refLookup k (entries e.tree) = some v0 := by
        rw [← treeGet_root hwf]
        exact hget
      rcases @updRec_root e.tree k v hwf with ⟨-, hn⟩ | ⟨t2, hupd, hwt2, hent2, -⟩
      · rw [hlp] at hn
        cases hn
      have hgetD : (updRec k v e.tree).getD e.tree = t2 := by
        rw [hupd]
        rfl
      have happly : ∀ t, WFRoot t → entries t = entries e.tree →
          WFRoot (applyRecord t (updateRecord k v)) ∧
            entries (applyRecord t (updateRecord k v)) =
              entries ((updRec k v e.tree).getD e.tree) := by
        intro t hwt het
        rw [show applyRecord t (updateRecord k v) =
          (match updRec k v t with | some t1 => t1 | none => treePut t k v) from rfl]
        rcases @updRec_root t k v hwt with ⟨-, hn⟩ | ⟨t2r, hu, hw2r, he2r, -⟩
        · rw [het, hlp] at hn
          cases hn
        · rw [hu]
          refine ⟨hw2r, ?_⟩
          show entries t2r = _
          rw [he2r, het, hgetD, hent2]
      have hsw2 : SnapWalInv e.snap (e.wal ++ encodeRecord (updateRecord k v))
          ((updRec k v e.tree).getD e.tree) := snapWalInv_append hsw hr happly
      have hsme : entsSmall (entries ((updRec k v e.tree).getD e.tree)) := by
        rw [hgetD, hent2]
        intro p hp
        rcases refInsert_mem_pair hp with h1 | h2
        · rw [h1]
          exact ⟨hks, hvs⟩
        · exact hsm p h2
      have hlen2 : (entries ((updRec k v e.tree).getD e.tree)).length ≤ e.opCount + 1 := by
        rw [hgetD, hent2, refInsert_length_present (WFRoot.entsSorted' hwf)
          (by rw [hlp]; exact fun h => Option.noConfusion h)]
        omega
      rw [engineUpdate_ok_eq hw hget hks hvs]
      dsimp only
      obtain ⟨hI, hop⟩ := c1_bump
        (show ({ e with wal := e.wal ++ encodeRecord (updateRecord k v),
                        tree := (updRec k v e.tree).getD e.tree } : Engine).hasWal = true
          from hw)
        (by show WFRoot ((updRec k v e.tree).getD e.tree); rw [hgetD]; exact hwt2)
        hsme hlen2 hcnt hsw2
      exact ⟨hI, le_of_eq hop⟩
  | remove k =>
    rw [show applyOp e (Op.remove k) = engineRemove Status.Ok e k from rfl] at hok ⊢
    cases hget : treeGet e.tree k with
    | none =>
      rw [engineRemove_absent hget] at hok
      exact absurd hok (nf_ne_ok _)
    | some v0 =>
      by_cases hkb : k.length > MAX_KEY_SIZE
      · rw [engineRemove_bigkey hw hget hkb] at hok
        exact absurd hok (ia_ne_ok _)
      have hks : k.length ≤ MAX_KEY_SIZE := not_lt.1 hkb
      have hr : WellFormedRecord (deleteRecord k) :=
        ⟨(by norm_num : (1 : Nat) ≤ 2), (by norm_num : (2 : Nat) ≤ 4), hks,
          (by norm_num : (0 : Nat) ≤ 1024)⟩
      have hlp : refLookup k (entries e.tree) = some v0 := by
        rw [← treeGet_root hwf]
        exact hget
      rcases @treeRemove_root e.tree k hwf with ⟨-, hn⟩ | ⟨t2, hrm, hwt2, hent2, -⟩
      · rw [hlp] at hn
        cases hn
      have hrm2 : treeRemove e.tree k =
          (if isEmptyLeafRoot (delRec k e.tree).1 then some (delRec k e.tree).1
            else some (collapseRoot (delRec k e.tree).1)) := by
        rw [treeRemove, hget]
      have happly : ∀ t2e, entries t2e = entries t2 →
          ∀ t, WFRoot t → entries t = entries e.tree →
          WFRoot (applyRecord t (deleteRecord k)) ∧
            entries (applyRecord t (deleteRecord k)) = entries t2e := by
        intro t2e ht2e t hwt het
        rw [show applyRecord t (deleteRecord k) =
          (match treeRemove t k with | some t1 => t1 | none => t) from rfl]
        rcases @treeRemove_root t k hwt with ⟨-, hn⟩ | ⟨t2r, hu, hw2r, he2r, -⟩
        · rw [het, hlp] at hn
          cases hn
        · rw [hu]
          refine ⟨hw2r, ?_⟩
          show entries t2r = _
          rw [he2r, het, ht2e, hent2]
      by_cases hemp : isEmptyLeafRoot (delRec k e.tree).1 = true
      · rw [if_pos hemp] at hrm2
        have ht2 : t2 = (delRec k e.tree).1 :=
          Option.some.inj (hrm.symm.trans hrm2)
        rw [engineRemove_ok_empty hw hget hks hemp]
        dsimp only
        have hsme : entsSmall (entries (delRec k e.tree).1) := by
          rw [← ht2, hent2]
          intro p hp
          exact hsm p (refErase_mem hp)
        refine ⟨⟨hw, by rw [← ht2]; exact hwt2, hsme, ?_, ?_⟩, ?_⟩
        · show (entries (delRec k e.tree).1).length ≤ e.opCount
          rw [← ht2, hent2]
          exact le_trans (refErase_length_le _ _) hlen
        · exact snapWalInv_append hsw hr (happly _ (by rw [ht2]))
        · show e.opCount ≤ e.opCount + 1
          omega
      · rw [if_neg hemp] at hrm2
        have ht2 : t2 = collapseRoot (delRec k e.tree).1 :=
          Option.some.inj (hrm.symm.trans hrm2)
        rw [engineRemove_ok_col hw hget hks (by simpa using hemp)]
        dsimp only
        have hsme : entsSmall (entries (collapseRoot (delRec k e.tree).1)) := by
          rw [← ht2, hent2]
          intro p hp
          exact hsm p (refErase_mem hp)
        have hlen2 : (entries (collapseRoot (delRec k e.tree).1)).length ≤ e.opCount + 1 := by
          rw [← ht2, hent2]
          exact le_trans (refErase_length_le _ _) (by omega)
        obtain ⟨hI, hop⟩ := c1_bump
          (show ({ e with wal := e.wal ++ encodeRecord (deleteRecord k),
                          tree := collapseRoot (delRec k e.tree).1 } : Engine).hasWal = true
            from hw)
          (by rw [← ht2]; exact hwt2) hsme hlen2 hcnt
          (snapWalInv_append hsw hr (happly _ (by rw [ht2])))
        exact ⟨hI, le_of_eq hop⟩

/-! ### Well-formedness of the root across runs, and node-size bounds -/

theorem bumpCounter_tree (e : Engine) : (bumpCounter e).tree = e.tree := by
  simp only [bumpCounter, createCheckpoint]
  split
  · split <;> rfl
  · rfl

theorem enginePut_tree (io : Status) (e : Engine) (k : Key) (v : Val) :
    (enginePut io e k v).2.tree = e.tree ∨
      (enginePut io e k v).2.tree = treePut e.tree k v := by
  unfold enginePut
  dsimp only
  repeat' split
  all_goals first
    | exact Or.inl rfl
    | exact Or.inr rfl
    | exact Or.inr (by rw [bumpCounter_tree])

theorem engineUpdate_tree (io : Status) (e : Engine) (k : Key) (v : Val) :
    (engineUpdate io e k v).2.tree = e.tree ∨
      (engineUpdate io e k v).2.tree = (updRec k v e.tree).getD e.tree := by
  unfold engineUpdate
  dsimp only
  repeat' split
  all_goals first
    | exact Or.inl rfl
    | exact Or.inr rfl
    | exact Or.inr (by rw [bumpCounter_tree])

theorem engineRemove_tree (io : Status) (e : Engine) (k : Key) :
    (engineRemove io e k).2.tree = e.tree ∨
      (treeGet e.tree k ≠ none ∧
        (engineRemove io e k).2.tree =
          (if isEmptyLeafRoot (delRec k e.tree).1 then (delRec k e.tree).1
            else collapseRoot (delRec k e.tree).1)) := by
  unfold engineRemove
  dsimp only
  repeat' split
  all_goals first
    | exact Or.inl rfl
    | refine Or.inr ⟨?_, rfl⟩
    | refine Or.inr ⟨?_, by rw [bumpCounter_tree]⟩
  all_goals simp_all

theorem applyOp_tree_wf (e : Engine) (op : Op) (h : WFRoot e.tree) :
    WFRoot (applyOp e op).2.tree := by
  cases op with
  | put k v =>
    rcases enginePut_tree .Ok e k v with h1 | h1
    · rw [show applyOp e (Op.put k v) = enginePut Status.Ok e k v from rfl, h1]
      exact h
    · rw [show applyOp e (Op.put k v) = enginePut Status.Ok e k v from rfl, h1]
      exact (@treePut_root e.tree k v h).1
  | update k v =>
    rcases engineUpdate_tree .Ok e k v with h1 | h1 <;>
      rw [show applyOp e (Op.update k v) = engineUpdate Status.Ok e k v from rfl, h1]
    · exact h
    · rcases @updRec_root e.tree k v h with ⟨hn, -⟩ | ⟨t2, hu, hw2, -, -⟩
      · rw [hn]
        exact h
      · rw [hu]
        exact hw2
  | remove k =>
    rcases engineRemove_tree .Ok e k with h1 | ⟨hget, h1⟩ <;>
      rw [show applyOp e (Op.remove k) = engineRemove Status.Ok e k from rfl, h1]
    · exact h
    · have hlp : refLookup k (entries e.tree) ≠ none := by
        rw [← treeGet_root h]
        exact hget
      rcases @treeRemove_root e.tree k h with ⟨-, hn⟩ | ⟨t2, hrm, hw2, -, -⟩
      · exact absurd hn hlp
      · have hrm2 : treeRemove e.tree k =
            (if isEmptyLeafRoot (delRec k e.tree).1 then some (delRec k e.tree).1
              else some (collapseRoot (delRec k e.tree).1)) := by
          rw [treeRemove]
          cases htg : treeGet e.tree k with
          | none => exact absurd htg hget
          | some v0 => rfl
        rw [hrm] at hrm2
        by_cases hemp : isEmptyLeafRoot (delRec k e.tree).1 = true
        · rw [if_pos hemp] at hrm2 ⊢
          rw [← Option.some.inj hrm2]
          exact hw2
        · rw [if_neg hemp] at hrm2 ⊢
          rw [← Option.some.inj hrm2]
          exact hw2

theorem runOps_tree_wf (S : List Op) (e : Engine) (h : WFRoot e.tree) :
    WFRoot (runOps e S).tree := by
  induction S generalizing e with
  | nil => exact h
  | cons op S ih => exact ih (applyOp e op).2 (applyOp_tree_wf e op h)

mutual

theorem wfn_size_bounds {lo hi : Option Key} {d : Nat} {t : BNode} (h : WFN lo hi d t) :
    ∀ n ∈ allNodes t,
      (isLeafNode n = true → 2 ≤ nodeSize n ∧ nodeSize n ≤ 3) ∧
      (isLeafNode n = false → 1 ≤ nodeSize n ∧ nodeSize n ≤ 4) := by
  match d, t with
  | 0, .leaf es =>
    obtain ⟨h1, h2, -, -⟩ := h
    intro n hn
    have hne : n = .leaf es := by simpa [allNodes] using hn
    subst hne
    exact ⟨fun _ => ⟨h1, h2⟩, fun hF => by simp [isLeafNode] at hF⟩
  | d + 1, .node f =>
    obtain ⟨h1, h2, h3⟩ := h
    intro n hn
    rw [show allNodes (.node f) = .node f :: allNodesF f from rfl] at hn
    rcases List.mem_cons.1 hn with hn1 | hn2
    · subst hn1
      exact ⟨fun hT => by simp [isLeafNode] at hT, fun _ => ⟨h1, h2⟩⟩
    · exact wff_size_bounds h3 n hn2
  | 0, .node f => exact absurd h (by simp [WFN])
  | d + 1, .leaf es => exact absurd h (by simp [WFN])
termination_by structural t

theorem wff_size_bounds {lo hi : Option Key} {d : Nat} {f : Frame} (h : WFF lo hi d f) :
    ∀ n ∈ allNodesF f,
      (isLeafNode n = true → 2 ≤ nodeSize n ∧ nodeSize n ≤ 3) ∧
      (isLeafNode n = false → 1 ≤ nodeSize n ∧ nodeSize n ≤ 4) := by
  match f with
  | .last c => exact wfn_size_bounds h
  | .cons c s rest =>
    obtain ⟨hc, hrest⟩ := h
    intro n hn
    rw [show allNodesF (.cons c s rest) = allNodes c ++ allNodesF rest from rfl] at hn
    rcases List.mem_append.1 hn with hn1 | hn2
    · exact wfn_size_bounds hc n hn1
    · exact wff_size_bounds hrest n hn2
termination_by structural f

end

theorem wfRoot_nonRoot_bounds {t : BNode} (h : WFRoot t) :
    ∀ n ∈ nonRootNodes t,
      (isLeafNode n = true → 2 ≤ nodeSize n ∧ nodeSize n < maxDegree) ∧
      (isLeafNode n = false → 1 ≤ nodeSize n ∧ nodeSize n ≤ maxDegree) := by
  cases t with
  | leaf es =>
    intro n hn
    simp [nonRootNodes] at hn
  | node f =>
    obtain ⟨d, -, -, h3⟩ := h
    intro n hn
    obtain ⟨hl, hi⟩ := wff_size_bounds h3 n hn
    have hmd : maxDegree = 4 := rfl
    exact ⟨fun ht => ⟨(hl ht).1, by have := (hl ht).2; omega⟩,
      fun hf => ⟨(hi hf).1, by have := (hi hf).2; omega⟩⟩

theorem c1_run (S : List Op) (e : Engine) (hInv : C1Inv e) (hok : opsOk e S)
    (hcnt : e.opCount + S.length < 2 ^ 32) :
    C1Inv (runOps e S) ∧ (runOps e S).opCount ≤ e.opCount + S.length := by
  induction S generalizing e with
  | nil =>
    refine ⟨hInv, ?_⟩
    show e.opCount ≤ e.opCount + ([] : List Op).length
    omega
  | cons op S ih =>
    obtain ⟨hok1, hok2⟩ := hok
    have hcnt' : e.opCount + (op :: S).length = e.opCount + 1 + S.length := by
      simp only [List.length_cons]
      omega
    obtain ⟨hInv2, hcnt2⟩ := c1_step e op hInv hok1 (by omega)
    obtain ⟨h1, h2⟩ := ih (applyOp e op).2 hInv2 hok2 (by omega)
    refine ⟨h1, ?_⟩
    show (runOps (applyOp e op).2 S).opCount ≤ e.opCount + (op :: S).length
    omega

/-! ### C1: recovery equivalence -/

theorem recoverFromWal_spec {snap : Option (List Nat)} {wal : List Nat} {tree : BNode}
    (hsw : SnapWalInv snap wal tree) :
    (recoverFromWal (reopenEngine snap wal)).1 = Status.Ok ∧
    entries (recoverFromWal (reopenEngine snap wal)).2.tree = entries tree := by
  obtain ⟨L, R, h1, h2, h3, h4, h5, h6, h7, h8⟩ := hsw
  cases snap with
  | none =>
    have h1e : L = [] := h1
    subst h1e
    have hrw : replayWal (.leaf []) wal = (.Ok, replayRecords (loadL []) R) := by
      rw [h5]
      exact replayWal_encoded R _ h6
    constructor
    · simp [recoverFromWal, reopenEngine, freshEngine, hrw]
    · simp [recoverFromWal, reopenEngine, freshEngine, hrw]
      exact h8
  | some bytes =>
    have h1e : bytes = serializeSnapshot L := h1
    have hload : loadSnapshot (.leaf []) bytes = (.Ok, loadL L) := by
      rw [h1e]
      exact loadSnapshot_serialized (.leaf []) L
        (fun p hp => ⟨le_trans (h3 p hp).1 (by norm_num [MAX_KEY_SIZE]),
          le_trans (h3 p hp).2 (by norm_num [MAX_VALUE_SIZE, MAX_KEY_SIZE])⟩) h4
    have hrw : replayWal (loadL L) wal = (.Ok, replayRecords (loadL L) R) := by
      rw [h5]
      exact replayWal_encoded R _ h6
    constructor
    · simp [recoverFromWal, reopenEngine, freshEngine, hload, hrw, Status.isOk, Status.Ok]
    · simp [recoverFromWal, reopenEngine, freshEngine, hload, hrw, Status.isOk, Status.Ok]
      exact h8

/-- C1: for every sequence of public mutations on a fresh engine with a WAL
path in which every applied call returned Ok (and of realistic length: the
snapshot header stores the entry count as a 32-bit field), a final `flush_wal`
returns Ok, and recovering a fresh engine from the snapshot and WAL left on
disk succeeds and rebuilds a tree with exactly the same key-to-value
mapping. -/
theorem c1_recovery_equivalence (S : List Op) (h32 : S.length < 2 ^ 32)
    (hok : opsOk (freshEngine true) S) :
    (flushWal (runOps (freshEngine true) S)).1 = Status.Ok ∧
    (recoverFromWal (reopenEngine (runOps (freshEngine true) S).snap
        (runOps (freshEngine true) S).wal)).1 = Status.Ok ∧
    entries (recoverFromWal (reopenEngine (runOps (freshEngine true) S).snap
        (runOps (freshEngine true) S).wal)).2.tree =
      entries (runOps (freshEngine true) S).tree := by
  have hwfe : WFRoot (BNode.leaf ([] : List (Key × Val))) :=
    ⟨by simp, by simp [entsSorted], by intro p hp; simp at hp⟩
  have hInv0 : C1Inv (freshEngine true) := by
    refine ⟨rfl, hwfe, ?_, ?_, [], [], rfl, by simp [entsSorted],
      by intro p hp; simp at hp, by norm_num, rfl, by intro x hx; simp at hx,
      hwfe, rfl⟩
    · intro p hp
      simp [entries, freshEngine] at hp
    · simp [entries, freshEngine]
  obtain ⟨hInv, -⟩ := c1_run S (freshEngine true) hInv0 hok
    (by show 0 + S.length < 2 ^ 32; omega)
  obtain ⟨hw, hwf, hsm, hlen, hsw⟩ := hInv
  obtain ⟨hst, hent⟩ := recoverFromWal_spec hsw
  exact ⟨rfl, hst, hent⟩

theorem c1_recovery_equivalence_witness :
    ([Op.put [1] [2]] : List Op).length < 2 ^ 32 ∧
      opsOk (freshEngine true) [Op.put [1] [2]] ∧
      ((flushWal (runOps (freshEngine true) [Op.put [1] [2]])).1 = Status.Ok ∧
        (recoverFromWal (reopenEngine (runOps (freshEngine true) [Op.put [1] [2]]).snap
            (runOps (freshEngine true) [Op.put [1] [2]]).wal)).1 = Status.Ok ∧
        entries (recoverFromWal (reopenEngine
            (runOps (freshEngine true) [Op.put [1] [2]]).snap
            (runOps (freshEngine true) [Op.put [1] [2]]).wal)).2.tree =
          entries (runOps (freshEngine true) [Op.put [1] [2]]).tree) :=
  ⟨by norm_num, ⟨rfl, trivial⟩,
    c1_recovery_equivalence [Op.put [1] [2]] (by norm_num) ⟨rfl, trivial⟩⟩

/-! ### C6: the node size invariant -/

/-- C6 counterexample: `get_min_keys()` is `(4 + 1) / 2 = 2` in integer
division, not `⌈(M+1)/2⌉ = 3`, and after four ascending puts the root splits
into two non-root leaves of two entries each — below the claimed minimum of
three. -/
theorem c6_min_keys_counterexample :
    getMinKeys = 2 ∧ getMinKeys ≠ (maxDegree + 1 + 1) / 2 ∧
    ∃ n ∈ nonRootNodes (runOps (freshEngine false)
      [Op.put [1] [1], Op.put [2] [1], Op.put [3] [1], Op.put [4] [1]]).tree,
      nodeSize n < 3 := by
  refine ⟨rfl, by decide, ?_⟩
  decide

/-- C6 amended: after any sequence of public operations on a fresh engine
(with or without a WAL path), every non-root leaf holds between
`get_min_keys() = 2` and `max_degree - 1 = 3` entries, and every non-root
internal node holds between 1 and 4 keys (4 is reachable through a merge;
1 through an internal split). -/
theorem c6_node_size_invariant (withWal : Bool) (S : List Op) :
    ∀ n ∈ nonRootNodes (runOps (freshEngine withWal) S).tree,
      (isLeafNode n = true → getMinKeys ≤ nodeSize n ∧ nodeSize n < maxDegree) ∧
      (isLeafNode n = false → 1 ≤ nodeSize n ∧ nodeSize n ≤ maxDegree) := by
  have hwf : WFRoot (freshEngine withWal).tree :=
    ⟨by simp, by simp [entsSorted], by intro p hp; simp [entries] at hp⟩
  intro n hn
  obtain ⟨hl, hi⟩ := wfRoot_nonRoot_bounds (runOps_tree_wf S _ hwf) n hn
  exact ⟨fun ht => (hl ht), fun hf => (hi hf)⟩

theorem c6_node_size_invariant_witness :
    BNode.leaf [([1], [1]), ([2], [1])] ∈ nonRootNodes (runOps (freshEngine false)
      [Op.put [1] [1], Op.put [2] [1], Op.put [3] [1], Op.put [4] [1]]).tree ∧
    ((isLeafNode (BNode.leaf [([1], [1]), ([2], [1])]) = true →
        getMinKeys ≤ nodeSize (BNode.leaf [([1], [1]), ([2], [1])]) ∧
        nodeSize (BNode.leaf [([1], [1]), ([2], [1])]) < maxDegree) ∧
      (isLeafNode (BNode.leaf [([1], [1]), ([2], [1])]) = false →
        1 ≤ nodeSize (BNode.leaf [([1], [1]), ([2], [1])]) ∧
        nodeSize (BNode.leaf [([1], [1]), ([2], [1])]) ≤ maxDegree)) :=
  ⟨List.mem_cons_self _ _,
    c6_node_size_invariant false
      [Op.put [1] [1], Op.put [2] [1], Op.put [3] [1], Op.put [4] [1]]
      (BNode.leaf [([1], [1]), ([2], [1])]) (List.mem_cons_self _ _)⟩
end EmbraceDB
